import Mathlib

/-!
# rxparse: choppers, their compiler and the tokenizer

A shallow embedding of `main.go`.  A Go `string` / `[]byte` is a list of byte
values (`List Nat`), a Go `int` is an `Int` (64-bit, wrapped where a user
supplied operand is added), a run-time fault (slice bounds out of range, index
out of range) is `none`.

A Go slice has a length and a capacity.  `input[lo:hi]` is checked against the
capacity, not the length, and the bytes between the two belong to the backing
array.  The line handed to `Chop` is therefore a pair: `input`, the bytes of the
line, and `slack`, the spare bytes of its backing array after the line (how
many there are is the allocator's choice; `[]` means capacity = length).

The process-wide variables `noTrim` and `fieldSep` are the record `Config`.

What is taken from the platform and the standard library:
* `int` has 64 bits.  `start + rc.until` adds an operand the user chose and is
  wrapped; the sums in `DelimChunk.Chop` add lengths of slices held in memory
  and are not.
* `strconv.Atoi`, `utf8.DecodeRune`, `unicode.IsSpace`, `bytes.Index`,
  `strings.Trim` and `strings.HasSuffix` are modelled by what they compute.
* `bufio.Scanner` over a `strings.Reader` is the state machine `Scanner`: a
  buffer of 4096 bytes that is doubled when full, up to 65536 bytes
  (`ErrTooLong` beyond), filled by reads of as many bytes as fit, the split
  function called on the window between two reads (`ErrAdvanceTooFar` when it
  advances too far).  `scanBuffered` is what `Scan` amounts to once the reader
  is exhausted (`scanLoop_buffered`), which is from the first read on for an
  expression of at most 4096 bytes (`tokens_buffered`).
* `strconv.Unquote` is a parameter of `mainRun`; flags, files and the rendering
  of the output are left out, `mainRun` returns the mappings and the exit code.
* The loops of the source are recursions on a fuel argument; `skipSpaces_fuel`,
  `scanWord_fuel`, `skipRepeats_fuel`, `scanLoop_fuel` and `scanAll_fuel` show
  that the fuel given is never used up.
-/

namespace Rxparse

/-! ## Configuration and the value mapping -/

/-- The globals `noTrim` and `fieldSep`, set once from the flags `-t` and `-d`. -/
structure Config where
  noTrim : Bool
  fieldSep : List Nat
deriving DecidableEq

/-- The flag defaults: trimming on, field separator `" *"`. -/
def defaultConfig : Config := ⟨false, [32, 42]⟩

/-- The `map[string]string` that receives the fields of one line. -/
abbrev Values := List Nat → Option (List Nat)

/-- The mapping `make(map[string]string)`, also the state after the `delete` loop. -/
def Values.empty : Values := fun _ => none

/-- The assignment `values[k] = v`. -/
def Values.set (m : Values) (k v : List Nat) : Values :=
  fun k' => if k' = k then some v else m k'

/-- The name `"."`: extract and discard. -/
def dot : List Nat := [46]

/-! ## Library functions used by the choppers -/

/-- Go `trimLeftByte`: drop the leading bytes equal to `c`. -/
def trimLeftByte : List Nat → Nat → List Nat
  | [], _ => []
  | b :: t, c => if b = c then trimLeftByte t c else b :: t

/-- Go `trimRightByte`: drop the trailing bytes equal to `c`. -/
def trimRightByte (s : List Nat) (c : Nat) : List Nat :=
  (trimLeftByte s.reverse c).reverse

/-- Go `strings.Trim(s, " ")`: with a cutset of one ASCII byte it is
`trimLeftByte(trimRightByte(s, c), c)`. -/
def Trim (s : List Nat) (c : Nat) : List Nat :=
  trimLeftByte (trimRightByte s c) c

/-- Go `bytes.HasPrefix`. -/
def HasPrefix : List Nat → List Nat → Bool
  | _, [] => true
  | [], _ :: _ => false
  | b :: s, p :: ps => b = p && HasPrefix s ps

/-- First offset at or after `i` (counted from `i`) at which `sep` starts. -/
def indexFrom (sep : List Nat) : List Nat → Nat → Option Nat
  | [], i => if sep = [] then some i else none
  | b :: t, i => if HasPrefix (b :: t) sep then some i else indexFrom sep t (i + 1)

/-- Go `bytes.Index(s, sep)`: offset of the first occurrence of `sep`, or `-1`. -/
def Index (s sep : List Nat) : Int :=
  match indexFrom sep s 0 with
  | some i => (i : Int)
  | none => -1

/-- Two's-complement wrap-around of 64-bit `int` arithmetic. -/
def wrapInt (x : Int) : Int := (x + 2 ^ 63) % 2 ^ 64 - 2 ^ 63

/-- The slice expression `input[lo:hi]`: faults unless `0 ≤ lo ≤ hi ≤ cap(input)`;
the bytes from `len(input)` up to `hi` come from the spare capacity. -/
def slice (input slack : List Nat) (lo hi : Int) : Option (List Nat) :=
  if 0 ≤ lo ∧ lo ≤ hi ∧ hi ≤ ((input.length + slack.length : Nat) : Int) then
    some (((input ++ slack).take hi.toNat).drop lo.toNat)
  else none

/-- The slice expression `input[lo:]`: faults unless `0 ≤ lo ≤ len(input)`. -/
def sliceFrom (input : List Nat) (lo : Int) : Option (List Nat) :=
  if 0 ≤ lo ∧ lo ≤ (input.length : Int) then some (input.drop lo.toNat) else none

/-! ## The choppers -/

/-- The function `func Text(text []byte) string`. -/
def Text (cfg : Config) (text : List Nat) : List Nat :=
  if !cfg.noTrim then Trim text 32 else text

/-- Extracts up to an absolute position (the field `until` is `until_` here). -/
structure AbsChunk where
  name : List Nat
  until_ : Int
deriving DecidableEq

/-- Extracts up to a relative position. -/
structure RelChunk where
  name : List Nat
  until_ : Int
deriving DecidableEq

/-- Extracts up to the next occurrence of the delimiter. -/
structure DelimChunk where
  name : List Nat
  until_ : List Nat
  skipAll : Bool
deriving DecidableEq

/-- The interface `Chopper` with its three implementations. -/
inductive Chopper where
  | abs (ac : AbsChunk)
  | rel (rc : RelChunk)
  | delim (dc : DelimChunk)
deriving DecidableEq

/-- The field name of a chopper. -/
def Chopper.name : Chopper → List Nat
  | .abs ac => ac.name
  | .rel rc => rc.name
  | .delim dc => dc.name

/-- The method `func (ac *AbsChunk) Chop`: the new cursor and the mapping, `none` on a fault. -/
def AbsChunk.Chop (cfg : Config) (ac : AbsChunk) (input slack : List Nat) (start : Int)
    (values : Values) : Option (Int × Values) :=
  if ac.name ≠ dot then
    match slice input slack start ac.until_ with
    | none => none
    | some text => some (ac.until_, values.set ac.name (Text cfg text))
  else some (ac.until_, values)

/-- The method `func (rc *RelChunk) Chop`. -/
def RelChunk.Chop (cfg : Config) (rc : RelChunk) (input slack : List Nat) (start : Int)
    (values : Values) : Option (Int × Values) :=
  if rc.name ≠ dot then
    match slice input slack start (wrapInt (start + rc.until_)) with
    | none => none
    | some text => some (wrapInt (start + rc.until_), values.set rc.name (Text cfg text))
  else some (wrapInt (start + rc.until_), values)

/-- The loop `for end < len(input) && string(input[end:end+delimLen]) == dc.until_`
of `DelimChunk.Chop`; `fuel` bounds the iterations (each one adds
`delimLen ≥ 1` to `end`, so `len(input)` of them are never used up, see
`skipRepeats_fuel`). -/
def skipRepeats (input slack delim : List Nat) : Nat → Int → Option Int
  | 0, e => some e
  | fuel + 1, e =>
    if e < (input.length : Int) then
      match slice input slack e (e + (delim.length : Int)) with
      | none => none
      | some s => if s = delim then skipRepeats input slack delim fuel (e + (delim.length : Int))
                  else some e
    else some e

/-- The slices `input[end:end+delimLen]` that the skip loop of `DelimChunk.Chop`
evaluates, as pairs of bounds, in the order of the iterations (same loop as
`skipRepeats`, listing what it reads). -/
def skipSlices (input slack delim : List Nat) : Nat → Int → List (Int × Int)
  | 0, _ => []
  | fuel + 1, e =>
    if e < (input.length : Int) then
      (e, e + (delim.length : Int)) ::
        (match slice input slack e (e + (delim.length : Int)) with
          | none => []
          | some s => if s = delim then skipSlices input slack delim fuel (e + (delim.length : Int))
                      else [])
    else []

/-- The part of `DelimChunk.Chop` that computes `text` and `end` (all of it but
the final `if dc.name != "."`). -/
def DelimChunk.span (dc : DelimChunk) (input slack : List Nat) (start : Int) :
    Option (List Nat × Int) :=
  if dc.until_ = [] then
    match sliceFrom input start with
    | none => none
    | some text => some (text, start + (text.length : Int))
  else
    match sliceFrom input start with
    | none => none
    | some rest =>
      let endText := Index rest dc.until_
      if endText = -1 then some (rest, start + (rest.length : Int))
      else
        match slice input slack start (start + endText) with
        | none => none
        | some text =>
          let e := start + (text.length : Int) + (dc.until_.length : Int)
          if dc.skipAll then
            match skipRepeats input slack dc.until_ input.length e with
            | none => none
            | some e' => some (text, e')
          else some (text, e)

/-- The method `func (dc *DelimChunk) Chop`. -/
def DelimChunk.Chop (cfg : Config) (dc : DelimChunk) (input slack : List Nat) (start : Int)
    (values : Values) : Option (Int × Values) :=
  match dc.span input slack start with
  | none => none
  | some (text, e) =>
    if dc.name ≠ dot then some (e, values.set dc.name (Text cfg text))
    else some (e, values)

/-- Dynamic dispatch of `chopper.Chop(text, next, values)`. -/
def Chopper.Chop (cfg : Config) : Chopper → List Nat → List Nat → Int → Values →
    Option (Int × Values)
  | .abs ac => ac.Chop cfg
  | .rel rc => rc.Chop cfg
  | .delim dc => dc.Chop cfg

/-- The loop `for _, chopper := range choppers { next = chopper.Chop(text, next, values) }`
of `main`: the final cursor (`none` when a chopper faulted, which ends the run)
and the mapping as it stands at that point. -/
def chopLine (cfg : Config) (input slack : List Nat) :
    List Chopper → Int → Values → Option Int × Values
  | [], next, values => (some next, values)
  | ch :: rest, next, values =>
    match ch.Chop cfg input slack next values with
    | none => (none, values)
    | some (next', values') => chopLine cfg input slack rest next' values'

/-- Like `chopLine`, listing the cursor after every chopper. -/
def cursorTrace (cfg : Config) (input slack : List Nat) :
    List Chopper → Int → Values → Option (List Int)
  | [], _, _ => some []
  | ch :: rest, next, values =>
    match ch.Chop cfg input slack next values with
    | none => none
    | some (next', values') =>
      match cursorTrace cfg input slack rest next' values' with
      | none => none
      | some tr => some (next' :: tr)

/-- Go `bytes.Repeat(d, k)`. -/
def Repeat (d : List Nat) : Nat → List Nat
  | 0 => []
  | k + 1 => d ++ Repeat d k

/-- The chopper `ch`, applied at cursor `c`, stays within the line: the target
offset of an Absolute or Relative chopper lies between the cursor and
`len(line)`; a Delimited chopper reads no slice that ends beyond `len(line)`
(with no spare capacity after the line it does not fault). -/
def WithinLine (line : List Nat) (ch : Chopper) (c : Int) : Prop :=
  match ch with
  | .abs ac => c ≤ ac.until_ ∧ ac.until_ ≤ (line.length : Int)
  | .rel rc => 0 ≤ rc.until_ ∧ c + rc.until_ ≤ (line.length : Int)
  | .delim dc => (dc.span line [] c).isSome = true

/-- Every chopper of the list stays within the line at the cursor it is applied at. -/
def AllWithin (cfg : Config) (line slack : List Nat) : List Chopper → Int → Values → Prop
  | [], _, _ => True
  | ch :: rest, c, values =>
    WithinLine line ch c ∧
      ∀ c' values', ch.Chop cfg line slack c values = some (c', values') →
        AllWithin cfg line slack rest c' values'

/-! ## The tokenizer -/

/-- Go `utf8.RuneError`. -/
def RuneError : Nat := 0xFFFD

/-- The code point of a two-byte encoding: `rune(p0&mask2)<<6 | rune(b1&maskx)`. -/
def rune2 (p0 b1 : Nat) : Nat := ((p0 &&& 0x1F) <<< 6) ||| (b1 &&& 0x3F)

/-- The code point of a three-byte encoding. -/
def rune3 (p0 b1 b2 : Nat) : Nat :=
  ((p0 &&& 0x0F) <<< 12) ||| ((b1 &&& 0x3F) <<< 6) ||| (b2 &&& 0x3F)

/-- The code point of a four-byte encoding. -/
def rune4 (p0 b1 b2 b3 : Nat) : Nat :=
  ((p0 &&& 0x07) <<< 18) ||| ((b1 &&& 0x3F) <<< 12) ||| ((b2 &&& 0x3F) <<< 6) ||| (b3 &&& 0x3F)

/-- Lower end of the accept range of the second byte after the lead byte `p0`
(the table `acceptRanges`). -/
def acceptLo (p0 : Nat) : Nat := if p0 = 0xE0 then 0xA0 else if p0 = 0xF0 then 0x90 else 0x80

/-- Upper end of the accept range of the second byte after the lead byte `p0`. -/
def acceptHi (p0 : Nat) : Nat := if p0 = 0xED then 0x9F else if p0 = 0xF4 then 0x8F else 0xBF

/-- A two-byte encoding with lead byte `p0`, followed by `t`. -/
def decode2 (p0 : Nat) : List Nat → Nat × Nat
  | b1 :: _ => if 0x80 ≤ b1 ∧ b1 ≤ 0xBF then (rune2 p0 b1, 2) else (RuneError, 1)
  | [] => (RuneError, 1)

/-- A three-byte encoding with lead byte `p0`, followed by `t`. -/
def decode3 (p0 : Nat) : List Nat → Nat × Nat
  | b1 :: b2 :: _ =>
    if acceptLo p0 ≤ b1 ∧ b1 ≤ acceptHi p0 then
      if 0x80 ≤ b2 ∧ b2 ≤ 0xBF then (rune3 p0 b1 b2, 3) else (RuneError, 1)
    else (RuneError, 1)
  | _ => (RuneError, 1)

/-- A four-byte encoding with lead byte `p0`, followed by `t`. -/
def decode4 (p0 : Nat) : List Nat → Nat × Nat
  | b1 :: b2 :: b3 :: _ =>
    if acceptLo p0 ≤ b1 ∧ b1 ≤ acceptHi p0 then
      if 0x80 ≤ b2 ∧ b2 ≤ 0xBF then
        if 0x80 ≤ b3 ∧ b3 ≤ 0xBF then (rune4 p0 b1 b2 b3, 4) else (RuneError, 1)
      else (RuneError, 1)
    else (RuneError, 1)
  | _ => (RuneError, 1)

/-- Go `utf8.DecodeRune`: the first rune of `p` and its width in bytes;
`(RuneError, 0)` on empty input, `(RuneError, 1)` on an invalid or truncated
encoding.  The table `first` is spelled out: bytes below `0x80` are ASCII, a
lead byte `0xC2..0xDF` opens two bytes, `0xE0..0xEF` three, `0xF0..0xF4` four,
every other byte is invalid. -/
def DecodeRune (p : List Nat) : Nat × Nat :=
  match p with
  | [] => (RuneError, 0)
  | p0 :: t =>
    if p0 < 0x80 then (p0, 1)
    else if p0 < 0xC2 then (RuneError, 1)
    else if p0 < 0xE0 then decode2 p0 t
    else if p0 < 0xF0 then decode3 p0 t
    else if p0 ≤ 0xF4 then decode4 p0 t
    else (RuneError, 1)

/-- Go `unicode.IsSpace`: the code points with the property White_Space. -/
def IsSpace (r : Nat) : Bool :=
  (9 ≤ r && r ≤ 13) || r = 0x20 || r = 0x85 || r = 0xA0 || r = 0x1680 ||
  (0x2000 ≤ r && r ≤ 0x200A) || r = 0x2028 || r = 0x2029 || r = 0x202F ||
  r = 0x205F || r = 0x3000

/-- The first loop of `ScanText` (skip leading spaces): the final `start` and
the last rune decoded.  Every iteration adds a width of at least 1 to `start`,
so `len(data)` units of fuel are never used up (`skipSpaces_fuel`). -/
def skipSpaces (data : List Nat) : Nat → Nat → Nat → Nat × Nat
  | 0, start, r => (start, r)
  | fuel + 1, start, r =>
    if start < data.length then
      let d := DecodeRune (data.drop start)
      if !IsSpace d.1 then (start, d.1)
      else skipSpaces data fuel (start + d.2) d.1
    else (start, r)

/-- The second loop of `ScanText` (scan until space or next quote): the
`(advance, token)` of a `return` inside the loop, `none` when the loop runs to
the end of `data` (which `len(data)` units of fuel allow, `scanWord_fuel`). -/
def scanWord (data : List Nat) (quoteChar quoteStart start : Nat) :
    Nat → Nat → Option (Nat × List Nat)
  | 0, _ => none
  | fuel + 1, i =>
    if i < data.length then
      let d := DecodeRune (data.drop i)
      if 0 < quoteChar ∧ d.1 = quoteChar then
        some (i + d.2 + 1, (data.take (i + 1)).drop quoteStart)
      else if quoteChar = 0 ∧ IsSpace d.1 = true then
        some (i + d.2, (data.take i).drop start)
      else scanWord data quoteChar quoteStart start fuel (i + d.2)
    else none

/-- The function `func ScanText(data []byte, atEOF bool) (advance int, token []byte, err error)`;
`err` is always nil and is left out. -/
def ScanText (data : List Nat) (atEOF : Bool) : Nat × Option (List Nat) :=
  let s := skipSpaces data data.length 0 0
  let isQuote : Bool := s.2 = 39 || s.2 = 34
  let quoteChar := if isQuote then s.2 else 0
  let quoteStart := if isQuote then s.1 else 0
  let start := if isQuote then s.1 + 1 else s.1
  match scanWord data quoteChar quoteStart start data.length start with
  | some res => (res.1, some res.2)
  | none =>
    if atEOF ∧ data.length > start then (data.length, some (data.drop start))
    else (start, none)

/-! ## The scanner of `Parse`

`Parse` reads its tokens from `bufio.NewScanner(strings.NewReader(parse))` with
the split function `ScanText`.  The scanner keeps a buffer that starts empty,
is allocated with `startBufSize` bytes by the first `Scan` and is doubled when
it is full, up to `MaxScanTokenSize`; every `Read` of the `strings.Reader`
copies as many of its unread bytes as the free end of the buffer takes. -/

/-- Go `bufio.startBufSize`: the size of the first buffer allocation. -/
def startBufSize : Nat := 4096

/-- Go `bufio.MaxScanTokenSize`, the `maxTokenSize` of a scanner on which
`Buffer` is not called: the buffer never grows beyond it. -/
def MaxScanTokenSize : Nat := 64 * 1024

/-- The state of the `bufio.Scanner` of `Parse` together with its
`strings.Reader`.  `bufLen` is `len(s.buf)`, `start` is `s.start`, `window` is
`s.buf[s.start:s.end]` (so `s.end` is `start + len(window)`; what the buffer
holds outside the window is never read again), `rest` is the part of the
string that the reader has not delivered, `err` is `s.err != nil`.  The errors
`ErrTooLong` and `ErrAdvanceTooFar` make `Scan` return false at once, and
`Parse` calls `Scan` no more after that, so only `io.EOF` (and
`io.ErrNoProgress`) is ever seen in `s.err` by a later round. -/
structure Scanner where
  bufLen : Nat
  start : Nat
  window : List Nat
  rest : List Nat
  err : Bool
deriving DecidableEq

/-- Go `bufio.NewScanner(strings.NewReader(parse))`: no buffer yet, nothing read. -/
def NewScanner (parse : List Nat) : Scanner := ⟨0, 0, [], parse, false⟩

/-- Go `func (s *Scanner) advance(n int) bool`: consume `n` bytes of the window.
`none`: `n` exceeds the bytes of the window (`ErrAdvanceTooFar`; the advance of
`ScanText` is never negative). -/
def Scanner.advance (s : Scanner) (n : Nat) : Option Scanner :=
  if s.window.length < n then none
  else some { s with start := s.start + n, window := s.window.drop n }

/-- The call `s.split(s.buf[s.start:s.end], s.err != nil)` followed by
`s.advance(advance)`: the token (if any) and the state after the advance.
`none`: the advance was not legal, `Scan` returns false. -/
def Scanner.split (s : Scanner) : Option (Option (List Nat) × Scanner) :=
  let r := ScanText s.window s.err
  match s.advance r.1 with
  | none => none
  | some s₁ => some (r.2, s₁)

/-- The read loop at the end of a round of `Scan`:
`s.r.Read(s.buf[s.end:len(s.buf)])`.  A `strings.Reader` with nothing left
answers `(0, io.EOF)`; otherwise it copies `min(len(b), unread)` bytes.  Were
the slice empty with bytes left to read, a hundred reads of zero bytes would
end in `io.ErrNoProgress`; `fill` never passes an empty slice when the window
lies within the buffer. -/
def Scanner.read (s : Scanner) : Scanner :=
  let n := min (s.bufLen - (s.start + s.window.length)) s.rest.length
  if n = 0 then { s with err := true }
  else { s with window := s.window ++ s.rest.take n, rest := s.rest.drop n }

/-- The second half of a round of `Scan`, "must read more data": shift the
window to the beginning of the buffer when there is lots of empty space or
space is needed, double a full buffer (`none`: it has reached
`MaxScanTokenSize`, the error is `ErrTooLong` and `Scan` returns false), then
read. -/
def Scanner.fill (s : Scanner) : Option Scanner :=
  let s₁ : Scanner :=
    if 0 < s.start ∧ (s.start + s.window.length = s.bufLen ∨ s.bufLen / 2 < s.start) then
      { s with start := 0 }
    else s
  if s₁.start + s₁.window.length = s₁.bufLen then
    if MaxScanTokenSize ≤ s₁.bufLen then none
    else
      let newSize := if s₁.bufLen * 2 = 0 then startBufSize else s₁.bufLen * 2
      some (Scanner.read { s₁ with bufLen := min newSize MaxScanTokenSize, start := 0 })
  else some s₁.read

/-- The loop `for { ... }` of `bufio.Scanner.Scan`.  A round calls the split
function if the window is not empty or an error has been seen, returns true
with a token if there is one, returns false if an error has been seen, and
otherwise reads more data.  `none`: `Scan` returns false.  A token of
`ScanText` comes with an advance of at least 1 (`ScanText_adv`), so the guard
of `Scan` against tokens without progress never fires and is left out.  Every
round that goes on has either read a byte or seen `io.EOF`, and the round
after `io.EOF` is the last, so `len(rest) + 2` units of fuel are never used up
(`scanLoop_fuel`). -/
def Scanner.scanLoop : Nat → Scanner → Option (List Nat × Scanner)
  | 0, _ => none
  | fuel + 1, s =>
    match (if s.window ≠ [] ∨ s.err = true then s.split else some (none, s)) with
    | none => none
    | some (some tok, s₁) => some (tok, s₁)
    | some (none, s₁) =>
      if s₁.err = true then none
      else
        match s₁.fill with
        | none => none
        | some s₂ => scanLoop fuel s₂

/-- Go `bufio.Scanner.Scan` followed by `Text`: the token and the state of the
scanner after the call; `none` when `Scan` returns false. -/
def Scanner.Scan (s : Scanner) : Option (List Nat × Scanner) :=
  s.scanLoop (s.rest.length + 2)

/-- The tokens of successive `Scan` calls up to the first one that returns false. -/
def Scanner.scanAll : Nat → Scanner → List (List Nat)
  | 0, _ => []
  | fuel + 1, s =>
    match s.Scan with
    | none => []
    | some (tok, s₁) => tok :: scanAll fuel s₁

/-- The token sequence that `Parse` reads from its scanner: every token takes
at least one byte (`Scan_progress`), so `len(parse) + 1` calls reach the
failing `Scan` (`scanAll_fuel`).  `Parse` scans no further after a `Scan` that
returned false, and what it does with a token has no effect on the scanner, so
the tokens can be listed before the loop of `Parse` runs. -/
def tokens (parse : List Nat) : List (List Nat) :=
  (NewScanner parse).scanAll (parse.length + 1)

/-- The bytes of the expression that no token has taken yet: the window and
what the reader has not delivered. -/
def Scanner.unread (s : Scanner) : List Nat := s.window ++ s.rest

/-- What holds of every state that the scanner of `Parse` is in between two
rounds (`NewScanner_wellFormed`, `fill_spec`, `advance_spec`): the window lies
within the buffer, the buffer is not larger than `MaxScanTokenSize`, and once
`io.EOF` has been seen the reader is exhausted and the buffer was not full
when it was read into. -/
def Scanner.WellFormed (s : Scanner) : Prop :=
  s.start + s.window.length ≤ s.bufLen ∧ s.bufLen ≤ MaxScanTokenSize ∧
    (s.err = true → s.rest = [] ∧ s.start + s.window.length < s.bufLen)

/-- The reader is exhausted, and the buffer can still take the read that sees
`io.EOF`, or has taken it. -/
def Scanner.Exhausted (s : Scanner) : Prop :=
  s.rest = [] ∧ (s.err = true ∨ s.bufLen < MaxScanTokenSize)

/-! ### The scanner once the reader is exhausted

When the reader has delivered all of the expression and the window does not
fill a buffer of `MaxScanTokenSize` bytes, what `Scan` returns depends on the
window and on whether `io.EOF` has been seen only (`scanLoop_buffered`, for
the states `Scanner.Exhausted`); the functions below compute it from these
two. -/

/-- One round of `Scan` on the unread bytes `buf`: call the split
function, then `advance`.  `none`: the advance exceeds the buffered bytes
(`ErrAdvanceTooFar`), `Scan` returns false. -/
def splitAdvance (buf : List Nat) (atEOF : Bool) : Option (Option (List Nat) × List Nat) :=
  let r := ScanText buf atEOF
  if buf.length < r.1 then none else some (r.2, buf.drop r.1)

/-- What `Scan` and `Text` return on a scanner whose reader is exhausted, from
the window `buf` and whether `io.EOF` has been seen: the token, the window
after it and the flag.  `none`: `Scan` returns false. -/
def scanBuffered (buf : List Nat) (eof : Bool) : Option (List Nat × List Nat × Bool) :=
  if buf ≠ [] ∨ eof = true then
    match splitAdvance buf eof with
    | none => none
    | some (some tok, buf') => some (tok, buf', eof)
    | some (none, buf') =>
      if eof then none
      else
        match splitAdvance buf' true with
        | some (some tok, buf'') => some (tok, buf'', true)
        | _ => none
  else
    match splitAdvance buf true with
    | some (some tok, buf') => some (tok, buf', true)
    | _ => none

/-- The tokens of successive `scanBuffered` steps up to the first failing one
(`scanTokensBuffered_fuel`: `len(buf) + 1` units of fuel reach it). -/
def scanTokensBuffered : Nat → List Nat → Bool → List (List Nat)
  | 0, _, _ => []
  | fuel + 1, buf, eof =>
    match scanBuffered buf eof with
    | none => []
    | some (tok, buf', eof') => tok :: scanTokensBuffered fuel buf' eof'

/-! ## Words and white space, as the tokenizer sees them -/

/-- No offset of `w` starts a white-space rune: `w` contains no white space. -/
def noSpace : List Nat → Bool
  | [] => true
  | b :: t => !IsSpace (DecodeRune (b :: t)).1 && noSpace t

/-- A word: non-empty, without white space, and its first rune is not a quote
character. -/
def isWord (w : List Nat) : Bool :=
  decide (w ≠ []) && noSpace w && decide ((DecodeRune w).1 ≠ 34) &&
    decide ((DecodeRune w).1 ≠ 39)

/-- The bytes `e` are the UTF-8 encoding of one white-space rune. -/
def isSpaceEnc (e : List Nat) : Bool :=
  decide ((DecodeRune e).2 = e.length) && IsSpace (DecodeRune e).1

/-- A run of white space: the encodings of zero or more white-space runes. -/
inductive SpaceRun : List Nat → Prop
  | nil : SpaceRun []
  | cons (e s : List Nat) : isSpaceEnc e = true → SpaceRun s → SpaceRun (e ++ s)

/-- The words `w₁, w₂, …`, each followed by its separator: `w₁ ++ s₁ ++ w₂ ++ s₂ ++ …`
for the list of pairs `(w₁, s₁), (w₂, s₂), …`. -/
def joinWords : List (List Nat × List Nat) → List Nat
  | [] => []
  | (w, s) :: r => w ++ s ++ joinWords r

/-! ## The compiler -/

/-- The digits loop of `strconv.Atoi`: value of a run of decimal digits. -/
def digitsValue : List Nat → Nat → Option Nat
  | [], acc => some acc
  | ch :: t, acc => if 48 ≤ ch ∧ ch ≤ 57 then digitsValue t (acc * 10 + (ch - 48)) else none

/-- Go `strconv.Atoi` with a 64-bit `int`: an optional sign and one or more
decimal digits, in the range of `int`; `none` is a non-nil error (syntax or
range). -/
def Atoi (s : List Nat) : Option Int :=
  match s with
  | [] => none
  | c :: t =>
    let neg : Bool := c = 45
    let ds := if c = 45 ∨ c = 43 then t else s
    if ds = [] then none
    else
      match digitsValue ds 0 with
      | none => none
      | some n =>
        if neg then (if n ≤ 2 ^ 63 then some (-(n : Int)) else none)
        else (if n < 2 ^ 63 then some (n : Int) else none)

/-- Go `strings.HasSuffix`. -/
def HasSuffix (s suffix : List Nat) : Bool :=
  HasPrefix s.reverse suffix.reverse

/-- Go `strings.Trim(s, cutset)` for a cutset of ASCII bytes: drop the leading
and the trailing bytes that are in the cutset. -/
def TrimSet (s cutset : List Nat) : List Nat :=
  ((s.dropWhile (fun b => decide (b ∈ cutset))).reverse.dropWhile
    (fun b => decide (b ∈ cutset))).reverse

/-- The function `func CreateDelimChunk(name, until string) *DelimChunk`. -/
def CreateDelimChunk (name delim : List Nat) : DelimChunk :=
  if HasSuffix delim [42] = true ∧ ¬ HasSuffix delim [92, 42] = true then
    ⟨name, delim.take (delim.length - 1), true⟩
  else ⟨name, delim, false⟩

/-- The body of the loop of `Parse` after `name` and `next` have been read: the
chopper appended and the new value of `name` (`[]`: cleared).  `none`: index
out of range at `next[0]` (an empty token). -/
def parseStep (cfg : Config) (name next : List Nat) : Option (Chopper × List Nat) :=
  match Atoi next with
  | none =>
    match next.head?, next.getLast? with
    | some f, some l =>
      if (f = 34 ∧ l = 34) ∨ (f = 39 ∧ l = 39) then
        some (.delim (CreateDelimChunk name (TrimSet next [39, 34])), [])
      else some (.delim (CreateDelimChunk name cfg.fieldSep), next)
    | _, _ => none
  | some numVal =>
    match next.head? with
    | none => none
    | some f =>
      if f = 43 ∨ f = 45 then some (.rel ⟨name, numVal⟩, [])
      else some (.abs ⟨name, numVal⟩, [])

/-- The loop of `Parse` over the tokens still to be scanned, with the pending
`name` (`[]`: none pending). -/
def parseLoop (cfg : Config) : List Nat → List (List Nat) → Option (List Chopper)
  | name, [] => if name = [] then some [] else some [.delim (CreateDelimChunk name [])]
  | name, t :: ts =>
    if name = [] then
      match ts with
      | [] => some [.delim (CreateDelimChunk t [])]
      | next :: ts' =>
        match parseStep cfg t next with
        | none => none
        | some (ch, name') =>
          match parseLoop cfg name' ts' with
          | none => none
          | some chs => some (ch :: chs)
    else
      match parseStep cfg name t with
      | none => none
      | some (ch, name') =>
        match parseLoop cfg name' ts with
        | none => none
        | some chs => some (ch :: chs)

/-- The function `func Parse(parse string) []Chopper`; `none` when it faults. -/
def Parse (cfg : Config) (parse : List Nat) : Option (List Chopper) :=
  parseLoop cfg [] (tokens parse)

/-! ## The main program -/

/-- The loop `for in.Scan() { ... }` of `main` over the input lines (each with
the spare capacity of its buffer): the mappings handed to the output stage, one
per line, and the exit code.  A fault in a chopper is recovered by the deferred
function of `main`, which prints it and exits with code 1. -/
def runLines (cfg : Config) (choppers : List Chopper) :
    List (List Nat × List Nat) → List Values × Nat
  | [] => ([], 0)
  | (line, slack) :: rest =>
    match chopLine cfg line slack choppers 0 Values.empty with
    | (none, _) => ([], 1)
    | (some _, values) =>
      let r := runLines cfg choppers rest
      (values :: r.1, r.2)

/-- The part of `main` from `parse, _ = strconv.Unquote(...)` on.  The library
function `strconv.Unquote` is the parameter `Unquote` (`none`: it returns an
error, and with it the empty string); its error is assigned to `_`. -/
def mainRun (cfg : Config) (Unquote : List Nat → Option (List Nat)) (parse : List Nat)
    (lines : List (List Nat × List Nat)) : List Values × Nat :=
  let parse' := (Unquote ([34] ++ parse ++ [34])).getD []
  match Parse cfg parse' with
  | none => ([], 1)
  | some choppers => runLines cfg choppers lines

/-- The bytes of an ASCII string literal (for readable examples). -/
def bytes (s : String) : List Nat := s.toList.map Char.toNat

/-! ## Lemmas on the library functions and the choppers -/

theorem hasPrefix_iff (s p : List Nat) : HasPrefix s p = true ↔ p <+: s := by
  induction p generalizing s with
  | nil => simp [HasPrefix]
  | cons a p ih =>
    cases s with
    | nil => simp [HasPrefix]
    | cons b s =>
      simp only [HasPrefix, Bool.and_eq_true, decide_eq_true_eq, ih, List.cons_prefix_cons]
      constructor
      · rintro ⟨h1, h2⟩; exact ⟨h1.symm, h2⟩
      · rintro ⟨h1, h2⟩; exact ⟨h1.symm, h2⟩

theorem hasPrefix_append (p q : List Nat) : HasPrefix (p ++ q) p = true :=
  (hasPrefix_iff _ _).2 (List.prefix_append p q)

/-- The search `indexFrom` finds the first position at which `sep` is a prefix of the rest. -/
theorem indexFrom_first (sep pre post : List Nat) (i : Nat)
    (hfirst : ∀ j, j < pre.length → ¬ sep <+: (pre ++ post).drop j)
    (hhere : sep <+: post) :
    indexFrom sep (pre ++ post) i = some (i + pre.length) := by
  induction pre generalizing i with
  | nil =>
    cases post with
    | nil =>
      have : sep = [] := List.prefix_nil.mp hhere
      simp [indexFrom, this]
    | cons b t =>
      simp [indexFrom, (hasPrefix_iff _ _).2 hhere]
  | cons a pre ih =>
    have h0 := hfirst 0 (by simp)
    simp only [List.drop_zero] at h0
    have h0' : HasPrefix (a :: (pre ++ post)) sep = false := by
      cases h : HasPrefix (a :: (pre ++ post)) sep
      · rfl
      · exact absurd ((hasPrefix_iff _ _).1 h) h0
    rw [List.cons_append, indexFrom, if_neg (by simp [h0']), ih (i + 1)]
    · simp; omega
    · intro j hj
      have := hfirst (j + 1) (by simp; omega)
      simpa using this

theorem indexFrom_none (sep s : List Nat) (i : Nat)
    (h : ∀ j, j ≤ s.length → ¬ sep <+: s.drop j) : indexFrom sep s i = none := by
  induction s generalizing i with
  | nil =>
    have := h 0 (by simp)
    simp only [List.drop_zero, List.prefix_nil] at this
    simp [indexFrom, this]
  | cons a s ih =>
    have h0 := h 0 (by simp)
    simp only [List.drop_zero] at h0
    have h0' : HasPrefix (a :: s) sep = false := by
      cases h : HasPrefix (a :: s) sep
      · rfl
      · exact absurd ((hasPrefix_iff _ _).1 h) h0
    rw [indexFrom, if_neg (by simp [h0'])]
    apply ih
    intro j hj
    have := h (j + 1) (by simp; omega)
    simpa using this

theorem slice_nat (input slack : List Nat) (lo hi : Nat) (h1 : lo ≤ hi)
    (h2 : hi ≤ input.length + slack.length) :
    slice input slack (lo : Int) (hi : Int) = some (((input ++ slack).take hi).drop lo) := by
  unfold slice
  rw [if_pos]
  · simp
  · refine ⟨by omega, by omega, by exact_mod_cast h2⟩

theorem slice_within (input slack : List Nat) (lo hi : Nat) (h1 : lo ≤ hi)
    (h2 : hi ≤ input.length) :
    slice input slack (lo : Int) (hi : Int) = some ((input.take hi).drop lo) := by
  rw [slice_nat input slack lo hi h1 (by omega), List.take_append_of_le_length h2]

theorem sliceFrom_nat (input : List Nat) (lo : Nat) (h : lo ≤ input.length) :
    sliceFrom input (lo : Int) = some (input.drop lo) := by
  unfold sliceFrom
  rw [if_pos]
  · simp
  · exact ⟨by omega, by exact_mod_cast h⟩

theorem wrapInt_id (x : Int) (h1 : -2 ^ 63 ≤ x) (h2 : x < 2 ^ 63) : wrapInt x = x := by
  unfold wrapInt
  rw [Int.emod_eq_of_lt (by omega) (by omega)]
  omega

theorem slice_none_of_lt (input slack : List Nat) (lo hi : Int) (h : hi < lo) :
    slice input slack lo hi = none := by
  unfold slice
  rw [if_neg]
  omega

theorem slice_none_of_cap (input slack : List Nat) (lo hi : Int)
    (h : ((input.length + slack.length : Nat) : Int) < hi) :
    slice input slack lo hi = none := by
  unfold slice
  rw [if_neg]
  omega

theorem slice_some (input slack : List Nat) (lo hi : Int) (h0 : 0 ≤ lo) (h1 : lo ≤ hi)
    (h2 : hi ≤ ((input.length + slack.length : Nat) : Int)) :
    slice input slack lo hi = some (((input ++ slack).take hi.toNat).drop lo.toNat) := by
  unfold slice
  rw [if_pos ⟨h0, h1, h2⟩]

theorem slice_some_within (input slack : List Nat) (lo hi : Int) (h0 : 0 ≤ lo) (h1 : lo ≤ hi)
    (h2 : hi ≤ (input.length : Int)) :
    slice input slack lo hi = some ((input.take hi.toNat).drop lo.toNat) := by
  rw [slice_some _ _ _ _ h0 h1 (by push_cast; omega), List.take_append_of_le_length (by omega)]

theorem chopLine_dot (cfg : Config) (line slack : List Nat) (chs : List Chopper) (c : Int)
    (values : Values) (h : values dot = none) :
    (chopLine cfg line slack chs c values).2 dot = none := by
  induction chs generalizing c values with
  | nil => simpa [chopLine] using h
  | cons ch rest ih =>
    unfold chopLine
    cases hch : ch.Chop cfg line slack c values with
    | none => simpa using h
    | some r =>
      obtain ⟨c', v'⟩ := r
      simp only
      apply ih
      cases ch with
      | abs ac =>
        simp only [Chopper.Chop, AbsChunk.Chop] at hch
        split at hch
        · split at hch
          · simp at hch
          · simp only [Option.some.injEq, Prod.mk.injEq] at hch
            rw [← hch.2]
            simp only [Values.set]
            rw [if_neg (by intro e; simp_all), h]
        · simp only [Option.some.injEq, Prod.mk.injEq] at hch
          rw [← hch.2, h]
      | rel rc =>
        simp only [Chopper.Chop, RelChunk.Chop] at hch
        split at hch
        · split at hch
          · simp at hch
          · simp only [Option.some.injEq, Prod.mk.injEq] at hch
            rw [← hch.2]
            simp only [Values.set]
            rw [if_neg (by intro e; simp_all), h]
        · simp only [Option.some.injEq, Prod.mk.injEq] at hch
          rw [← hch.2, h]
      | delim dc =>
        simp only [Chopper.Chop, DelimChunk.Chop] at hch
        split at hch
        · simp at hch
        · split at hch
          · simp only [Option.some.injEq, Prod.mk.injEq] at hch
            rw [← hch.2]
            simp only [Values.set]
            rw [if_neg (by intro e; simp_all), h]
          · simp only [Option.some.injEq, Prod.mk.injEq] at hch
            rw [← hch.2, h]

theorem length_Repeat (d : List Nat) (k : Nat) : (Repeat d k).length = k * d.length := by
  induction k with
  | zero => simp [Repeat]
  | succ k ih => simp [Repeat, ih]; ring

theorem take_drop_mid (pre d post : List Nat) :
    ((pre ++ d ++ post).take (pre.length + d.length)).drop pre.length = d := by
  rw [List.append_assoc, List.take_append_eq_append_take, List.drop_append_eq_append_drop]
  simp

theorem take_drop_pre (pre rest : List Nat) (n : Nat) :
    ((pre ++ rest).take (pre.length + n)).drop pre.length = rest.take n := by
  rw [List.take_append_eq_append_take, List.drop_append_eq_append_drop]
  simp

theorem skipRepeats_run (slack d rest : List Nat) (hd : d ≠ []) (hmax : ¬ d <+: rest)
    (hfit : rest = [] ∨ d.length ≤ rest.length) (m : Nat) :
    ∀ (pre : List Nat) (fuel : Nat), m ≤ fuel →
      skipRepeats (pre ++ Repeat d m ++ rest) slack d fuel (pre.length : Int) =
        some ((pre.length + m * d.length : Nat) : Int) := by
  have hdl : 0 < d.length := List.length_pos.mpr hd
  induction m with
  | zero =>
    intro pre fuel _
    cases fuel with
    | zero => simp [skipRepeats]
    | succ f =>
      simp only [Repeat, List.append_nil, zero_mul, add_zero]
      rw [skipRepeats]
      rcases hfit with h | h
      · subst h
        simp
      · rw [if_pos (by simp; omega)]
        rw [slice_some_within _ _ _ _ (by omega) (by omega) (by simp; omega)]
        have : (pre.length : Int) + (d.length : Int) = ((pre.length + d.length : Nat) : Int) := by
          push_cast; rfl
        rw [this, Int.toNat_ofNat, Int.toNat_ofNat]
        have hne : List.drop pre.length (List.take (pre.length + d.length) (pre ++ rest)) ≠ d := by
          intro heq
          apply hmax
          rw [take_drop_pre] at heq
          rw [← heq]
          exact List.take_prefix _ _
        simp [hne]
  | succ m ih =>
    intro pre fuel hf
    cases fuel with
    | zero => omega
    | succ f =>
      have hm : (0 : Int) ≤ (m : Int) * (d.length : Int) := by positivity
      rw [skipRepeats]
      rw [if_pos (by simp [Repeat, length_Repeat]; omega)]
      rw [slice_some_within _ _ _ _ (by omega) (by omega)
        (by simp [Repeat, length_Repeat]; omega)]
      have : (pre.length : Int) + (d.length : Int) = ((pre.length + d.length : Nat) : Int) := by
        push_cast; rfl
      rw [this, Int.toNat_ofNat, Int.toNat_ofNat]
      have heq : List.drop pre.length (List.take (pre.length + d.length)
          (pre ++ Repeat d (m + 1) ++ rest)) = d := by
        have := take_drop_mid pre d (Repeat d m ++ rest)
        simpa [Repeat, List.append_assoc] using this
      rw [heq]
      simp only [if_true]
      have h2 := ih (pre ++ d) f (by omega)
      have e1 : pre ++ d ++ Repeat d m ++ rest = pre ++ Repeat d (m + 1) ++ rest := by
        simp [Repeat, List.append_assoc]
      rw [e1] at h2
      have e2 : (((pre ++ d).length : Nat) : Int) = ((pre.length + d.length : Nat) : Int) := by
        simp
      rw [e2] at h2
      rw [h2]
      simp
      ring


theorem Index_first (sep pre post : List Nat)
    (hfirst : ∀ j, j < pre.length → ¬ sep <+: (pre ++ post).drop j)
    (hhere : sep <+: post) : Index (pre ++ post) sep = (pre.length : Int) := by
  unfold Index
  rw [indexFrom_first sep pre post 0 hfirst hhere]
  simp

theorem slice_nil_slack_some (input : List Nat) (lo hi : Int) (s : List Nat)
    (h : slice input [] lo hi = some s) :
    0 ≤ lo ∧ lo ≤ hi ∧ hi ≤ (input.length : Int) := by
  unfold slice at h
  split at h
  · rename_i hc
    simpa using hc
  · simp at h

/-- When the skip loop runs without spare capacity and does not fault, every
slice it reads lies within the line: any spare capacity gives the same cursor,
which is at least the starting one and at most `len(input)`. -/
theorem skipRepeats_within (input slack d : List Nat) (fuel : Nat) :
    ∀ (e e' : Int), 0 ≤ e → e ≤ (input.length : Int) →
      skipRepeats input [] d fuel e = some e' →
      skipRepeats input slack d fuel e = some e' ∧ e ≤ e' ∧ e' ≤ (input.length : Int) := by
  induction fuel with
  | zero =>
    intro e e' h0 h1 h
    simp only [skipRepeats, Option.some.injEq] at h ⊢
    subst h
    exact ⟨rfl, le_refl _, h1⟩
  | succ f ih =>
    intro e e' h0 h1 h
    rw [skipRepeats] at h ⊢
    by_cases hlt : e < (input.length : Int)
    · rw [if_pos hlt] at h ⊢
      cases hs : slice input [] e (e + (d.length : Int)) with
      | none => rw [hs] at h; simp at h
      | some s =>
        rw [hs] at h
        have hb := slice_nil_slack_some _ _ _ _ hs
        have hs1 := slice_some_within input [] e (e + d.length) hb.1 hb.2.1 hb.2.2
        have hs2 := slice_some_within input slack e (e + d.length) hb.1 hb.2.1 hb.2.2
        rw [hs1] at hs
        rw [hs2, hs]
        simp only at h ⊢
        by_cases heq : s = d
        · rw [if_pos heq] at h ⊢
          have := ih (e + d.length) e' (by omega) hb.2.2 h
          exact ⟨this.1, by omega, this.2.2⟩
        · rw [if_neg heq] at h ⊢
          simp only [Option.some.injEq] at h
          subst h
          exact ⟨rfl, le_refl _, h1⟩
    · rw [if_neg hlt] at h ⊢
      simp only [Option.some.injEq] at h
      subst h
      exact ⟨rfl, le_refl _, h1⟩

theorem Index_bounds (s sep : List Nat) : Index s sep = -1 ∨
    (0 ≤ Index s sep ∧ Index s sep + (sep.length : Int) ≤ (s.length : Int)) := by
  have key : ∀ (s : List Nat) (i j : Nat), indexFrom sep s i = some j →
      i ≤ j ∧ j + sep.length ≤ i + s.length := by
    intro s
    induction s with
    | nil =>
      intro i j h
      simp only [indexFrom] at h
      split at h
      · rename_i hsep
        simp only [Option.some.injEq] at h
        subst h
        simp [hsep]
      · simp at h
    | cons b t ih =>
      intro i j h
      rw [indexFrom] at h
      split at h
      · rename_i hp
        simp only [Option.some.injEq] at h
        subst h
        have := (hasPrefix_iff _ _).1 hp
        have := this.length_le
        simp at this ⊢
        omega
      · have := ih (i + 1) j h
        simp
        omega
  unfold Index
  cases h : indexFrom sep s 0 with
  | none => left; rfl
  | some j =>
    right
    have := key s 0 j h
    simp only
    omega

theorem span_within (dc : DelimChunk) (line slack : List Nat) (c : Int) (text : List Nat)
    (e : Int) (h : dc.span line [] c = some (text, e)) :
    dc.span line slack c = some (text, e) ∧ c ≤ e ∧ e ≤ (line.length : Int) := by
  unfold DelimChunk.span at h ⊢
  cases hsf : sliceFrom line c with
  | none => simp [hsf] at h
  | some rest =>
    have hc : 0 ≤ c ∧ c ≤ (line.length : Int) ∧ rest = line.drop c.toNat := by
      unfold sliceFrom at hsf
      split at hsf
      · rename_i hh
        simp only [Option.some.injEq] at hsf
        exact ⟨hh.1, hh.2, hsf.symm⟩
      · simp at hsf
    have hrl : (rest.length : Int) = (line.length : Int) - c := by
      rw [hc.2.2, List.length_drop]
      omega
    rw [hsf] at h
    simp only at h ⊢
    by_cases hd : dc.until_ = []
    · rw [if_pos hd] at h ⊢
      simp only [Option.some.injEq, Prod.mk.injEq] at h
      refine ⟨by rw [← h.1, ← h.2], by omega, by omega⟩
    · rw [if_neg hd] at h ⊢
      by_cases hi : Index rest dc.until_ = -1
      · rw [if_pos hi] at h ⊢
        simp only [Option.some.injEq, Prod.mk.injEq] at h
        refine ⟨by rw [← h.1, ← h.2], by omega, by omega⟩
      · rw [if_neg hi] at h ⊢
        have hib := (Index_bounds rest dc.until_).resolve_left hi
        have hs1 := slice_some_within line [] c (c + Index rest dc.until_) hc.1 (by omega)
          (by omega)
        have hs2 := slice_some_within line slack c (c + Index rest dc.until_) hc.1 (by omega)
          (by omega)
        rw [hs1] at h
        rw [hs2]
        simp only at h ⊢
        have htl : ((List.drop c.toNat (List.take (c + Index rest dc.until_).toNat line)).length
            : Int) = Index rest dc.until_ := by
          rw [List.length_drop, List.length_take]
          omega
        rw [htl] at h ⊢
        by_cases hsk : dc.skipAll = true
        · rw [if_pos hsk] at h ⊢
          cases hrun : skipRepeats line [] dc.until_ line.length
              (c + Index rest dc.until_ + (dc.until_.length : Int)) with
          | none => rw [hrun] at h; simp at h
          | some e' =>
            rw [hrun] at h
            simp only [Option.some.injEq, Prod.mk.injEq] at h
            have := skipRepeats_within line slack dc.until_ line.length _ e' (by omega)
              (by omega) hrun
            rw [this.1]
            refine ⟨by rw [← h.1, ← h.2], by omega, by omega⟩
        · rw [if_neg hsk] at h ⊢
          simp only [Option.some.injEq, Prod.mk.injEq] at h
          refine ⟨by rw [← h.1, ← h.2], by omega, by omega⟩


/-- One chopper that stays within the line returns a cursor between the old one
and `len(line)`. -/
theorem chop_within (cfg : Config) (line slack : List Nat) (hlen : (line.length : Int) < 2 ^ 63)
    (ch : Chopper) (c : Int) (values : Values) (hc0 : 0 ≤ c) (hc : c ≤ (line.length : Int))
    (hw : WithinLine line ch c) :
    ∃ c' values', ch.Chop cfg line slack c values = some (c', values') ∧
      c ≤ c' ∧ c' ≤ (line.length : Int) := by
  cases ch with
  | abs ac =>
    simp only [WithinLine] at hw
    simp only [Chopper.Chop, AbsChunk.Chop]
    rw [slice_some_within _ _ _ _ hc0 hw.1 hw.2]
    by_cases hn : ac.name = dot
    · exact ⟨ac.until_, values, by simp [hn], hw.1, hw.2⟩
    · exact ⟨ac.until_, _, by simp only [ne_eq, hn, not_false_eq_true, if_true]; rfl, hw.1, hw.2⟩
  | rel rc =>
    simp only [WithinLine] at hw
    have hwr : wrapInt (c + rc.until_) = c + rc.until_ := wrapInt_id _ (by omega) (by omega)
    simp only [Chopper.Chop, RelChunk.Chop, hwr]
    rw [slice_some_within _ _ _ _ hc0 (by omega) hw.2]
    by_cases hn : rc.name = dot
    · exact ⟨c + rc.until_, values, by simp [hn], by omega, hw.2⟩
    · exact ⟨c + rc.until_, _, by simp only [ne_eq, hn, not_false_eq_true, if_true]; rfl,
        by omega, hw.2⟩
  | delim dc =>
    simp only [WithinLine] at hw
    cases hs : dc.span line [] c with
    | none => rw [hs] at hw; simp at hw
    | some r =>
      obtain ⟨text, e⟩ := r
      have := span_within dc line slack c text e hs
      simp only [Chopper.Chop, DelimChunk.Chop, this.1]
      by_cases hn : dc.name = dot
      · exact ⟨e, values, by simp [hn], this.2.1, this.2.2⟩
      · exact ⟨e, _, by simp only [ne_eq, hn, not_false_eq_true, if_true]; rfl, this.2.1, this.2.2⟩

theorem cursorTrace_within (cfg : Config) (line slack : List Nat)
    (hlen : (line.length : Int) < 2 ^ 63) (chs : List Chopper) :
    ∀ (c : Int) (values : Values), 0 ≤ c → c ≤ (line.length : Int) →
      AllWithin cfg line slack chs c values →
      ∃ tr, cursorTrace cfg line slack chs c values = some tr ∧
        List.Chain (· ≤ ·) c tr ∧ ∀ x ∈ tr, x ≤ (line.length : Int) := by
  induction chs with
  | nil =>
    intro c values _ _ _
    exact ⟨[], rfl, List.Chain.nil, by simp⟩
  | cons ch rest ih =>
    intro c values hc0 hc hall
    obtain ⟨hw, hnext⟩ := hall
    obtain ⟨c', v', hch, h1, h2⟩ := chop_within cfg line slack hlen ch c values hc0 hc hw
    obtain ⟨tr, htr, hchain, hbd⟩ := ih c' v' (by omega) h2 (hnext c' v' hch)
    refine ⟨c' :: tr, ?_, List.Chain.cons h1 hchain, ?_⟩
    · simp [cursorTrace, hch, htr]
    · intro x hx
      rcases List.mem_cons.mp hx with h | h
      · rw [h]; exact h2
      · exact hbd x h

theorem trimLeftByte_nil (c : Nat) : trimLeftByte [] c = [] := rfl

theorem Text_nil (cfg : Config) : Text cfg [] = [] := by
  unfold Text Trim trimRightByte
  cases cfg.noTrim <;> simp [trimLeftByte]

theorem Index_absent (s sep : List Nat)
    (h : ∀ j, ¬ sep <+: s.drop j) : Index s sep = -1 := by
  unfold Index
  rw [indexFrom_none sep s 0 (fun j _ => h j)]

theorem span_absent (dc : DelimChunk) (line slack : List Nat) (c : Nat)
    (hc : c ≤ line.length) (hocc : dc.until_ ≠ [] → ¬ dc.until_ <:+: line) :
    dc.span line slack (c : Int) = some (line.drop c, (line.length : Int)) := by
  unfold DelimChunk.span
  rw [sliceFrom_nat _ _ hc]
  have hl : (c : Int) + ((line.drop c).length : Int) = (line.length : Int) := by
    simp; omega
  by_cases hd : dc.until_ = []
  · simp only [hd, if_true, hl]
  · simp only [hd, if_false]
    rw [Index_absent _ _, if_pos rfl, hl]
    intro j hp
    apply hocc hd
    rw [List.drop_drop] at hp
    obtain ⟨t, ht⟩ := hp
    refine ⟨line.take (c + j), t, ?_⟩
    rw [List.append_assoc, ht, List.take_append_drop]


theorem chopLine_at_end (cfg : Config) (line slack : List Nat) (ds : List DelimChunk) :
    ∀ (values : Values), (∀ d ∈ ds, d.name ≠ dot) →
      (∀ d ∈ ds, d.until_ ≠ [] → ¬ d.until_ <:+: line) →
      chopLine cfg line slack (ds.map Chopper.delim) (line.length : Int) values =
        (some (line.length : Int),
          fun k => if k ∈ ds.map (fun d => d.name) then some [] else values k) := by
  induction ds with
  | nil => intro values _ _; simp [chopLine]
  | cons d ds ih =>
    intro values hdot hocc
    simp only [List.map_cons, chopLine, Chopper.Chop, DelimChunk.Chop]
    rw [span_absent d line slack line.length (le_refl _) (hocc d (List.mem_cons_self _ _))]
    simp only [ne_eq, hdot d (List.mem_cons_self _ _), not_false_eq_true, if_true,
      List.drop_length, Text_nil]
    rw [ih _ (fun x hx => hdot x (List.mem_cons_of_mem _ hx))
      (fun x hx => hocc x (List.mem_cons_of_mem _ hx))]
    congr 1
    funext k
    simp only [Values.set, List.mem_cons, List.mem_map]
    by_cases h1 : k = d.name
    · simp [h1]
    · simp [h1]


/-! ## Lemmas on the tokenizer -/

theorem decode2_width (p0 : Nat) (t : List Nat) :
    1 ≤ (decode2 p0 t).2 ∧ (decode2 p0 t).2 ≤ t.length + 1 := by
  rcases t with _ | ⟨b1, t⟩ <;> simp only [decode2, List.length_cons, List.length_nil]
  · omega
  · split_ifs <;> (dsimp only; omega)

theorem decode3_width (p0 : Nat) (t : List Nat) :
    1 ≤ (decode3 p0 t).2 ∧ (decode3 p0 t).2 ≤ t.length + 1 := by
  rcases t with _ | ⟨b1, _ | ⟨b2, t⟩⟩ <;> simp only [decode3, List.length_cons, List.length_nil]
  · omega
  · omega
  · split_ifs <;> (dsimp only; omega)

theorem decode4_width (p0 : Nat) (t : List Nat) :
    1 ≤ (decode4 p0 t).2 ∧ (decode4 p0 t).2 ≤ t.length + 1 := by
  rcases t with _ | ⟨b1, _ | ⟨b2, _ | ⟨b3, t⟩⟩⟩ <;>
    simp only [decode4, List.length_cons, List.length_nil]
  · omega
  · omega
  · omega
  · split_ifs <;> (dsimp only; omega)

theorem DecodeRune_width (s : List Nat) (hs : s ≠ []) :
    1 ≤ (DecodeRune s).2 ∧ (DecodeRune s).2 ≤ s.length := by
  rcases s with _ | ⟨p0, t⟩
  · exact absurd rfl hs
  · simp only [DecodeRune, List.length_cons]
    split_ifs
    · dsimp only; omega
    · dsimp only; omega
    · exact decode2_width p0 t
    · exact decode3_width p0 t
    · exact decode4_width p0 t
    · dsimp only; omega

theorem acceptLo_ge (p0 : Nat) : 0x80 ≤ acceptLo p0 := by
  unfold acceptLo; split_ifs <;> omega

theorem acceptHi_le (p0 : Nat) : acceptHi p0 ≤ 0xBF := by
  unfold acceptHi; split_ifs <;> omega

theorem decode2_append (p0 : Nat) (t x : List Nat)
    (hx : ∀ b, x.head? = some b → b < 0x80 ∨ 0xBF < b) :
    decode2 p0 (t ++ x) = decode2 p0 t := by
  rcases t with _ | ⟨b1, t⟩
  · rcases x with _ | ⟨y, x⟩
    · rfl
    · have := hx y rfl
      simp only [List.nil_append, decode2]
      rw [if_neg (by omega)]
  · rfl

theorem decode3_append (p0 : Nat) (t x : List Nat)
    (hx : ∀ b, x.head? = some b → b < 0x80 ∨ 0xBF < b) :
    decode3 p0 (t ++ x) = decode3 p0 t := by
  have hlo := acceptLo_ge p0
  have hhi := acceptHi_le p0
  rcases t with _ | ⟨b1, _ | ⟨b2, t⟩⟩
  · rcases x with _ | ⟨y, _ | ⟨z, x⟩⟩
    · rfl
    · rfl
    · have := hx y rfl
      simp only [List.nil_append, decode3]
      rw [if_neg (by omega)]
  · rcases x with _ | ⟨y, x⟩
    · rfl
    · have := hx y rfl
      simp only [List.cons_append, List.nil_append, decode3]
      split_ifs <;> first | rfl | omega
  · rfl

theorem decode4_append (p0 : Nat) (t x : List Nat)
    (hx : ∀ b, x.head? = some b → b < 0x80 ∨ 0xBF < b) :
    decode4 p0 (t ++ x) = decode4 p0 t := by
  have hlo := acceptLo_ge p0
  have hhi := acceptHi_le p0
  rcases t with _ | ⟨b1, _ | ⟨b2, _ | ⟨b3, t⟩⟩⟩
  · rcases x with _ | ⟨y, _ | ⟨z, _ | ⟨u, x⟩⟩⟩
    · rfl
    · rfl
    · rfl
    · have := hx y rfl
      simp only [List.nil_append, decode4]
      rw [if_neg (by omega)]
  · rcases x with _ | ⟨y, _ | ⟨z, x⟩⟩
    · rfl
    · rfl
    · have := hx y rfl
      simp only [List.cons_append, List.nil_append, decode4]
      split_ifs <;> first | rfl | omega
  · rcases x with _ | ⟨y, x⟩
    · rfl
    · have := hx y rfl
      simp only [List.cons_append, List.nil_append, decode4]
      split_ifs <;> first | rfl | omega
  · rfl

/-- Decoding the first rune of a non-empty `s` does not depend on what follows
`s`, as long as that does not start with a continuation byte. -/
theorem DecodeRune_append (s x : List Nat) (hs : s ≠ [])
    (hx : ∀ b, x.head? = some b → b < 0x80 ∨ 0xBF < b) :
    DecodeRune (s ++ x) = DecodeRune s := by
  rcases s with _ | ⟨p0, t⟩
  · exact absurd rfl hs
  · simp only [List.cons_append, DecodeRune]
    rw [decode2_append p0 t x hx, decode3_append p0 t x hx, decode4_append p0 t x hx]


theorem IsSpace_RuneError : IsSpace RuneError = false := by decide

theorem IsSpace_not_quote (r : Nat) (h : IsSpace r = true) : r ≠ 39 ∧ r ≠ 34 := by
  constructor
  · rintro rfl; exact absurd h (by decide)
  · rintro rfl; exact absurd h (by decide)

theorem spaceEnc_spec (e : List Nat) (h : isSpaceEnc e = true) :
    (DecodeRune e).2 = e.length ∧ IsSpace (DecodeRune e).1 = true := by
  simpa [isSpaceEnc] using h

theorem spaceEnc_ne_nil (e : List Nat) (h : isSpaceEnc e = true) : e ≠ [] := by
  rintro rfl
  have := (spaceEnc_spec _ h).2
  simp [DecodeRune, IsSpace_RuneError] at this

theorem spaceEnc_head (e : List Nat) (h : isSpaceEnc e = true) :
    ∀ b, e.head? = some b → b < 0x80 ∨ 0xBF < b := by
  intro b hb
  rcases e with _ | ⟨p0, t⟩
  · simp at hb
  · simp only [List.head?_cons, Option.some.injEq] at hb
    subst hb
    by_contra hcon
    have h2 := (spaceEnc_spec _ h).2
    simp only [DecodeRune] at h2
    rw [if_neg (by omega), if_pos (by omega), IsSpace_RuneError] at h2
    exact absurd h2 (by decide)

theorem spaceEnc_append (e x : List Nat) (h : isSpaceEnc e = true) :
    DecodeRune (e ++ x) = DecodeRune e := by
  have h2 := (spaceEnc_spec _ h).2
  rcases e with _ | ⟨p0, t⟩
  · exact absurd rfl (spaceEnc_ne_nil _ h)
  · simp only [List.cons_append, DecodeRune] at h2 ⊢
    have e2 : decode2 p0 (t ++ x) = decode2 p0 t ∨ decode2 p0 t = (RuneError, 1) := by
      rcases t with _ | ⟨b1, t⟩
      · right; rfl
      · left; rfl
    have e3 : decode3 p0 (t ++ x) = decode3 p0 t ∨ decode3 p0 t = (RuneError, 1) := by
      rcases t with _ | ⟨b1, _ | ⟨b2, t⟩⟩
      · right; rfl
      · right; rfl
      · left; rfl
    have e4 : decode4 p0 (t ++ x) = decode4 p0 t ∨ decode4 p0 t = (RuneError, 1) := by
      rcases t with _ | ⟨b1, _ | ⟨b2, _ | ⟨b3, t⟩⟩⟩
      · right; rfl
      · right; rfl
      · right; rfl
      · left; rfl
    split_ifs at h2 ⊢
    · rfl
    · rfl
    · rcases e2 with h' | h'
      · exact h'
      · rw [h', IsSpace_RuneError] at h2; exact absurd h2 (by decide)
    · rcases e3 with h' | h'
      · exact h'
      · rw [h', IsSpace_RuneError] at h2; exact absurd h2 (by decide)
    · rcases e4 with h' | h'
      · exact h'
      · rw [h', IsSpace_RuneError] at h2; exact absurd h2 (by decide)
    · rfl

theorem noSpace_drop (w : List Nat) (h : noSpace w = true) :
    ∀ j, j < w.length → IsSpace (DecodeRune (w.drop j)).1 = false := by
  induction w with
  | nil => intro j hj; simp at hj
  | cons b t ih =>
    intro j hj
    simp only [noSpace, Bool.and_eq_true, Bool.not_eq_true'] at h
    cases j with
    | zero => simpa using h.1
    | succ j =>
      simp only [List.drop_succ_cons]
      exact ih h.2 j (by simpa using hj)

theorem spaceRun_head (s : List Nat) (h : SpaceRun s) :
    ∀ b, s.head? = some b → b < 0x80 ∨ 0xBF < b := by
  cases h with
  | nil => intro b hb; simp at hb
  | cons e s he hs =>
    intro b hb
    apply spaceEnc_head e he
    rcases e with _ | ⟨p0, t⟩
    · exact absurd rfl (spaceEnc_ne_nil _ he)
    · simpa using hb

/-- The first loop of `ScanText` over a run of white space `pre` followed by `X`
(empty, or starting with a rune that is not white space). -/
theorem skipSpaces_run (pre : List Nat) (hpre : SpaceRun pre) (X : List Nat)
    (hX : X ≠ [] → IsSpace (DecodeRune X).1 = false) :
    ∀ (done : List Nat) (fuel r : Nat), pre.length + X.length ≤ fuel → (r ≠ 39 ∧ r ≠ 34) →
      ∃ r', skipSpaces (done ++ pre ++ X) fuel done.length r = (done.length + pre.length, r') ∧
        (X ≠ [] → r' = (DecodeRune X).1) ∧ (X = [] → r' ≠ 39 ∧ r' ≠ 34) := by
  induction hpre with
  | nil =>
    intro done fuel r hf hr
    cases fuel with
    | zero =>
      have hXn : X = [] := by
        simp at hf
        exact hf
      exact ⟨r, by simp [skipSpaces], fun h => absurd hXn h, fun _ => hr⟩
    | succ f =>
      rw [skipSpaces]
      by_cases hXn : X = []
      · subst hXn
        exact ⟨r, by simp, fun h => absurd rfl h, fun _ => hr⟩
      · have hlt : done.length < (done ++ [] ++ X).length := by
          have := List.length_pos.mpr hXn
          simp; omega
        rw [if_pos hlt]
        have hd : List.drop done.length (done ++ [] ++ X) = X := by simp
        simp only [hd, hX hXn]
        exact ⟨(DecodeRune X).1, by simp, fun _ => rfl, fun h => absurd h hXn⟩
  | cons e s he hs ih =>
    intro done fuel r hf hr
    have hene := spaceEnc_ne_nil e he
    have hel := List.length_pos.mpr hene
    cases fuel with
    | zero => simp only [List.length_append] at hf; omega
    | succ f =>
      rw [skipSpaces]
      have hlt : done.length < (done ++ (e ++ s) ++ X).length := by simp; omega
      rw [if_pos hlt]
      have hd : List.drop done.length (done ++ (e ++ s) ++ X) = e ++ (s ++ X) := by
        simp [List.append_assoc]
      have hdec : DecodeRune (e ++ (s ++ X)) = DecodeRune e := spaceEnc_append e _ he
      have hsp := spaceEnc_spec e he
      simp only [hd, hdec, hsp.2, hsp.1]
      obtain ⟨r', h1, h2, h3⟩ := ih (done ++ e) f (DecodeRune e).1
        (by simp only [List.length_append] at hf; omega) (IsSpace_not_quote _ hsp.2)
      refine ⟨r', ?_, h2, h3⟩
      have e1 : done ++ e ++ s ++ X = done ++ (e ++ s) ++ X := by simp [List.append_assoc]
      rw [e1] at h1
      simp only [List.length_append] at h1 ⊢
      simp only [Bool.not_true, Bool.false_eq_true, if_false]
      rw [h1]
      congr 1
      omega


/-- The second loop of `ScanText` inside a word `w` that is followed by `Y`
(nothing, or a run of white space and more): it walks to the end of `w`. -/
theorem scanWord_walk (D w Y : List Nat) (qs : Nat) (hw : noSpace w = true)
    (hY : ∀ b, Y.head? = some b → b < 0x80 ∨ 0xBF < b) (n : Nat) :
    ∀ (j fuel : Nat), j ≤ w.length → w.length - j ≤ n → w.length - j ≤ fuel →
      ∃ fuel', fuel - (w.length - j) ≤ fuel' ∧
        scanWord (D ++ w ++ Y) 0 qs D.length fuel (D.length + j) =
          scanWord (D ++ w ++ Y) 0 qs D.length fuel' (D.length + w.length) := by
  induction n with
  | zero =>
    intro j fuel hj hn _
    have : j = w.length := by omega
    subst this
    exact ⟨fuel, by omega, rfl⟩
  | succ n ih =>
    intro j fuel hj hn hf
    by_cases hjw : j = w.length
    · subst hjw
      exact ⟨fuel, by omega, rfl⟩
    · have hjlt : j < w.length := by omega
      cases fuel with
      | zero => omega
      | succ f =>
        rw [scanWord]
        have hlt : D.length + j < (D ++ w ++ Y).length := by simp; omega
        rw [if_pos hlt]
        have hd : List.drop (D.length + j) (D ++ w ++ Y) = w.drop j ++ Y := by
          rw [List.append_assoc, List.drop_append_eq_append_drop]
          simp [List.drop_append_of_le_length (le_of_lt hjlt)]
        have hne : w.drop j ≠ [] := by
          intro h
          have := congrArg List.length h
          simp at this
          omega
        have hdec : DecodeRune (w.drop j ++ Y) = DecodeRune (w.drop j) :=
          DecodeRune_append _ _ hne hY
        have hns := noSpace_drop w hw j hjlt
        have hwd := DecodeRune_width _ hne
        simp only [List.length_drop] at hwd
        simp only [hd, hdec, hns]
        rw [if_neg (by omega), if_neg (by simp)]
        have := ih (j + (DecodeRune (w.drop j)).2) f (by omega) (by omega) (by omega)
        rw [← Nat.add_assoc] at this
        obtain ⟨fuel', h1, h2⟩ := this
        exact ⟨fuel', by omega, h2⟩

theorem take_drop_word (D w Y : List Nat) :
    ((D ++ w ++ Y).take (D.length + w.length)).drop D.length = w := by
  rw [List.append_assoc, List.take_append_eq_append_take, List.drop_append_eq_append_drop]
  simp

theorem scanWord_sep (D w e rest : List Nat) (qs : Nat) (hw : noSpace w = true)
    (he : isSpaceEnc e = true) (fuel : Nat) (hf : w.length + 1 ≤ fuel) :
    scanWord (D ++ w ++ (e ++ rest)) 0 qs D.length fuel D.length =
      some (D.length + w.length + e.length, w) := by
  have hene := spaceEnc_ne_nil e he
  have hYh : ∀ b, (e ++ rest).head? = some b → b < 0x80 ∨ 0xBF < b := by
    intro b hb
    apply spaceEnc_head e he
    rcases e with _ | ⟨p0, t⟩
    · exact absurd rfl hene
    · simpa using hb
  have hwalk := scanWord_walk D w (e ++ rest) qs hw hYh w.length 0 fuel (Nat.zero_le _)
    (by omega) (by omega)
  simp only [Nat.add_zero, Nat.sub_zero] at hwalk
  obtain ⟨fuel', h1, h⟩ := hwalk
  · rw [h]
    obtain ⟨f, hf'⟩ : ∃ f, fuel' = f + 1 := ⟨fuel' - 1, by omega⟩
    rw [hf', scanWord]
    have hel := List.length_pos.mpr hene
    have hlt : D.length + w.length < (D ++ w ++ (e ++ rest)).length := by simp; omega
    rw [if_pos hlt]
    have hd : List.drop (D.length + w.length) (D ++ w ++ (e ++ rest)) = e ++ rest := by
      rw [← List.length_append, List.drop_left]
    have hsp := spaceEnc_spec e he
    simp only [hd, spaceEnc_append e rest he, hsp.1, hsp.2]
    rw [if_neg (by omega), if_pos (by simp)]
    rw [take_drop_word]

theorem scanWord_end (D w : List Nat) (qs : Nat) (hw : noSpace w = true) (fuel : Nat)
    (hf : w.length ≤ fuel) :
    scanWord (D ++ w) 0 qs D.length fuel D.length = none := by
  have hwalk := scanWord_walk D w [] qs hw (by simp) w.length 0 fuel (Nat.zero_le _)
    (by omega) (by omega)
  simp only [Nat.add_zero, Nat.sub_zero, List.append_nil] at hwalk
  obtain ⟨fuel', _, h⟩ := hwalk
  rw [h]
  cases fuel' with
  | zero => rfl
  | succ f =>
    rw [scanWord, if_neg (by simp)]


theorem isWord_spec (w : List Nat) (h : isWord w = true) :
    w ≠ [] ∧ noSpace w = true ∧ (DecodeRune w).1 ≠ 34 ∧ (DecodeRune w).1 ≠ 39 := by
  simpa [isWord, and_assoc] using h

theorem ScanText_of_skip (data : List Nat) (atEOF : Bool) (st r : Nat)
    (h : skipSpaces data data.length 0 0 = (st, r)) (hr : r ≠ 39 ∧ r ≠ 34) :
    ScanText data atEOF =
      match scanWord data 0 0 st data.length st with
      | some res => (res.1, some res.2)
      | none =>
        if atEOF = true ∧ data.length > st then (data.length, some (data.drop st))
        else (st, none) := by
  unfold ScanText
  simp only [h, hr.1, hr.2, decide_False, Bool.or_self, Bool.false_eq_true, if_false]
  try rfl

theorem skip_before_word (pre w Y : List Nat) (hpre : SpaceRun pre) (hw : isWord w = true)
    (hY : ∀ b, Y.head? = some b → b < 0x80 ∨ 0xBF < b) :
    ∃ r, skipSpaces (pre ++ w ++ Y) (pre ++ w ++ Y).length 0 0 = (pre.length, r) ∧
      r ≠ 39 ∧ r ≠ 34 := by
  obtain ⟨hne, hns, hq1, hq2⟩ := isWord_spec w hw
  have hdec : DecodeRune (w ++ Y) = DecodeRune w := DecodeRune_append _ _ hne hY
  have h0 : IsSpace (DecodeRune w).1 = false := by
    have := noSpace_drop w hns 0 (List.length_pos.mpr hne)
    simpa using this
  obtain ⟨r, h1, h2, _⟩ := skipSpaces_run pre hpre (w ++ Y) (fun _ => by rw [hdec]; exact h0)
    [] (pre ++ w ++ Y).length 0 (by simp [List.append_assoc]) (by decide)
  have hXne : w ++ Y ≠ [] := by simp [hne]
  have hr := h2 hXne
  rw [hdec] at hr
  refine ⟨r, ?_, by rw [hr]; exact hq2, by rw [hr]; exact hq1⟩
  simpa [List.append_assoc] using h1

/-- The result of `ScanText` on white space, a word, a white-space rune and more: the word,
advancing past the white-space rune. -/
theorem ScanText_word_sep (pre w e rest : List Nat) (hpre : SpaceRun pre)
    (hw : isWord w = true) (he : isSpaceEnc e = true) (atEOF : Bool) :
    ScanText (pre ++ w ++ (e ++ rest)) atEOF = (pre.length + w.length + e.length, some w) := by
  have hYh : ∀ b, (e ++ rest).head? = some b → b < 0x80 ∨ 0xBF < b := by
    intro b hb
    apply spaceEnc_head e he
    rcases e with _ | ⟨p0, t⟩
    · exact absurd rfl (spaceEnc_ne_nil _ he)
    · simpa using hb
  obtain ⟨r, hs, hr⟩ := skip_before_word pre w (e ++ rest) hpre hw hYh
  rw [ScanText_of_skip _ atEOF _ r hs hr]
  have hel := List.length_pos.mpr (spaceEnc_ne_nil _ he)
  rw [scanWord_sep pre w e rest 0 (isWord_spec w hw).2.1 he _
    (by simp only [List.length_append]; omega)]

/-- The result of `ScanText` on white space and a final word: more data is requested before
EOF, the word is returned at EOF. -/
theorem ScanText_word_end (pre w : List Nat) (hpre : SpaceRun pre) (hw : isWord w = true)
    (atEOF : Bool) :
    ScanText (pre ++ w) atEOF =
      if atEOF then (pre.length + w.length, some w) else (pre.length, none) := by
  obtain ⟨r, hs, hr⟩ := skip_before_word pre w [] hpre hw (by simp)
  simp only [List.append_nil] at hs
  rw [ScanText_of_skip _ atEOF _ r hs hr]
  rw [scanWord_end pre w 0 (isWord_spec w hw).2.1 _ (by simp)]
  have hne := List.length_pos.mpr (isWord_spec w hw).1
  cases atEOF with
  | false => simp
  | true => simp [hne]

/-- The result of `ScanText` on white space only: no token. -/
theorem ScanText_space (pre : List Nat) (hpre : SpaceRun pre) (atEOF : Bool) :
    ScanText pre atEOF = (pre.length, none) := by
  obtain ⟨r, h1, _, h3⟩ := skipSpaces_run pre hpre [] (fun h => absurd rfl h)
    [] pre.length 0 (by simp) (by decide)
  simp only [List.nil_append, List.append_nil, List.length_nil, Nat.zero_add] at h1
  rw [ScanText_of_skip _ atEOF _ r h1 (h3 rfl)]
  have := scanWord_end pre [] 0 rfl pre.length (by simp)
  simp only [List.append_nil] at this
  rw [this]
  simp


theorem scanBuffered_word_sep (pre w e rest : List Nat) (hpre : SpaceRun pre) (hw : isWord w = true)
    (he : isSpaceEnc e = true) (eof : Bool) :
    scanBuffered (pre ++ w ++ (e ++ rest)) eof = some (w, rest, eof) := by
  have hne := (isWord_spec w hw).1
  unfold scanBuffered
  rw [if_pos (Or.inl (by simp [hne]))]
  unfold splitAdvance
  rw [ScanText_word_sep pre w e rest hpre hw he eof]
  simp only
  rw [if_neg (by simp only [List.length_append]; omega)]
  have : List.drop (pre.length + w.length + e.length) (pre ++ w ++ (e ++ rest)) = rest := by
    have e1 : pre ++ w ++ (e ++ rest) = (pre ++ w ++ e) ++ rest := by simp [List.append_assoc]
    have e2 : pre.length + w.length + e.length = (pre ++ w ++ e).length := by
      simp only [List.length_append]
    rw [e1, e2, List.drop_left]
  rw [this]

theorem scanBuffered_word_end (pre w : List Nat) (hpre : SpaceRun pre) (hw : isWord w = true)
    (eof : Bool) : scanBuffered (pre ++ w) eof = some (w, [], true) := by
  have hne := (isWord_spec w hw).1
  have hwl := List.length_pos.mpr hne
  have h0 : ScanText w true = (w.length, some w) := by
    have := ScanText_word_end [] w SpaceRun.nil hw true
    simpa using this
  unfold scanBuffered
  rw [if_pos (Or.inl (by simp [hne]))]
  cases eof with
  | true =>
    unfold splitAdvance
    rw [ScanText_word_end pre w hpre hw true]
    simp only [if_true]
    rw [if_neg (by simp only [List.length_append]; omega)]
    have : List.drop (pre.length + w.length) (pre ++ w) = [] := by
      rw [← List.length_append, List.drop_length]
    rw [this]
  | false =>
    unfold splitAdvance
    rw [ScanText_word_end pre w hpre hw false]
    simp only [Bool.false_eq_true, if_false]
    rw [if_neg (by simp only [List.length_append]; omega)]
    simp only [List.drop_left, h0]
    rw [if_neg (by omega)]
    simp

theorem scanBuffered_space (pre : List Nat) (hpre : SpaceRun pre) (eof : Bool) :
    scanBuffered pre eof = none := by
  have h0 : splitAdvance [] true = some (none, []) := by
    unfold splitAdvance
    rw [ScanText_space [] SpaceRun.nil true]
    simp
  unfold scanBuffered
  by_cases h : pre ≠ [] ∨ eof = true
  · rw [if_pos h]
    have h1 : splitAdvance pre eof = some (none, []) := by
      unfold splitAdvance
      rw [ScanText_space pre hpre eof]
      simp
    rw [h1]
    simp only
    cases eof with
    | true => simp
    | false =>
      simp only [Bool.false_eq_true, if_false]
      rw [h0]
  · rw [if_neg h]
    have : pre = [] := by
      by_contra hc
      exact h (Or.inl hc)
    subst this
    rw [h0]

theorem spaceRun_cases (s : List Nat) (h : SpaceRun s) (hne : s ≠ []) :
    ∃ e s', s = e ++ s' ∧ isSpaceEnc e = true ∧ SpaceRun s' := by
  cases h with
  | nil => exact absurd rfl hne
  | cons e s' he hs => exact ⟨e, s', rfl, he, hs⟩

/-- The scanner yields the words of an expression in order. -/
theorem scanTokensBuffered_words (init : List (List Nat × List Nat)) :
    ∀ (pre wn post : List Nat) (eof : Bool) (fuel : Nat), init.length + 1 ≤ fuel →
      SpaceRun pre → SpaceRun post → isWord wn = true →
      (∀ p ∈ init, isWord p.1 = true ∧ SpaceRun p.2 ∧ p.2 ≠ []) →
      scanTokensBuffered fuel (pre ++ joinWords init ++ wn ++ post) eof =
        init.map (fun p => p.1) ++ [wn] := by
  induction init with
  | nil =>
    intro pre wn post eof fuel hf hpre hpost hwn _
    obtain ⟨f, rfl⟩ : ∃ f, fuel = f + 1 := ⟨fuel - 1, by simp at hf; omega⟩
    simp only [joinWords, List.append_nil, List.map_nil, List.nil_append]
    rw [scanTokensBuffered]
    by_cases hp : post = []
    · subst hp
      rw [List.append_nil, scanBuffered_word_end pre wn hpre hwn eof]
      simp only
      cases f with
      | zero => rfl
      | succ f => rw [scanTokensBuffered, scanBuffered_space [] SpaceRun.nil true]
    · obtain ⟨e, s', rfl, he, hs⟩ := spaceRun_cases post hpost hp
      rw [scanBuffered_word_sep pre wn e s' hpre hwn he eof]
      simp only
      cases f with
      | zero => rfl
      | succ f => rw [scanTokensBuffered, scanBuffered_space s' hs eof]
  | cons p r ih =>
    intro pre wn post eof fuel hf hpre hpost hwn hall
    obtain ⟨f, rfl⟩ : ∃ f, fuel = f + 1 := ⟨fuel - 1, by simp at hf; omega⟩
    obtain ⟨w, s⟩ := p
    obtain ⟨hw, hs, hsne⟩ := hall (w, s) (List.mem_cons_self _ _)
    obtain ⟨e, s', rfl, he, hs'⟩ := spaceRun_cases s hs hsne
    have e1 : pre ++ joinWords ((w, e ++ s') :: r) ++ wn ++ post =
        pre ++ w ++ (e ++ (s' ++ joinWords r ++ wn ++ post)) := by
      simp [joinWords, List.append_assoc]
    rw [e1, scanTokensBuffered, scanBuffered_word_sep pre w e _ hpre hw he eof]
    simp only
    rw [ih s' wn post eof f (by simp at hf; omega) hs' hpost hwn
      (fun q hq => hall q (List.mem_cons_of_mem _ hq))]
    simp

theorem length_joinWords (init : List (List Nat × List Nat))
    (h : ∀ p ∈ init, isWord p.1 = true ∧ SpaceRun p.2 ∧ p.2 ≠ []) :
    init.length ≤ (joinWords init).length := by
  induction init with
  | nil => simp
  | cons p r ih =>
    obtain ⟨w, s⟩ := p
    have := ih (fun q hq => h q (List.mem_cons_of_mem _ hq))
    have hw := List.length_pos.mpr (isWord_spec w (h (w, s) (List.mem_cons_self _ _)).1).1
    simp only [joinWords, List.length_append, List.length_cons]
    omega

/-! ## The scanner: reads in chunks

What the split function returns on a window that ends before the token does,
and what `Scan` returns on an expression of any length. -/

/-- Decoding the first rune of a truncated input gives what the whole input
gives, or `RuneError` with width 1. -/
theorem DecodeRune_prefix (y t : List Nat) (hy : y ≠ []) :
    DecodeRune y = DecodeRune (y ++ t) ∨ DecodeRune y = (RuneError, 1) := by
  rcases y with _ | ⟨p0, u⟩
  · exact absurd rfl hy
  · simp only [List.cons_append, DecodeRune]
    have e2 : decode2 p0 u = decode2 p0 (u ++ t) ∨ decode2 p0 u = (RuneError, 1) := by
      rcases u with _ | ⟨b1, u⟩
      · right; rfl
      · left; rfl
    have e3 : decode3 p0 u = decode3 p0 (u ++ t) ∨ decode3 p0 u = (RuneError, 1) := by
      rcases u with _ | ⟨b1, _ | ⟨b2, u⟩⟩
      · right; rfl
      · right; rfl
      · left; rfl
    have e4 : decode4 p0 u = decode4 p0 (u ++ t) ∨ decode4 p0 u = (RuneError, 1) := by
      rcases u with _ | ⟨b1, _ | ⟨b2, _ | ⟨b3, u⟩⟩⟩
      · right; rfl
      · right; rfl
      · right; rfl
      · left; rfl
    split_ifs
    · left; rfl
    · left; rfl
    · exact e2
    · exact e3
    · exact e4
    · left; rfl

theorem noSpace_iff (w : List Nat) :
    noSpace w = true ↔ ∀ j, j < w.length → IsSpace (DecodeRune (w.drop j)).1 = false := by
  constructor
  · exact noSpace_drop w
  · induction w with
    | nil => intro _; rfl
    | cons b t ih =>
      intro h
      simp only [noSpace, Bool.and_eq_true, Bool.not_eq_true']
      refine ⟨by simpa using h 0 (by simp), ih ?_⟩
      intro j hj
      have := h (j + 1) (by simpa using hj)
      simpa using this

/-- A non-empty prefix of a word is a word. -/
theorem isWord_prefix (y t : List Nat) (h : isWord (y ++ t) = true) (hy : y ≠ []) :
    isWord y = true := by
  obtain ⟨_, hns, hq1, hq2⟩ := isWord_spec _ h
  have hfirst : (DecodeRune y).1 = (DecodeRune (y ++ t)).1 ∨ (DecodeRune y).1 = RuneError := by
    rcases DecodeRune_prefix y t hy with h' | h'
    · left; rw [h']
    · right; rw [h']
  have hns' : noSpace y = true := by
    rw [noSpace_iff]
    intro j hj
    have hd : (y ++ t).drop j = y.drop j ++ t := by
      rw [List.drop_append_of_le_length (by omega)]
    have hne : y.drop j ≠ [] := by
      intro hc
      have := congrArg List.length hc
      simp at this
      omega
    have hfull := noSpace_drop _ hns j (by simp; omega)
    rw [hd] at hfull
    rcases DecodeRune_prefix (y.drop j) t hne with h' | h'
    · rw [h']; exact hfull
    · rw [h']; exact IsSpace_RuneError
  have hq : (DecodeRune y).1 ≠ 34 ∧ (DecodeRune y).1 ≠ 39 := by
    rcases hfirst with h' | h'
    · rw [h']; exact ⟨hq1, hq2⟩
    · rw [h']; exact ⟨by decide, by decide⟩
  simp [isWord, hy, hns', hq.1, hq.2]

theorem DecodeRune_le_four (s : List Nat) : (DecodeRune s).2 ≤ 4 := by
  rcases s with _ | ⟨p0, t⟩
  · simp [DecodeRune]
  · simp only [DecodeRune]
    split_ifs
    · simp
    · simp
    · rcases t with _ | ⟨b1, t⟩ <;> simp only [decode2]
      · simp
      · split_ifs <;> simp
    · rcases t with _ | ⟨b1, _ | ⟨b2, t⟩⟩ <;> simp only [decode3]
      · simp
      · simp
      · split_ifs <;> simp
    · rcases t with _ | ⟨b1, _ | ⟨b2, _ | ⟨b3, t⟩⟩⟩ <;> simp only [decode4]
      · simp
      · simp
      · simp
      · split_ifs <;> simp
    · simp

theorem spaceEnc_length_le (e : List Nat) (h : isSpaceEnc e = true) : e.length ≤ 4 := by
  rw [← (spaceEnc_spec e h).1]
  exact DecodeRune_le_four e

/-- A continuation byte does not start a rune. -/
theorem DecodeRune_cont (b : Nat) (t : List Nat) (h1 : 0x80 ≤ b) (h2 : b ≤ 0xBF) :
    DecodeRune (b :: t) = (RuneError, 1) := by
  simp only [DecodeRune]
  rw [if_neg (by omega), if_pos (by omega)]

/-- The bytes of an encoding after the first are continuation bytes. -/
theorem spaceEnc_tail (p0 : Nat) (t : List Nat) (h : isSpaceEnc (p0 :: t) = true) :
    ∀ b ∈ t, 0x80 ≤ b ∧ b ≤ 0xBF := by
  have hw := (spaceEnc_spec _ h).1
  simp only [DecodeRune, List.length_cons] at hw
  have hlo := acceptLo_ge p0
  have hhi := acceptHi_le p0
  split_ifs at hw
  · simp only at hw
    have : t = [] := List.eq_nil_of_length_eq_zero (by omega)
    subst this; simp
  · simp only at hw
    have : t = [] := List.eq_nil_of_length_eq_zero (by omega)
    subst this; simp
  · rcases t with _ | ⟨b1, t⟩
    · simp
    · simp only [decode2, List.length_cons] at hw
      split_ifs at hw with hc
      · simp only at hw
        have : t = [] := List.eq_nil_of_length_eq_zero (by omega)
        subst this
        intro b hb
        simp only [List.mem_singleton] at hb
        subst hb; exact hc
      · simp only at hw; omega
  · rcases t with _ | ⟨b1, _ | ⟨b2, t⟩⟩
    · simp
    · simp only [decode3, List.length_cons, List.length_nil] at hw; omega
    · simp only [decode3, List.length_cons] at hw
      split_ifs at hw with hc1 hc2
      · simp only at hw
        have : t = [] := List.eq_nil_of_length_eq_zero (by omega)
        subst this
        intro b hb
        simp only [List.mem_cons, List.mem_singleton, List.not_mem_nil, or_false] at hb
        rcases hb with rfl | rfl
        · omega
        · exact hc2
      · simp only at hw; omega
      · simp only at hw; omega
  · rcases t with _ | ⟨b1, _ | ⟨b2, _ | ⟨b3, t⟩⟩⟩
    · simp
    · simp only [decode4, List.length_cons, List.length_nil] at hw; omega
    · simp only [decode4, List.length_cons, List.length_nil] at hw; omega
    · simp only [decode4, List.length_cons] at hw
      split_ifs at hw with hc1 hc2 hc3
      · simp only at hw
        have : t = [] := List.eq_nil_of_length_eq_zero (by omega)
        subst this
        intro b hb
        simp only [List.mem_cons, List.mem_singleton, List.not_mem_nil, or_false] at hb
        rcases hb with rfl | rfl | rfl
        · omega
        · exact hc2
        · exact hc3
      · simp only at hw; omega
      · simp only at hw; omega
      · simp only at hw; omega
  · simp only at hw
    have : t = [] := List.eq_nil_of_length_eq_zero (by omega)
    subst this; simp

/-- A truncated encoding of a white-space rune is a word for the tokenizer:
every byte of it decodes to `RuneError`. -/
theorem spaceEnc_cut (e c t : List Nat) (h : isSpaceEnc e = true) (hc : c ++ t = e)
    (hcne : c ≠ []) (htne : t ≠ []) : isWord c = true := by
  rcases c with _ | ⟨p0, u⟩
  · exact absurd rfl hcne
  · subst hc
    have htail := spaceEnc_tail p0 (u ++ t) h
    have hlen : (p0 :: u).length < (p0 :: u ++ t).length := by
      have := List.length_pos.mpr htne
      simp only [List.length_append, List.length_cons] at *
      omega
    have h0 : DecodeRune (p0 :: u) = (RuneError, 1) := by
      rcases DecodeRune_prefix (p0 :: u) t hcne with h' | h'
      · have hw := (DecodeRune_width (p0 :: u) hcne).2
        rw [h', (spaceEnc_spec _ h).1] at hw
        omega
      · exact h'
    have hns : noSpace (p0 :: u) = true := by
      rw [noSpace_iff]
      intro j hj
      cases j with
      | zero => rw [List.drop_zero, h0]; exact IsSpace_RuneError
      | succ j =>
        simp only [List.drop_succ_cons]
        simp only [List.length_cons] at hj
        have hj' : j < u.length := by omega
        rw [List.drop_eq_getElem_cons hj']
        have hb := htail u[j] (List.mem_append_left _ (List.getElem_mem _))
        rw [DecodeRune_cont _ _ hb.1 hb.2]
        exact IsSpace_RuneError
    simp [isWord, hns, h0, RuneError]

/-- A word followed by a truncated encoding of a white-space rune is a word. -/
theorem isWord_append_cut (w e c t : List Nat) (hw : isWord w = true)
    (he : isSpaceEnc e = true) (hc : c ++ t = e) (htne : t ≠ []) : isWord (w ++ c) = true := by
  by_cases hcne : c = []
  · subst hcne; simpa using hw
  obtain ⟨hne, hns, hq1, hq2⟩ := isWord_spec w hw
  have hcw := spaceEnc_cut e c t he hc hcne htne
  have hhead : ∀ b, c.head? = some b → b < 0x80 ∨ 0xBF < b := by
    intro b hb
    apply spaceEnc_head e he
    subst hc
    rcases c with _ | ⟨p0, u⟩
    · exact absurd rfl hcne
    · simpa using hb
  have hdec : DecodeRune (w ++ c) = DecodeRune w := DecodeRune_append _ _ hne hhead
  have hns' : noSpace (w ++ c) = true := by
    rw [noSpace_iff]
    intro j hj
    by_cases hjw : j < w.length
    · rw [List.drop_append_of_le_length (by omega)]
      have hne' : w.drop j ≠ [] := by
        intro hcon
        have := congrArg List.length hcon
        simp at this
        omega
      rw [DecodeRune_append _ _ hne' hhead]
      exact noSpace_drop w hns j hjw
    · have hd : (w ++ c).drop j = c.drop (j - w.length) := by
        rw [List.drop_append_eq_append_drop, List.drop_of_length_le (by omega)]
        simp
      rw [hd]
      apply noSpace_drop c (isWord_spec c hcw).2.1
      simp only [List.length_append] at hj
      omega
  have hwc : w ++ c ≠ [] := by simp [hne]
  simp [isWord, hwc, hns', hdec, hq1, hq2]

theorem prefix_append_cases (P a b : List Nat) (h : P <+: a ++ b) :
    (∃ t, P ++ t = a ∧ t ≠ []) ∨ ∃ P', P = a ++ P' ∧ P' <+: b := by
  obtain ⟨t, ht⟩ := h
  rcases List.append_eq_append_iff.mp ht with ⟨a', h1, h2⟩ | ⟨c', h1, h2⟩
  · by_cases ha : a' = []
    · subst ha
      right
      exact ⟨[], by simp [h1], List.nil_prefix⟩
    · left
      exact ⟨a', h1.symm, ha⟩
  · right
    exact ⟨c', h1, ⟨t, h2.symm⟩⟩

/-- A prefix of white space followed by `z` either holds all of the white
space, or it ends within the encoding of one of its runes. -/
theorem spaceRun_prefix (pre : List Nat) (hpre : SpaceRun pre) :
    ∀ (z P : List Nat), P <+: pre ++ z →
      (∃ y, P = pre ++ y ∧ y <+: z) ∨
      (∃ pre₁ e pre₃ c t, pre = pre₁ ++ (e ++ pre₃) ∧ SpaceRun pre₁ ∧ isSpaceEnc e = true ∧
        SpaceRun pre₃ ∧ P = pre₁ ++ c ∧ c ++ t = e ∧ t ≠ []) := by
  induction hpre with
  | nil =>
    intro z P hP
    left
    exact ⟨P, rfl, by simpa using hP⟩
  | cons e s he hs ih =>
    intro z P hP
    rw [List.append_assoc] at hP
    rcases prefix_append_cases P e (s ++ z) hP with ⟨t, ht, htne⟩ | ⟨P', hP', hpre'⟩
    · right
      exact ⟨[], e, s, P, t, rfl, SpaceRun.nil, he, hs, rfl, ht, htne⟩
    · rcases ih z P' hpre' with ⟨y, hy, hyz⟩ | ⟨pre₁, e', pre₃, c, t, h1, h2, h3, h4, h5, h6, h7⟩
      · left
        exact ⟨y, by rw [hP', hy, List.append_assoc], hyz⟩
      · right
        refine ⟨e ++ pre₁, e', pre₃, c, t, ?_, SpaceRun.cons e pre₁ he h2, h3, h4, ?_, h6, h7⟩
        · rw [h1, List.append_assoc]
        · rw [hP', h5, List.append_assoc]

/-- The split function on a window that ends before the token does (`z` is a
word, or empty): it skips the white-space runes that are complete and requests
more data.  What stays in the window is a truncated white-space rune or a
prefix of `z`. -/
theorem ScanText_prefix (pre z P : List Nat) (hpre : SpaceRun pre)
    (hz : z = [] ∨ isWord z = true) (hP : P <+: pre ++ z) :
    ∃ pre₁ pre₂, pre = pre₁ ++ pre₂ ∧ SpaceRun pre₂ ∧ pre₁.length ≤ P.length ∧
      ScanText P false = (pre₁.length, none) ∧
      (P.length ≤ pre₁.length + 3 ∨ (pre₂ = [] ∧ P.length ≤ pre₁.length + z.length)) := by
  rcases spaceRun_prefix pre hpre z P hP with ⟨y, hy, hyz⟩ |
      ⟨pre₁, e, pre₃, c, t, h1, h2, h3, h4, h5, h6, h7⟩
  · refine ⟨pre, [], by simp, SpaceRun.nil, by simp [hy], ?_, Or.inr ⟨rfl, ?_⟩⟩
    · subst hy
      by_cases hyn : y = []
      · subst hyn
        rw [List.append_nil]
        exact ScanText_space pre hpre false
      · have hzw : isWord z = true := by
          rcases hz with rfl | hz
          · exact absurd (List.prefix_nil.mp hyz) hyn
          · exact hz
        obtain ⟨t, ht⟩ := hyz
        have hyw : isWord y = true := isWord_prefix y t (by rw [ht]; exact hzw) hyn
        have := ScanText_word_end pre y hpre hyw false
        simpa using this
    · subst hy
      have := hyz.length_le
      simp only [List.length_append]
      omega
  · refine ⟨pre₁, e ++ pre₃, h1, SpaceRun.cons e pre₃ h3 h4, by simp [h5], ?_, Or.inl ?_⟩
    · subst h5
      by_cases hcn : c = []
      · subst hcn
        rw [List.append_nil]
        exact ScanText_space pre₁ h2 false
      · have hcw := spaceEnc_cut e c t h3 h6 hcn h7
        have := ScanText_word_end pre₁ c h2 hcw false
        simpa using this
    · subst h5
      have hel := spaceEnc_length_le e h3
      have htl := List.length_pos.mpr h7
      rw [← h6] at hel
      simp only [List.length_append] at hel ⊢
      omega

/-- A read from an exhausted reader: `io.EOF`. -/
theorem read_exhausted (b st : Nat) (w : List Nat) (e : Bool) :
    Scanner.read ⟨b, st, w, [], e⟩ = ⟨b, st, w, [], true⟩ := by
  simp [Scanner.read]

theorem NewScanner_wellFormed (parse : List Nat) : (NewScanner parse).WellFormed := by
  simp [Scanner.WellFormed, NewScanner, MaxScanTokenSize]

theorem NewScanner_unread (parse : List Nat) : (NewScanner parse).unread = parse := by
  simp [Scanner.unread, NewScanner]

/-- A legal advance keeps the scanner well formed and takes its bytes from the
front of the unread bytes. -/
theorem advance_spec (s : Scanner) (n : Nat) (h : s.WellFormed) (hn : n ≤ s.window.length) :
    ∃ s₁, s.advance n = some s₁ ∧ s₁.WellFormed ∧ s₁.unread = s.unread.drop n ∧
      s₁.window = s.window.drop n ∧ s₁.rest = s.rest ∧ s₁.err = s.err ∧
      s₁.bufLen = s.bufLen := by
  obtain ⟨b, st, w, r, e⟩ := s
  obtain ⟨h1, h2, h3⟩ := h
  simp only at h1 h2 h3 hn
  refine ⟨⟨b, st + n, w.drop n, r, e⟩, ?_, ⟨?_, h2, ?_⟩, ?_, rfl, rfl, rfl, rfl⟩
  · simp only [Scanner.advance]
    rw [if_neg (by omega)]
  · simp only [List.length_drop]; omega
  · intro he
    obtain ⟨h4, h5⟩ := h3 he
    exact ⟨h4, by simp only [List.length_drop]; omega⟩
  · simp only [Scanner.unread]
    rw [List.drop_append_of_le_length hn]

/-- A read into a buffer that is not full. -/
theorem read_spec (t : Scanner) (h1 : t.start + t.window.length < t.bufLen)
    (h2 : t.bufLen ≤ MaxScanTokenSize) (he : t.err = false) :
    t.read.WellFormed ∧ t.read.unread = t.unread ∧
      ((t.read.err = true ∧ t.rest = [] ∧ t.read.window = t.window) ∨
        (t.read.err = false ∧ t.read.rest.length < t.rest.length)) := by
  obtain ⟨b, st, w, r, e⟩ := t
  simp only at h1 h2 he
  subst he
  by_cases hr : r = []
  · subst hr
    rw [read_exhausted]
    refine ⟨⟨?_, h2, ?_⟩, ?_, Or.inl ⟨?_, ?_, ?_⟩⟩
    · simp only; omega
    · intro _; exact ⟨rfl, h1⟩
    · rfl
    · rfl
    · rfl
    · rfl
  · have hrl := List.length_pos.mpr hr
    have hn : min (b - (st + w.length)) r.length ≠ 0 := by omega
    simp only [Scanner.read, if_neg hn]
    refine ⟨⟨?_, h2, ?_⟩, ?_, Or.inr ⟨trivial, ?_⟩⟩
    · simp only [List.length_append, List.length_take]
      omega
    · intro he; simp at he
    · simp only [Scanner.unread, List.append_assoc, List.take_append_drop]
    · simp only [List.length_drop]
      omega

/-- The second half of a round on a well-formed state: either the window
fills a buffer of `MaxScanTokenSize` bytes (`ErrTooLong`), or the unread bytes
stay what they are and the reader delivers at least one byte or `io.EOF`. -/
theorem fill_spec (s : Scanner) (h : s.WellFormed) (he : s.err = false) :
    (s.fill = none ∧ s.window.length = MaxScanTokenSize) ∨
    ∃ s₂, s.fill = some s₂ ∧ s.window.length < MaxScanTokenSize ∧ s₂.WellFormed ∧
      s₂.unread = s.unread ∧
      ((s₂.err = true ∧ s₂.rest = [] ∧ s.rest = [] ∧ s₂.window = s.window) ∨
        (s₂.err = false ∧ s₂.rest.length < s.rest.length)) := by
  obtain ⟨b, st, w, r, e⟩ := s
  obtain ⟨h1, h2, h3⟩ := h
  simp only at h1 h2 h3 he
  subst he
  have key : ∀ (b' st' : Nat), st' + w.length < b' → b' ≤ MaxScanTokenSize →
      w.length < MaxScanTokenSize →
      ∃ s₂, some (Scanner.read ⟨b', st', w, r, false⟩) = some s₂ ∧
        w.length < MaxScanTokenSize ∧ s₂.WellFormed ∧
        s₂.unread = Scanner.unread ⟨b, st, w, r, false⟩ ∧
        ((s₂.err = true ∧ s₂.rest = [] ∧ r = [] ∧ s₂.window = w) ∨
          (s₂.err = false ∧ s₂.rest.length < r.length)) := by
    intro b' st' hb1 hb2 hw
    obtain ⟨r1, r2, r3⟩ := read_spec ⟨b', st', w, r, false⟩ hb1 hb2 rfl
    refine ⟨_, rfl, hw, r1, r2, ?_⟩
    rcases r3 with ⟨q1, q2, q3⟩ | q
    · left
      simp only at q2
      subst q2
      exact ⟨q1, by rw [read_exhausted], rfl, q3⟩
    · right; exact q
  unfold Scanner.fill
  simp only [MaxScanTokenSize] at h2 ⊢
  by_cases hshift : 0 < st ∧ (st + w.length = b ∨ b / 2 < st)
  · simp only [if_pos hshift]
    by_cases hfull : 0 + w.length = b
    · omega
    · rw [if_neg hfull]
      right
      exact key b 0 (by omega) (by simpa [MaxScanTokenSize] using h2)
        (by simp only [MaxScanTokenSize]; omega)
  · simp only [if_neg hshift]
    by_cases hfull : st + w.length = b
    · rw [if_pos hfull]
      have hst : st = 0 := by
        by_contra hc
        exact hshift ⟨by omega, Or.inl hfull⟩
      subst hst
      by_cases hmax : 64 * 1024 ≤ b
      · rw [if_pos hmax]
        left
        exact ⟨rfl, by omega⟩
      · rw [if_neg hmax]
        right
        simp only [startBufSize]
        by_cases hb0 : b * 2 = 0
        · rw [if_pos hb0]
          exact key _ 0 (by omega) (by simp [MaxScanTokenSize])
            (by simp only [MaxScanTokenSize]; omega)
        · rw [if_neg hb0]
          exact key _ 0 (by omega) (by simp [MaxScanTokenSize])
            (by simp only [MaxScanTokenSize]; omega)
    · rw [if_neg hfull]
      right
      exact key b st (by omega) (by simpa [MaxScanTokenSize] using h2)
        (by simp only [MaxScanTokenSize]; omega)

/-- A round of `Scan` whose split function returns a token. -/
theorem scanLoop_token (s : Scanner) (k fuel : Nat) (tok : List Nat) (hwf : s.WellFormed)
    (hs : ScanText s.window s.err = (k, some tok)) (hk : k ≤ s.window.length)
    (hne : s.window ≠ [] ∨ s.err = true) :
    ∃ s₁, s.scanLoop (fuel + 1) = some (tok, s₁) ∧ s₁.WellFormed ∧
      s₁.unread = s.unread.drop k ∧ s₁.err = s.err := by
  obtain ⟨s₁, h1, h2, h3, _, _, h6, _⟩ := advance_spec s k hwf hk
  refine ⟨s₁, ?_, h2, h3, h6⟩
  rw [Scanner.scanLoop, if_pos hne]
  unfold Scanner.split
  simp only [hs, h1]

/-- The round of `Scan` after `io.EOF` without a token is the last one. -/
theorem scanLoop_last (s : Scanner) (k fuel : Nat) (he : s.err = true)
    (hs : ScanText s.window true = (k, none)) : s.scanLoop fuel = none := by
  cases fuel with
  | zero => rfl
  | succ f =>
    rw [Scanner.scanLoop, if_pos (Or.inr he)]
    unfold Scanner.split
    rw [he, hs]
    simp only
    cases hadv : s.advance k with
    | none => rfl
    | some s₁ =>
      have : s₁.err = true := by
        unfold Scanner.advance at hadv
        split_ifs at hadv
        simp only [Option.some.injEq] at hadv
        rw [← hadv]; exact he
      simp only [this, if_true]

/-- A round of `Scan` whose split function requests more data. -/
theorem scanLoop_more (s : Scanner) (k fuel : Nat) (hwf : s.WellFormed) (he : s.err = false)
    (hs : ScanText s.window false = (k, none)) (hk : k ≤ s.window.length) :
    ∃ s₁ : Scanner, s₁.WellFormed ∧ s₁.unread = s.unread.drop k ∧
      s₁.window = s.window.drop k ∧
      s₁.rest = s.rest ∧ s₁.err = false ∧
      s.scanLoop (fuel + 1) =
        match s₁.fill with
        | none => none
        | some s₂ => Scanner.scanLoop fuel s₂ := by
  obtain ⟨s₁, h1, h2, h3, h4, h5, h6, _⟩ := advance_spec s k hwf hk
  refine ⟨s₁, h2, h3, h4, h5, by rw [h6, he], ?_⟩
  rw [Scanner.scanLoop]
  by_cases hne : s.window ≠ [] ∨ s.err = true
  · rw [if_pos hne]
    unfold Scanner.split
    rw [he, hs]
    simp only [h1]
    rw [h6, he]
    simp only [Bool.false_eq_true, if_false]
  · rw [if_neg hne]
    have hw : s.window = [] := by
      by_contra hc
      exact hne (Or.inl hc)
    have hk0 : k = 0 := by
      rw [hw] at hk
      simpa using hk
    subst hk0
    have hs1 : s₁ = s := by
      unfold Scanner.advance at h1
      rw [if_neg (by omega)] at h1
      simp only [Option.some.injEq] at h1
      rw [← h1]
      obtain ⟨b, st, w, r, e⟩ := s
      simp
    rw [hs1]
    simp only [he, Bool.false_eq_true, if_false]

/-- A round of `Scan` on a window that ends before the token `z` does. -/
theorem scanLoop_request (s : Scanner) (pre z : List Nat) (fuel : Nat) (hwf : s.WellFormed)
    (he : s.err = false) (hpre : SpaceRun pre) (hz : z = [] ∨ isWord z = true)
    (hP : s.window <+: pre ++ z) :
    ∃ pre₁ pre₂, pre = pre₁ ++ pre₂ ∧ SpaceRun pre₂ ∧ pre₁.length ≤ s.window.length ∧
      ((s.scanLoop (fuel + 1) = none ∧ MaxScanTokenSize ≤ z.length) ∨
        ∃ s₂ : Scanner, s.scanLoop (fuel + 1) = s₂.scanLoop fuel ∧ s₂.WellFormed ∧
          s₂.unread = s.unread.drop pre₁.length ∧
          ((s₂.err = true ∧ s₂.rest = [] ∧ s.rest = []) ∨
            (s₂.err = false ∧ s₂.rest.length < s.rest.length))) := by
  obtain ⟨pre₁, pre₂, h1, h2, h3, h4, h5⟩ := ScanText_prefix pre z s.window hpre hz hP
  refine ⟨pre₁, pre₂, h1, h2, h3, ?_⟩
  obtain ⟨s₁, q1, q2, q3, q4, q5, q6⟩ := scanLoop_more s pre₁.length fuel hwf he h4 h3
  rcases fill_spec s₁ q1 q5 with ⟨f1, f2⟩ | ⟨s₂, f1, f2, f3, f4, f5⟩
  · left
    rw [q6, f1]
    refine ⟨rfl, ?_⟩
    rw [q3, List.length_drop] at f2
    simp only [MaxScanTokenSize] at f2 ⊢
    rcases h5 with h5 | ⟨_, h5⟩
    · omega
    · omega
  · right
    refine ⟨s₂, by rw [q6, f1], f3, by rw [f4, q2], ?_⟩
    rcases f5 with ⟨g1, g2, g3, _⟩ | ⟨g1, g2⟩
    · left; exact ⟨g1, g2, by rw [← q4]; exact g3⟩
    · right; exact ⟨g1, by rw [← q4]; exact g2⟩

theorem prefix_of_append_singleton (P t X : List Nat) (a : Nat) (h : P ++ t = X ++ [a])
    (ht : t ≠ []) : P <+: X := by
  rcases List.append_eq_append_iff.mp h with ⟨a', h1, _⟩ | ⟨c', h1, h2⟩
  · exact ⟨a', h1.symm⟩
  · have hl := congrArg List.length h2
    have htl := List.length_pos.mpr ht
    simp only [List.length_append, List.length_singleton] at hl
    have : c' = [] := List.eq_nil_of_length_eq_zero (by omega)
    subst this
    rw [List.append_nil] at h1
    rw [h1]

/-- A window that holds less than `x` is a prefix of `x` without its last byte. -/
theorem window_prefix (P r x more : List Nat) (h : P ++ r = x ++ more)
    (hl : P.length < x.length) : P <+: x.dropLast := by
  have hx : x ≠ [] := by
    intro hc; subst hc; simp at hl
  rcases List.append_eq_append_iff.mp h with ⟨a', h1, _⟩ | ⟨c', h1, _⟩
  · have ha : a' ≠ [] := by
      intro hc; subst hc
      rw [List.append_nil] at h1
      rw [h1] at hl
      omega
    have := List.dropLast_append_getLast hx
    exact prefix_of_append_singleton P a' x.dropLast (x.getLast hx) (by rw [← h1, this]) ha
  · have := congrArg List.length h1
    simp only [List.length_append] at this
    omega

/-- A window that holds at least `x` starts with `x`. -/
theorem window_covers (P r x more : List Nat) (h : P ++ r = x ++ more)
    (hl : x.length ≤ P.length) : ∃ more', P = x ++ more' ∧ more = more' ++ r := by
  rcases List.append_eq_append_iff.mp h with ⟨a', h1, h2⟩ | ⟨c', h1, h2⟩
  · have := congrArg List.length h1
    simp only [List.length_append] at this
    have ha : a' = [] := List.eq_nil_of_length_eq_zero (by omega)
    subst ha
    exact ⟨[], by simpa using h1.symm, by simpa using h2.symm ▸ rfl⟩
  · exact ⟨c', h1, h2⟩

/-- `Scan` on a word that is followed by a white-space rune, however the
reads cut the expression: the word, provided that it fits the largest buffer
together with that rune. -/
theorem scanLoop_word_sep (w e more : List Nat) (hw : isWord w = true)
    (he : isSpaceEnc e = true) (hlen : w.length + e.length ≤ MaxScanTokenSize) :
    ∀ (fuel : Nat) (s : Scanner) (pre : List Nat), s.WellFormed → SpaceRun pre →
      s.unread = pre ++ w ++ (e ++ more) →
      (s.rest.length + 2 ≤ fuel ∨ (s.err = true ∧ 1 ≤ fuel)) →
      ∃ s₁ : Scanner, s.scanLoop fuel = some (w, s₁) ∧ s₁.WellFormed ∧ s₁.unread = more := by
  have hene := spaceEnc_ne_nil e he
  have hz : isWord (w ++ e.dropLast) = true :=
    isWord_append_cut w e e.dropLast [e.getLast hene] hw he
      (List.dropLast_append_getLast hene) (by simp)
  have hzl : (w ++ e.dropLast).length < MaxScanTokenSize := by
    have := List.length_pos.mpr hene
    simp only [List.length_append, List.length_dropLast]
    omega
  intro fuel
  induction fuel with
  | zero =>
    intro s pre _ _ _ hf
    omega
  | succ f ih =>
    intro s pre hwf hpre hun hf
    have hun' : s.window ++ s.rest = (pre ++ w ++ e) ++ more := by
      rw [← Scanner.unread, hun]; simp [List.append_assoc]
    by_cases hcov : (pre ++ w ++ e).length ≤ s.window.length
    · obtain ⟨more', hm1, hm2⟩ := window_covers _ _ _ _ hun' hcov
      have hs : ScanText s.window s.err = (pre.length + w.length + e.length, some w) := by
        rw [hm1, List.append_assoc (pre ++ w)]
        exact ScanText_word_sep pre w e more' hpre hw he s.err
      have hk : pre.length + w.length + e.length ≤ s.window.length := by
        simp only [List.length_append] at hcov
        omega
      have hne : s.window ≠ [] ∨ s.err = true := by
        left
        intro hc
        rw [hc] at hk
        have := List.length_pos.mpr hene
        simp only [List.length_nil] at hk
        omega
      obtain ⟨s₁, h1, h2, h3, _⟩ := scanLoop_token s _ f w hwf hs hk hne
      refine ⟨s₁, h1, h2, ?_⟩
      rw [h3, Scanner.unread, hun']
      have : pre.length + w.length + e.length = (pre ++ w ++ e).length := by
        simp only [List.length_append]
      rw [this, List.drop_left]
    · have hlt : s.window.length < (pre ++ w ++ e).length := by omega
      have herr : s.err = false := by
        cases hse : s.err with
        | false => rfl
        | true =>
          have hr := (hwf.2.2 hse).1
          rw [hr, List.append_nil] at hun'
          rw [hun'] at hlt
          simp only [List.length_append] at hlt
          omega
      have hP : s.window <+: pre ++ (w ++ e.dropLast) := by
        have := window_prefix _ _ _ _ hun' hlt
        rwa [List.dropLast_append_of_ne_nil _ hene, List.append_assoc] at this
      obtain ⟨pre₁, pre₂, q1, q2, q3, q4⟩ :=
        scanLoop_request s pre _ f hwf herr hpre (Or.inr hz) hP
      rcases q4 with ⟨_, q4⟩ | ⟨s₂, g1, g2, g3, g4⟩
      · omega
      · have hun₂ : s₂.unread = pre₂ ++ w ++ (e ++ more) := by
          rw [g3, hun, q1, List.append_assoc, List.append_assoc, List.drop_left]
          simp [List.append_assoc]
        have hf₂ : s₂.rest.length + 2 ≤ f ∨ (s₂.err = true ∧ 1 ≤ f) := by
          rcases hf with hf | ⟨hf, _⟩
          · rcases g4 with ⟨g5, _, _⟩ | ⟨_, g5⟩
            · right; exact ⟨g5, by omega⟩
            · left; omega
          · rw [herr] at hf; exact absurd hf (by decide)
        obtain ⟨s₁, r1, r2, r3⟩ := ih s₂ pre₂ g2 q2 hun₂ hf₂
        exact ⟨s₁, by rw [g1, r1], r2, r3⟩

/-- `Scan` on the last word of the expression: the word, provided that it is
shorter than the largest buffer; the reader has answered `io.EOF` then. -/
theorem scanLoop_word_end (w : List Nat) (hw : isWord w = true)
    (hlen : w.length < MaxScanTokenSize) :
    ∀ (fuel : Nat) (s : Scanner) (pre : List Nat), s.WellFormed → SpaceRun pre →
      s.unread = pre ++ w →
      (s.rest.length + 2 ≤ fuel ∨ (s.err = true ∧ 1 ≤ fuel)) →
      ∃ s₁ : Scanner, s.scanLoop fuel = some (w, s₁) ∧ s₁.WellFormed ∧ s₁.unread = [] := by
  have hwne := (isWord_spec w hw).1
  intro fuel
  induction fuel with
  | zero =>
    intro s pre _ _ _ hf
    omega
  | succ f ih =>
    intro s pre hwf hpre hun hf
    have hun' : s.window ++ s.rest = pre ++ w := by rw [← Scanner.unread, hun]
    cases herr : s.err with
    | true =>
      have hr := (hwf.2.2 herr).1
      rw [hr, List.append_nil] at hun'
      have hs : ScanText s.window s.err = (pre.length + w.length, some w) := by
        rw [hun', herr, ScanText_word_end pre w hpre hw true]
        simp
      obtain ⟨s₁, h1, h2, h3, _⟩ := scanLoop_token s _ f w hwf hs
        (by rw [hun']; simp only [List.length_append]; omega) (Or.inr herr)
      refine ⟨s₁, h1, h2, ?_⟩
      rw [h3, Scanner.unread, hr, List.append_nil, hun', ← List.length_append, List.drop_length]
    | false =>
      have hP : s.window <+: pre ++ w := ⟨s.rest, hun'⟩
      obtain ⟨pre₁, pre₂, q1, q2, q3, q4⟩ :=
        scanLoop_request s pre _ f hwf herr hpre (Or.inr hw) hP
      rcases q4 with ⟨_, q4⟩ | ⟨s₂, g1, g2, g3, g4⟩
      · omega
      · have hun₂ : s₂.unread = pre₂ ++ w := by
          rw [g3, hun, q1, List.append_assoc, List.drop_left]
        have hf₂ : s₂.rest.length + 2 ≤ f ∨ (s₂.err = true ∧ 1 ≤ f) := by
          rcases hf with hf | ⟨hf, _⟩
          · rcases g4 with ⟨g5, _, _⟩ | ⟨_, g5⟩
            · right; exact ⟨g5, by omega⟩
            · left; omega
          · rw [herr] at hf; exact absurd hf (by decide)
        obtain ⟨s₁, r1, r2, r3⟩ := ih s₂ pre₂ g2 q2 hun₂ hf₂
        exact ⟨s₁, by rw [g1, r1], r2, r3⟩

/-- `Scan` returns false when only white space is left. -/
theorem scanLoop_space :
    ∀ (fuel : Nat) (s : Scanner) (pre : List Nat), s.WellFormed → SpaceRun pre →
      s.unread = pre → s.scanLoop fuel = none := by
  intro fuel
  induction fuel with
  | zero => intro s pre _ _ _; rfl
  | succ f ih =>
    intro s pre hwf hpre hun
    have hun' : s.window ++ s.rest = pre := by rw [← Scanner.unread, hun]
    cases herr : s.err with
    | true =>
      have hr := (hwf.2.2 herr).1
      rw [hr, List.append_nil] at hun'
      exact scanLoop_last s pre.length (f + 1) herr (by rw [hun']; exact ScanText_space pre hpre true)
    | false =>
      have hP : s.window <+: pre ++ [] := by
        rw [List.append_nil]; exact ⟨s.rest, hun'⟩
      obtain ⟨pre₁, pre₂, q1, q2, q3, q4⟩ :=
        scanLoop_request s pre [] f hwf herr hpre (Or.inl rfl) hP
      rcases q4 with ⟨q4, _⟩ | ⟨s₂, g1, g2, g3, g4⟩
      · exact q4
      · rw [g1]
        exact ih s₂ pre₂ g2 q2 (by rw [g3, hun, q1, List.drop_left])

/-- `Scan` returns false on a word of `MaxScanTokenSize` bytes or more: the
buffer fills up before the word ends (`ErrTooLong`). -/
theorem scanLoop_too_long (w more : List Nat) (hw : isWord w = true)
    (hlen : MaxScanTokenSize ≤ w.length) :
    ∀ (fuel : Nat) (s : Scanner) (pre : List Nat), s.WellFormed →
      SpaceRun pre → s.unread = pre ++ w ++ more → s.scanLoop fuel = none := by
  have hnoerr : ∀ (s : Scanner) (pre : List Nat), s.WellFormed →
      s.unread = pre ++ w ++ more → s.err = false := by
    intro s pre hwf hun
    cases he : s.err with
    | false => rfl
    | true =>
      exfalso
      obtain ⟨h0, h1⟩ := hwf.2.2 he
      have h2 := hwf.2.1
      have h3 : s.window = pre ++ w ++ more := by
        rw [← hun, Scanner.unread, h0, List.append_nil]
      rw [h3] at h1
      simp only [List.length_append] at h1
      omega
  intro fuel
  induction fuel with
  | zero => intro s pre _ _ _; rfl
  | succ f ih =>
    intro s pre hwf hpre hun
    have herr := hnoerr s pre hwf hun
    have hun' : s.window ++ s.rest = (pre ++ w) ++ more := by rw [← Scanner.unread, hun]
    have hP : s.window <+: pre ++ w := by
      rcases List.append_eq_append_iff.mp hun' with ⟨a', h1, _⟩ | ⟨c', h1, _⟩
      · exact ⟨a', h1.symm⟩
      · have h2 := congrArg List.length h1
        have h3 := hwf.1
        have h4 := hwf.2.1
        simp only [List.length_append] at h2
        have : c' = [] := List.eq_nil_of_length_eq_zero (by omega)
        subst this
        rw [List.append_nil] at h1
        rw [h1]
    obtain ⟨pre₁, pre₂, q1, q2, q3, q4⟩ :=
      scanLoop_request s pre w f hwf herr hpre (Or.inr hw) hP
    rcases q4 with ⟨q4, _⟩ | ⟨s₂, g1, g2, g3, g4⟩
    · exact q4
    · have hun₂ : s₂.unread = pre₂ ++ w ++ more := by
        rw [g3, hun, q1, List.append_assoc, List.append_assoc, List.drop_left]
        simp [List.append_assoc]
      rw [g1]
      exact ih s₂ pre₂ g2 q2 hun₂

theorem Scan_space (s : Scanner) (pre : List Nat) (hwf : s.WellFormed) (hpre : SpaceRun pre)
    (hun : s.unread = pre) : s.Scan = none :=
  scanLoop_space _ s pre hwf hpre hun

theorem Scan_word_sep (s : Scanner) (pre w e more : List Nat) (hwf : s.WellFormed)
    (hpre : SpaceRun pre) (hw : isWord w = true) (he : isSpaceEnc e = true)
    (hlen : w.length + e.length ≤ MaxScanTokenSize) (hun : s.unread = pre ++ w ++ (e ++ more)) :
    ∃ s₁ : Scanner, s.Scan = some (w, s₁) ∧ s₁.WellFormed ∧ s₁.unread = more :=
  scanLoop_word_sep w e more hw he hlen _ s pre hwf hpre hun (Or.inl (le_refl _))

theorem Scan_word_end (s : Scanner) (pre w : List Nat) (hwf : s.WellFormed)
    (hpre : SpaceRun pre) (hw : isWord w = true) (hlen : w.length < MaxScanTokenSize)
    (hun : s.unread = pre ++ w) :
    ∃ s₁ : Scanner, s.Scan = some (w, s₁) ∧ s₁.WellFormed ∧ s₁.unread = [] :=
  scanLoop_word_end w hw hlen _ s pre hwf hpre hun (Or.inl (le_refl _))

theorem spaceRun_width (e s : List Nat) (he : isSpaceEnc e = true) :
    (DecodeRune (e ++ s)).2 = e.length := by
  rw [spaceEnc_append e s he]
  exact (spaceEnc_spec e he).1

/-- The scanner yields the words of an expression in order, however long the
expression is, when every word fits the largest buffer together with the
white-space rune that ends it. -/
theorem scanAll_words (init : List (List Nat × List Nat)) :
    ∀ (pre wn post : List Nat) (s : Scanner) (fuel : Nat), s.WellFormed →
      s.unread = pre ++ joinWords init ++ wn ++ post → init.length + 1 ≤ fuel →
      SpaceRun pre → SpaceRun post → isWord wn = true →
      wn.length < MaxScanTokenSize → wn.length + (DecodeRune post).2 ≤ MaxScanTokenSize →
      (∀ p ∈ init, isWord p.1 = true ∧ SpaceRun p.2 ∧ p.2 ≠ []) →
      (∀ p ∈ init, p.1.length + (DecodeRune p.2).2 ≤ MaxScanTokenSize) →
      s.scanAll fuel = init.map (fun p => p.1) ++ [wn] := by
  induction init with
  | nil =>
    intro pre wn post s fuel hwf hun hf hpre hpost hwn hl1 hl2 _ _
    obtain ⟨f, rfl⟩ : ∃ f, fuel = f + 1 := ⟨fuel - 1, by simp at hf; omega⟩
    simp only [joinWords, List.append_nil, List.map_nil, List.nil_append] at hun ⊢
    rw [Scanner.scanAll]
    by_cases hp : post = []
    · subst hp
      rw [List.append_nil] at hun
      obtain ⟨s₁, h1, h2, h3⟩ := Scan_word_end s pre wn hwf hpre hwn hl1 hun
      rw [h1]
      simp only
      cases f with
      | zero => rfl
      | succ f => rw [Scanner.scanAll, Scan_space s₁ [] h2 SpaceRun.nil h3]
    · obtain ⟨e, s', rfl, he, hs⟩ := spaceRun_cases post hpost hp
      rw [spaceRun_width e s' he] at hl2
      obtain ⟨s₁, h1, h2, h3⟩ := Scan_word_sep s pre wn e s' hwf hpre hwn he hl2 hun
      rw [h1]
      simp only
      cases f with
      | zero => rfl
      | succ f => rw [Scanner.scanAll, Scan_space s₁ s' h2 hs h3]
  | cons p r ih =>
    intro pre wn post s fuel hwf hun hf hpre hpost hwn hl1 hl2 hall hfit
    obtain ⟨f, rfl⟩ : ∃ f, fuel = f + 1 := ⟨fuel - 1, by simp at hf; omega⟩
    obtain ⟨w, sp⟩ := p
    obtain ⟨hw, hs, hsne⟩ := hall (w, sp) (List.mem_cons_self _ _)
    have hfw := hfit (w, sp) (List.mem_cons_self _ _)
    obtain ⟨e, s', rfl, he, hs'⟩ := spaceRun_cases sp hs hsne
    simp only at hfw
    rw [spaceRun_width e s' he] at hfw
    have e1 : pre ++ joinWords ((w, e ++ s') :: r) ++ wn ++ post =
        pre ++ w ++ (e ++ (s' ++ joinWords r ++ wn ++ post)) := by
      simp [joinWords, List.append_assoc]
    rw [e1] at hun
    obtain ⟨s₁, h1, h2, h3⟩ := Scan_word_sep s pre w e _ hwf hpre hw he hfw hun
    rw [Scanner.scanAll, h1]
    simp only
    rw [ih s' wn post s₁ f h2 h3 (by simp at hf; omega) hs' hpost hwn hl1 hl2
      (fun q hq => hall q (List.mem_cons_of_mem _ hq))
      (fun q hq => hfit q (List.mem_cons_of_mem _ hq))]
    simp

theorem tokens_words (init : List (List Nat × List Nat)) (pre wn post : List Nat)
    (hpre : SpaceRun pre) (hpost : SpaceRun post) (hwn : isWord wn = true)
    (hall : ∀ p ∈ init, isWord p.1 = true ∧ SpaceRun p.2 ∧ p.2 ≠ [])
    (hfit : ∀ p ∈ init, p.1.length + (DecodeRune p.2).2 ≤ MaxScanTokenSize)
    (hl1 : wn.length < MaxScanTokenSize)
    (hl2 : wn.length + (DecodeRune post).2 ≤ MaxScanTokenSize) :
    tokens (pre ++ joinWords init ++ wn ++ post) = init.map (fun p => p.1) ++ [wn] := by
  unfold tokens
  apply scanAll_words init pre wn post _ _ (NewScanner_wellFormed _) (NewScanner_unread _) _
    hpre hpost hwn hl1 hl2 hall hfit
  have := length_joinWords init hall
  simp only [List.length_append]
  omega

/-- The scanner yields the words before the first word of `MaxScanTokenSize`
bytes or more, and fails at that word. -/
theorem scanAll_words_too_long (init : List (List Nat × List Nat)) :
    ∀ (pre w more : List Nat) (s : Scanner) (fuel : Nat), s.WellFormed →
      s.unread = pre ++ joinWords init ++ w ++ more → init.length + 1 ≤ fuel →
      SpaceRun pre → isWord w = true → MaxScanTokenSize ≤ w.length →
      (∀ p ∈ init, isWord p.1 = true ∧ SpaceRun p.2 ∧ p.2 ≠ []) →
      (∀ p ∈ init, p.1.length + (DecodeRune p.2).2 ≤ MaxScanTokenSize) →
      s.scanAll fuel = init.map (fun p => p.1) := by
  induction init with
  | nil =>
    intro pre w more s fuel hwf hun hf hpre hw hlen _ _
    obtain ⟨f, rfl⟩ : ∃ f, fuel = f + 1 := ⟨fuel - 1, by simp at hf; omega⟩
    simp only [joinWords, List.append_nil, List.map_nil] at hun ⊢
    rw [Scanner.scanAll, Scanner.Scan, scanLoop_too_long w more hw hlen _ s pre hwf hpre hun]
  | cons p r ih =>
    intro pre w more s fuel hwf hun hf hpre hw hlen hall hfit
    obtain ⟨f, rfl⟩ : ∃ f, fuel = f + 1 := ⟨fuel - 1, by simp at hf; omega⟩
    obtain ⟨w₁, sp⟩ := p
    obtain ⟨hw₁, hs, hsne⟩ := hall (w₁, sp) (List.mem_cons_self _ _)
    have hfw := hfit (w₁, sp) (List.mem_cons_self _ _)
    obtain ⟨e, s', rfl, he, hs'⟩ := spaceRun_cases sp hs hsne
    simp only at hfw
    rw [spaceRun_width e s' he] at hfw
    have e1 : pre ++ joinWords ((w₁, e ++ s') :: r) ++ w ++ more =
        pre ++ w₁ ++ (e ++ (s' ++ joinWords r ++ w ++ more)) := by
      simp [joinWords, List.append_assoc]
    rw [e1] at hun
    obtain ⟨s₁, h1, h2, h3⟩ := Scan_word_sep s pre w₁ e _ hwf hpre hw₁ he hfw hun
    rw [Scanner.scanAll, h1]
    simp only
    rw [ih s' w more s₁ f h2 h3 (by simp at hf; omega) hs' hw hlen
      (fun q hq => hall q (List.mem_cons_of_mem _ hq))
      (fun q hq => hfit q (List.mem_cons_of_mem _ hq))]
    simp

/-- The tokens of an expression that holds a word of `MaxScanTokenSize` bytes
or more: the words before it. -/
theorem tokens_words_too_long (init : List (List Nat × List Nat)) (pre w more : List Nat)
    (hpre : SpaceRun pre) (hw : isWord w = true) (hlen : MaxScanTokenSize ≤ w.length)
    (hall : ∀ p ∈ init, isWord p.1 = true ∧ SpaceRun p.2 ∧ p.2 ≠ [])
    (hfit : ∀ p ∈ init, p.1.length + (DecodeRune p.2).2 ≤ MaxScanTokenSize) :
    tokens (pre ++ joinWords init ++ w ++ more) = init.map (fun p => p.1) := by
  unfold tokens
  apply scanAll_words_too_long init pre w more _ _ (NewScanner_wellFormed _)
    (NewScanner_unread _) _ hpre hw hlen hall hfit
  have := length_joinWords init hall
  simp only [List.length_append]
  omega

/-- An expression whose first word has `MaxScanTokenSize` bytes or more gives
no token at all. -/
theorem tokens_too_long (pre w more : List Nat) (hpre : SpaceRun pre) (hw : isWord w = true)
    (hlen : MaxScanTokenSize ≤ w.length) : tokens (pre ++ w ++ more) = [] := by
  have := tokens_words_too_long [] pre w more hpre hw hlen (by simp) (by simp)
  simpa [joinWords] using this

/-! ## The scanner once the reader is exhausted -/

theorem fill_exhausted (b st : Nat) (w : List Nat) (e : Bool) (hb : b < MaxScanTokenSize) :
    ∃ b' st', Scanner.fill ⟨b, st, w, [], e⟩ = some ⟨b', st', w, [], true⟩ := by
  unfold Scanner.fill
  by_cases hshift : 0 < st ∧ (st + w.length = b ∨ b / 2 < st)
  · simp only [if_pos hshift]
    by_cases hfull : 0 + w.length = b
    · rw [if_pos hfull, if_neg (by omega)]
      simp only [read_exhausted]
      exact ⟨_, _, rfl⟩
    · rw [if_neg hfull, read_exhausted]
      exact ⟨_, _, rfl⟩
  · simp only [if_neg hshift]
    by_cases hfull : st + w.length = b
    · rw [if_pos hfull, if_neg (by omega)]
      simp only [read_exhausted]
      exact ⟨_, _, rfl⟩
    · rw [if_neg hfull, read_exhausted]
      exact ⟨_, _, rfl⟩

/-- The round of `Scan` after an error has been seen is the last one. -/
theorem scanLoop_err (b st : Nat) (w r : List Nat) (fuel : Nat) :
    Scanner.scanLoop (fuel + 1) ⟨b, st, w, r, true⟩ =
      if w.length < (ScanText w true).1 then none
      else match (ScanText w true).2 with
        | some tok => some (tok, ⟨b, st + (ScanText w true).1, w.drop (ScanText w true).1, r, true⟩)
        | none => none := by
  rw [Scanner.scanLoop]
  unfold Scanner.split Scanner.advance
  simp only [or_true, if_true]
  by_cases hadv : w.length < (ScanText w true).1
  · simp [hadv]
  · rw [if_neg hadv, if_neg hadv]
    cases htok : (ScanText w true).2 with
    | some tok => simp
    | none => simp

theorem scanBuffered_true (w : List Nat) :
    scanBuffered w true =
      if w.length < (ScanText w true).1 then none
      else match (ScanText w true).2 with
        | some tok => some (tok, w.drop (ScanText w true).1, true)
        | none => none := by
  unfold scanBuffered splitAdvance
  simp only [or_true, if_true]
  by_cases hadv : w.length < (ScanText w true).1
  · simp [hadv]
  · rw [if_neg hadv, if_neg hadv]
    cases htok : (ScanText w true).2 with
    | some tok => simp
    | none => simp

theorem scanLoop_err_buffered (b st : Nat) (w : List Nat) (fuel : Nat) :
    (Scanner.scanLoop (fuel + 1) ⟨b, st, w, [], true⟩).map (fun r => (r.1, r.2.window, r.2.err)) =
        scanBuffered w true ∧
      ∀ tok s₁, Scanner.scanLoop (fuel + 1) ⟨b, st, w, [], true⟩ = some (tok, s₁) →
        s₁.Exhausted := by
  rw [scanLoop_err, scanBuffered_true]
  by_cases hadv : w.length < (ScanText w true).1
  · simp [hadv]
  · rw [if_neg hadv, if_neg hadv]
    cases htok : (ScanText w true).2 with
    | none => simp
    | some tok =>
      simp only [Option.map_some', true_and]
      intro tok' s₁ hs
      simp only [Option.some.injEq, Prod.mk.injEq] at hs
      rw [← hs.2]
      exact ⟨rfl, Or.inl rfl⟩

theorem scanBuffered_false (w : List Nat) :
    scanBuffered w false =
      if w = [] then scanBuffered [] true
      else if w.length < (ScanText w false).1 then none
      else match (ScanText w false).2 with
        | some tok => some (tok, w.drop (ScanText w false).1, false)
        | none => scanBuffered (w.drop (ScanText w false).1) true := by
  have key : ∀ buf, (match splitAdvance buf true with
      | some (some tok, buf') => some (tok, buf', true)
      | _ => none) = scanBuffered buf true := by
    intro buf
    unfold scanBuffered
    simp only [or_true, if_true]
    cases splitAdvance buf true with
    | none => rfl
    | some p =>
      obtain ⟨t, buf'⟩ := p
      cases t <;> rfl
  by_cases hw : w = []
  · rw [if_pos hw]
    subst hw
    rw [← key]
    unfold scanBuffered
    simp
    try rfl
  · rw [if_neg hw]
    conv_lhs => unfold scanBuffered
    rw [if_pos (Or.inl hw)]
    unfold splitAdvance
    by_cases hadv : w.length < (ScanText w false).1
    · simp [hadv]
    · simp only [if_neg hadv]
      cases htok : (ScanText w false).2 with
      | some tok => simp
      | none =>
        simp only [Bool.false_eq_true, if_false]
        exact key _

theorem scanLoop_buffered (s : Scanner) (h : s.Exhausted) (fuel : Nat) :
    (s.scanLoop (fuel + 2)).map (fun r => (r.1, r.2.window, r.2.err)) =
        scanBuffered s.window s.err ∧
      ∀ tok s₁, s.scanLoop (fuel + 2) = some (tok, s₁) → s₁.Exhausted := by
  obtain ⟨b, st, w, r, e⟩ := s
  obtain ⟨hr, hb⟩ := h
  simp only at hr hb
  subst hr
  cases e with
  | true => exact scanLoop_err_buffered b st w (fuel + 1)
  | false =>
    have hb' : b < MaxScanTokenSize := by simpa using hb
    simp only
    rw [scanBuffered_false, Scanner.scanLoop]
    by_cases hw : w = []
    · subst hw
      simp only [ne_eq, not_true_eq_false, Bool.false_eq_true, or_self, if_false, if_true]
      obtain ⟨b', st', hf⟩ := fill_exhausted b st [] false hb'
      rw [hf]
      exact scanLoop_err_buffered b' st' [] fuel
    · rw [if_neg hw, if_pos (Or.inl hw)]
      unfold Scanner.split Scanner.advance
      simp only
      by_cases hadv : w.length < (ScanText w false).1
      · simp [hadv]
      · rw [if_neg hadv, if_neg hadv]
        cases htok : (ScanText w false).2 with
        | some tok =>
          simp only [Option.map_some', true_and]
          intro tok' s₁ hs
          simp only [Option.some.injEq, Prod.mk.injEq] at hs
          rw [← hs.2]
          exact ⟨rfl, Or.inr hb'⟩
        | none =>
          simp only [Bool.false_eq_true, if_false]
          obtain ⟨b', st', hf⟩ := fill_exhausted b (st + (ScanText w false).1)
            (w.drop (ScanText w false).1) false hb'
          rw [hf]
          exact scanLoop_err_buffered b' st' _ fuel

theorem scanAll_buffered (fuel : Nat) :
    ∀ (s : Scanner), s.Exhausted → s.scanAll fuel = scanTokensBuffered fuel s.window s.err := by
  induction fuel with
  | zero => intro s _; rfl
  | succ f ih =>
    intro s hs
    rw [Scanner.scanAll, scanTokensBuffered, Scanner.Scan, hs.1]
    obtain ⟨h1, h2⟩ := scanLoop_buffered s hs 0
    rw [← h1]
    simp only [List.length_nil, Nat.zero_add]
    cases hl : s.scanLoop 2 with
    | none => rfl
    | some r =>
      obtain ⟨tok, s₁⟩ := r
      simp only [Option.map_some']
      rw [ih s₁ (h2 tok s₁ hl)]

/-- The first `Scan` allocates the buffer and reads: an expression of at most
`startBufSize` bytes is in the window after that one `Read`. -/
theorem NewScanner_Scan (parse : List Nat) (h : parse.length ≤ startBufSize) :
    ((NewScanner parse).Scan).map (fun r => (r.1, r.2.window, r.2.err)) =
        scanBuffered parse false ∧
      ∀ tok s₁, (NewScanner parse).Scan = some (tok, s₁) → s₁.Exhausted := by
  unfold Scanner.Scan NewScanner
  simp only
  rw [Scanner.scanLoop]
  simp only [ne_eq, not_true_eq_false, Bool.false_eq_true, or_self, if_false]
  have hfill : Scanner.fill ⟨0, 0, [], parse, false⟩ =
      some (if parse = [] then ⟨startBufSize, 0, [], [], true⟩
        else ⟨startBufSize, 0, parse, [], false⟩) := by
    unfold Scanner.fill Scanner.read
    by_cases hp : parse = []
    · subst hp
      simp [MaxScanTokenSize, startBufSize]
    · have hl : 0 < parse.length := List.length_pos.mpr hp
      have h' : parse.length ≤ 4096 := h
      have e : min 4096 (min 65536 parse.length) = parse.length := by omega
      simp [MaxScanTokenSize, startBufSize, hp, e, h']
  rw [hfill]
  simp only
  by_cases hp : parse = []
  · subst hp
    simp only [if_true, List.length_nil, Nat.zero_add]
    rw [scanBuffered_false, if_pos rfl]
    exact scanLoop_err_buffered _ _ _ 0
  · rw [if_neg hp]
    obtain ⟨k, hk⟩ : ∃ k, parse.length + 1 = k + 2 :=
      ⟨parse.length - 1, by have := List.length_pos.mpr hp; omega⟩
    rw [hk]
    exact scanLoop_buffered ⟨startBufSize, 0, parse, [], false⟩
      ⟨rfl, Or.inr (by simp [startBufSize, MaxScanTokenSize])⟩ k

/-- The tokens of an expression of at most `startBufSize` bytes: the scanner
holds all of it after the first `Read`. -/
theorem tokens_buffered (parse : List Nat) (h : parse.length ≤ startBufSize) :
    tokens parse = scanTokensBuffered (parse.length + 1) parse false := by
  unfold tokens
  rw [Scanner.scanAll, scanTokensBuffered]
  obtain ⟨h1, h2⟩ := NewScanner_Scan parse h
  rw [← h1]
  cases hl : (NewScanner parse).Scan with
  | none => rfl
  | some r =>
    obtain ⟨tok, s₁⟩ := r
    simp only [Option.map_some']
    rw [scanAll_buffered _ s₁ (h2 tok s₁ hl)]

/-- The compiler on an expression of at most `startBufSize` bytes. -/
theorem Parse_buffered (cfg : Config) (parse : List Nat) (h : parse.length ≤ startBufSize) :
    Parse cfg parse = parseLoop cfg [] (scanTokensBuffered (parse.length + 1) parse false) := by
  unfold Parse
  rw [tokens_buffered parse h]


/-- The result of `DelimChunk.Chop` at the first occurrence of the delimiter, followed by
`k - 1` further copies and a rest that does not start with one. -/
theorem delimChop_run (cfg : Config) (name d a rest slack : List Nat)
    (skipAll : Bool) (k c : Nat) (values : Values)
    (hd : d ≠ []) (hc : c ≤ a.length) (hk : 1 ≤ k)
    (hfirst : ∀ i, c ≤ i → i < a.length → ¬ d <+: (a ++ Repeat d k ++ rest).drop i)
    (hmax : ¬ d <+: rest)
    (hfit : skipAll = true → rest = [] ∨ d.length ≤ rest.length) :
    DelimChunk.Chop cfg ⟨name, d, skipAll⟩ (a ++ Repeat d k ++ rest) slack (c : Int) values =
      some (((a.length + (if skipAll then k else 1) * d.length : Nat) : Int),
        if name = dot then values else values.set name (Text cfg (a.drop c))) := by
  obtain ⟨m, rfl⟩ : ∃ m, k = m + 1 := ⟨k - 1, by omega⟩
  have hline : a ++ Repeat d (m + 1) ++ rest = a ++ (d ++ (Repeat d m ++ rest)) := by
    simp [Repeat, List.append_assoc]
  have hdrop : (a ++ Repeat d (m + 1) ++ rest).drop c = a.drop c ++ (d ++ (Repeat d m ++ rest)) := by
    rw [hline, List.drop_append_of_le_length hc]
  have hidx : Index ((a ++ Repeat d (m + 1) ++ rest).drop c) d = ((a.drop c).length : Int) := by
    rw [hdrop]
    apply Index_first
    · intro j hj
      have := hfirst (c + j) (by omega) (by simp at hj; omega)
      rw [← List.drop_drop, hdrop] at this
      exact this
    · exact List.prefix_append _ _
  have hspan : DelimChunk.span ⟨name, d, skipAll⟩ (a ++ Repeat d (m + 1) ++ rest) slack (c : Int) =
      some (a.drop c, ((a.length + (if skipAll then m + 1 else 1) * d.length : Nat) : Int)) := by
    unfold DelimChunk.span
    simp only [hd, if_false]
    rw [sliceFrom_nat _ _ (by simp; omega)]
    simp only [hidx]
    rw [if_neg (by omega)]
    have e1 : (c : Int) + ((a.drop c).length : Int) = ((a.length : Nat) : Int) := by
      simp; omega
    rw [e1, slice_within _ _ _ _ hc (by simp)]
    have e2 : List.drop c (List.take a.length (a ++ Repeat d (m + 1) ++ rest)) = a.drop c := by
      rw [List.append_assoc, List.take_left]
    simp only [e2]
    have e3 : (c : Int) + ((a.drop c).length : Int) + (d.length : Int)
        = (((a ++ d).length : Nat) : Int) := by
      simp; omega
    rw [e3]
    cases skipAll with
    | false => simp
    | true =>
      simp only [if_true]
      have hrun := skipRepeats_run slack d rest hd hmax (hfit rfl) m (a ++ d)
        (a ++ Repeat d (m + 1) ++ rest).length (by
          have : 0 < d.length := List.length_pos.mpr hd
          simp [length_Repeat]
          nlinarith)
      have e4 : a ++ d ++ Repeat d m ++ rest = a ++ Repeat d (m + 1) ++ rest := by
        simp [Repeat, List.append_assoc]
      rw [e4] at hrun
      rw [hrun]
      simp
      ring
  unfold DelimChunk.Chop
  rw [hspan]
  by_cases hn : name = dot
  · simp [hn]
  · simp [hn]

theorem DecodeRune_ascii (b : Nat) (t : List Nat) (h : b < 0x80) :
    DecodeRune (b :: t) = (b, 1) := by
  simp only [DecodeRune]
  rw [if_pos h]

theorem CreateDelimChunk_empty (name : List Nat) :
    CreateDelimChunk name [] = ⟨name, [], false⟩ := by
  simp [CreateDelimChunk, HasSuffix, HasPrefix]

/-- A word that is no number is compiled as the next name: the pending name
gets the default field separator. -/
theorem parseStep_word (cfg : Config) (name w : List Nat) (hw : isWord w = true)
    (hnum : Atoi w = none) :
    parseStep cfg name w = some (.delim (CreateDelimChunk name cfg.fieldSep), w) := by
  obtain ⟨hne, _, hq1, hq2⟩ := isWord_spec w hw
  rcases w with _ | ⟨b, t⟩
  · exact absurd rfl hne
  · unfold parseStep
    rw [hnum]
    have hl : (b :: t).getLast? = some ((b :: t).getLast (by simp)) := List.getLast?_eq_getLast _ _
    simp only [List.head?_cons, hl]
    have h34 : b ≠ 34 := by
      rintro rfl
      rw [DecodeRune_ascii 34 t (by decide)] at hq1
      exact hq1 rfl
    have h39 : b ≠ 39 := by
      rintro rfl
      rw [DecodeRune_ascii 39 t (by decide)] at hq2
      exact hq2 rfl
    rw [if_neg (by simp [h34, h39])]

theorem parseLoop_nil (cfg : Config) (name : List Nat) :
    parseLoop cfg name [] = if name = [] then some [] else some [.delim (CreateDelimChunk name [])] := by
  rw [parseLoop]

theorem parseLoop_cons (cfg : Config) (name t : List Nat) (ts : List (List Nat)) (hn : name ≠ []) :
    parseLoop cfg name (t :: ts) =
      match parseStep cfg name t with
      | none => none
      | some (ch, name') =>
        match parseLoop cfg name' ts with
        | none => none
        | some chs => some (ch :: chs) := by
  rw [parseLoop.eq_def]
  simp only [hn, if_false]
  try rfl

theorem parseLoop_pending (cfg : Config) (t : List Nat) (ts : List (List Nat)) (ht : t ≠ []) :
    parseLoop cfg [] (t :: ts) = parseLoop cfg t ts := by
  cases ts with
  | nil => simp [parseLoop, ht]
  | cons next ts' =>
    rw [parseLoop_cons cfg t next ts' ht]
    rw [parseLoop.eq_def]
    simp only [if_true]
    try rfl

/-- The compiler on words that are no numbers, with a name pending. -/
theorem parseLoop_words (cfg : Config) (ws : List (List Nat)) :
    ∀ (name wn : List Nat), name ≠ [] →
      (∀ w ∈ ws, isWord w = true ∧ Atoi w = none) → isWord wn = true → Atoi wn = none →
      parseLoop cfg name (ws ++ [wn]) =
        some ((name :: ws).map (fun w => Chopper.delim (CreateDelimChunk w cfg.fieldSep)) ++
          [Chopper.delim ⟨wn, [], false⟩]) := by
  induction ws with
  | nil =>
    intro name wn hn _ hwn hnum
    have hwne := (isWord_spec wn hwn).1
    simp only [List.nil_append, List.map_cons, List.map_nil, List.cons_append]
    rw [parseLoop_cons cfg name wn [] hn, parseStep_word cfg name wn hwn hnum]
    simp only
    rw [parseLoop_nil, if_neg hwne, CreateDelimChunk_empty]
  | cons w ws ih =>
    intro name wn hn hall hwn hnum
    obtain ⟨hw, hwnum⟩ := hall w (List.mem_cons_self _ _)
    have hwne := (isWord_spec w hw).1
    simp only [List.cons_append, List.map_cons]
    rw [parseLoop_cons cfg name w _ hn, parseStep_word cfg name w hw hwnum]
    simp only
    rw [ih w wn hwne (fun x hx => hall x (List.mem_cons_of_mem _ hx)) hwn hnum]
    simp

/-- The result of `Parse` on an expression made of words that are no numbers. -/
theorem Parse_words (cfg : Config) (init : List (List Nat × List Nat)) (pre wn post : List Nat)
    (hpre : SpaceRun pre) (hpost : SpaceRun post) (hwn : isWord wn = true)
    (hnum : Atoi wn = none)
    (hall : ∀ p ∈ init, (isWord p.1 = true ∧ Atoi p.1 = none) ∧ SpaceRun p.2 ∧ p.2 ≠ [])
    (hfit : ∀ p ∈ init, p.1.length + (DecodeRune p.2).2 ≤ MaxScanTokenSize)
    (hl1 : wn.length < MaxScanTokenSize)
    (hl2 : wn.length + (DecodeRune post).2 ≤ MaxScanTokenSize) :
    Parse cfg (pre ++ joinWords init ++ wn ++ post) =
      some (init.map (fun p => Chopper.delim (CreateDelimChunk p.1 cfg.fieldSep)) ++
        [Chopper.delim ⟨wn, [], false⟩]) := by
  unfold Parse
  rw [tokens_words init pre wn post hpre hpost hwn
    (fun p hp => ⟨(hall p hp).1.1, (hall p hp).2⟩) hfit hl1 hl2]
  cases init with
  | nil =>
    simp only [List.map_nil, List.nil_append]
    rw [parseLoop_pending cfg wn [] (isWord_spec wn hwn).1, parseLoop_nil,
      if_neg (isWord_spec wn hwn).1, CreateDelimChunk_empty]
  | cons p r =>
    have hp := hall p (List.mem_cons_self _ _)
    simp only [List.map_cons, List.cons_append]
    rw [parseLoop_pending cfg p.1 _ (isWord_spec p.1 hp.1.1).1]
    rw [parseLoop_words cfg (r.map (fun p => p.1)) p.1 wn (isWord_spec p.1 hp.1.1).1 ?_ hwn hnum]
    · simp [List.map_map, Function.comp]
    · intro w hw
      obtain ⟨q, hq, rfl⟩ := List.mem_map.mp hw
      exact (hall q (List.mem_cons_of_mem _ hq)).1


theorem digitsValue_digits (ds : List Nat) :
    ∀ (acc n : Nat), digitsValue ds acc = some n → ∀ b ∈ ds, 48 ≤ b ∧ b ≤ 57 := by
  induction ds with
  | nil => intro _ _ _ b hb; simp at hb
  | cons c t ih =>
    intro acc n h b hb
    rw [digitsValue] at h
    split_ifs at h with hc
    rcases List.mem_cons.mp hb with rfl | hb'
    · exact hc
    · exact ih _ n h b hb'

theorem Atoi_some (c : Nat) (t : List Nat) (v : Int) (h : Atoi (c :: t) = some v) :
    ∃ n, digitsValue (if c = 45 ∨ c = 43 then t else c :: t) 0 = some n := by
  simp only [Atoi] at h
  by_cases hds : (if c = 45 ∨ c = 43 then t else c :: t) = []
  · rw [if_pos hds] at h
    simp at h
  · rw [if_neg hds] at h
    cases hd : digitsValue (if c = 45 ∨ c = 43 then t else c :: t) 0 with
    | none => rw [hd] at h; simp at h
    | some n => exact ⟨n, rfl⟩

theorem Atoi_bytes (t : List Nat) (v : Int) (h : Atoi t = some v) :
    t ≠ [] ∧ ∀ b ∈ t, (48 ≤ b ∧ b ≤ 57) ∨ b = 43 ∨ b = 45 := by
  rcases t with _ | ⟨c, t⟩
  · simp [Atoi] at h
  · refine ⟨by simp, ?_⟩
    obtain ⟨n, hd⟩ := Atoi_some c t v h
    have hdig := digitsValue_digits _ 0 n hd
    intro b hb
    by_cases hc : c = 45 ∨ c = 43
    · rw [if_pos hc] at hdig
      rcases List.mem_cons.mp hb with rfl | hb'
      · right; omega
      · left; exact hdig b hb'
    · rw [if_neg hc] at hdig
      left; exact hdig b hb

theorem noSpace_ascii (t : List Nat) (h : ∀ b ∈ t, b < 0x80 ∧ IsSpace b = false) :
    noSpace t = true := by
  induction t with
  | nil => rfl
  | cons b t ih =>
    have hb := h b (List.mem_cons_self _ _)
    rw [noSpace, DecodeRune_ascii b t hb.1, ih (fun x hx => h x (List.mem_cons_of_mem _ hx))]
    simp [hb.2]

theorem IsSpace_numeral_byte (b : Nat) (h : (48 ≤ b ∧ b ≤ 57) ∨ b = 43 ∨ b = 45) :
    IsSpace b = false := by
  unfold IsSpace
  simp only [Bool.or_eq_false_iff, Bool.and_eq_false_iff, decide_eq_false_iff_not]
  omega

/-- A token that `strconv.Atoi` accepts is a word. -/
theorem isWord_of_Atoi (t : List Nat) (v : Int) (h : Atoi t = some v) : isWord t = true := by
  obtain ⟨hne, hb⟩ := Atoi_bytes t v h
  have hns : noSpace t = true :=
    noSpace_ascii t (fun b hbm => ⟨by have := hb b hbm; omega, IsSpace_numeral_byte b (hb b hbm)⟩)
  rcases t with _ | ⟨c, t⟩
  · exact absurd rfl hne
  · have hc := hb c (List.mem_cons_self _ _)
    simp only [isWord, hns, DecodeRune_ascii c t (by omega)]
    simp
    omega

/-- The numeric branch of the loop of `Parse`. -/
theorem parseStep_num (cfg : Config) (name t : List Nat) (v : Int) (h : Atoi t = some v) :
    parseStep cfg name t =
      some (if t.head? = some 43 ∨ t.head? = some 45 then Chopper.rel ⟨name, v⟩
        else Chopper.abs ⟨name, v⟩, []) := by
  obtain ⟨hne, _⟩ := Atoi_bytes t v h
  rcases t with _ | ⟨c, t⟩
  · exact absurd rfl hne
  · unfold parseStep
    rw [h]
    simp only [List.head?_cons, Option.some.injEq]
    split_ifs <;> rfl

/-- The result of `Parse` on a name followed by a numeric terminator. -/
theorem Parse_name_num (cfg : Config) (pre n s t post : List Nat) (v : Int)
    (hpre : SpaceRun pre) (hs : SpaceRun s) (hsne : s ≠ []) (hpost : SpaceRun post)
    (hn : isWord n = true) (ht : Atoi t = some v)
    (hln : n.length + (DecodeRune s).2 ≤ MaxScanTokenSize)
    (hl1 : t.length < MaxScanTokenSize)
    (hl2 : t.length + (DecodeRune post).2 ≤ MaxScanTokenSize) :
    Parse cfg (pre ++ n ++ s ++ t ++ post) =
      some [if t.head? = some 43 ∨ t.head? = some 45 then Chopper.rel ⟨n, v⟩
        else Chopper.abs ⟨n, v⟩] := by
  have htok := tokens_words [(n, s)] pre t post hpre hpost (isWord_of_Atoi t v ht)
    (by
      intro p hp
      simp only [List.mem_singleton] at hp
      subst hp
      exact ⟨hn, hs, hsne⟩)
    (by
      intro p hp
      simp only [List.mem_singleton] at hp
      subst hp
      exact hln) hl1 hl2
  have e1 : pre ++ joinWords [(n, s)] ++ t ++ post = pre ++ n ++ s ++ t ++ post := by
    simp [joinWords, List.append_assoc]
  rw [e1] at htok
  unfold Parse
  rw [htok]
  simp only [List.map_cons, List.map_nil, List.cons_append, List.nil_append]
  rw [parseLoop_pending cfg n [t] (isWord_spec n hn).1,
    parseLoop_cons cfg n t [] (isWord_spec n hn).1, parseStep_num cfg n t v ht]
  simp only
  rw [parseLoop_nil, if_pos rfl]

theorem Atoi_digits (t : List Nat) (N : Nat) (hne : t ≠ []) (hd : digitsValue t 0 = some N)
    (hN : N < 2 ^ 63) : Atoi t = some (N : Int) ∧ t.head? ≠ some 43 ∧ t.head? ≠ some 45 := by
  have hdig := digitsValue_digits t 0 N hd
  rcases t with _ | ⟨c, t⟩
  · exact absurd rfl hne
  · have hc := hdig c (List.mem_cons_self _ _)
    have h45 : c ≠ 45 := by omega
    have h43 : c ≠ 43 := by omega
    refine ⟨?_, ?_, ?_⟩
    · have hcond : ¬(c = 45 ∨ c = 43) := by omega
      simp only [Atoi, h45, h43, or_self, if_false, hd, decide_False, Bool.false_eq_true]
      rw [if_neg (by simp), if_pos hN]
    · intro h
      simp only [List.head?_cons, Option.some.injEq] at h
      exact h43 h
    · intro h
      simp only [List.head?_cons, Option.some.injEq] at h
      exact h45 h

theorem spaceRun_single : SpaceRun [32] :=
  SpaceRun.cons [32] [] (by decide) SpaceRun.nil


theorem trimLeftByte_of_not_mem (s : List Nat) (c : Nat) (h : c ∉ s) : trimLeftByte s c = s := by
  cases s with
  | nil => rfl
  | cons b t =>
    rw [trimLeftByte, if_neg]
    rintro rfl
    exact h (List.mem_cons_self _ _)

theorem Text_of_no_space (cfg : Config) (s : List Nat) (h : 32 ∉ s) : Text cfg s = s := by
  unfold Text Trim trimRightByte
  cases cfg.noTrim with
  | true => simp
  | false =>
    simp only [Bool.not_false, if_true]
    rw [trimLeftByte_of_not_mem s.reverse 32 (by simpa using h), List.reverse_reverse,
      trimLeftByte_of_not_mem s 32 h]

theorem Repeat_single (b k : Nat) : Repeat [b] k = List.replicate k b := by
  induction k with
  | zero => rfl
  | succ k ih => simp [Repeat, ih, List.replicate_succ]

theorem not_prefix_of_not_mem (b : Nat) (s : List Nat) (h : b ∉ s) : ¬ [b] <+: s := by
  rintro ⟨t, ht⟩
  apply h
  rw [← ht]
  simp

/-- A line of two fields separated by spaces, chopped by a chopper for the
delimiter `" "` with skip-all and a chopper that takes the rest. -/
theorem chopLine_two_fields (cfg : Config) (a b u v slack : List Nat) (k : Nat)
    (ha : a ≠ dot) (hb : b ≠ dot) (hk : 1 ≤ k) (hu : 32 ∉ u) (hv : 32 ∉ v) :
    chopLine cfg (u ++ List.replicate k 32 ++ v) slack
        [.delim ⟨a, [32], true⟩, .delim ⟨b, [], false⟩] 0 Values.empty =
      (some (((u ++ List.replicate k 32 ++ v).length : Nat) : Int),
        (Values.empty.set a u).set b v) := by
  have h1 := delimChop_run cfg a [32] u v slack true k 0 Values.empty (by simp) (Nat.zero_le _) hk
    (by
      intro i _ hi
      rw [List.append_assoc, List.drop_append_of_le_length (le_of_lt hi)]
      have hne : u.drop i ≠ [] := by
        intro h
        have := congrArg List.length h
        simp at this
        omega
      rcases hd : u.drop i with _ | ⟨x, t⟩
      · exact absurd hd hne
      · have hx : x ∈ u := List.mem_of_mem_drop (by rw [hd]; exact List.mem_cons_self _ _)
        rintro ⟨t', ht'⟩
        simp only [List.cons_append, List.singleton_append, List.cons.injEq] at ht'
        exact hu (ht'.1 ▸ hx))
    (not_prefix_of_not_mem 32 v hv)
    (by
      intro _
      cases v with
      | nil => left; rfl
      | cons x t => right; simp)
  rw [Repeat_single] at h1
  simp only [Nat.cast_zero, List.drop_zero, if_true, List.length_singleton, mul_one, ha,
    if_false, Text_of_no_space cfg u hu] at h1
  simp only [chopLine, Chopper.Chop]
  rw [h1]
  simp only
  have hspan : DelimChunk.span ⟨b, [], false⟩ (u ++ List.replicate k 32 ++ v) slack
      ((u.length + k : Nat) : Int) =
      some (v, (((u ++ List.replicate k 32 ++ v).length : Nat) : Int)) := by
    unfold DelimChunk.span
    simp only [if_true]
    rw [sliceFrom_nat _ _ (by simp)]
    have : List.drop (u.length + k) (u ++ List.replicate k 32 ++ v) = v := by
      have e : u.length + k = (u ++ List.replicate k 32).length := by simp
      rw [e, List.drop_left]
    rw [this]
    simp only [Option.some.injEq, Prod.mk.injEq, true_and]
    push_cast
    simp only [List.length_append, List.length_replicate]
    push_cast
    ring
  simp only [DelimChunk.Chop, hspan, ne_eq, hb, not_false_eq_true, if_true,
    Text_of_no_space cfg v hv]


/-! ## The fuel of the loops is enough -/

/-- The first loop of `ScanText` never uses up its fuel: any two amounts of at
least `len(data) - start` give the same result. -/
theorem skipSpaces_fuel (data : List Nat) (fuel₁ : Nat) :
    ∀ (fuel₂ start r : Nat), data.length - start ≤ fuel₁ → data.length - start ≤ fuel₂ →
      skipSpaces data fuel₁ start r = skipSpaces data fuel₂ start r := by
  induction fuel₁ with
  | zero =>
    intro fuel₂ start r h1 _
    cases fuel₂ with
    | zero => rfl
    | succ f₂ =>
      rw [skipSpaces, skipSpaces, if_neg (by omega)]
  | succ f₁ ih =>
    intro fuel₂ start r h1 h2
    cases fuel₂ with
    | zero =>
      rw [skipSpaces, skipSpaces, if_neg (by omega)]
    | succ f₂ =>
      rw [skipSpaces, skipSpaces]
      by_cases hlt : start < data.length
      · rw [if_pos hlt, if_pos hlt]
        have hw := DecodeRune_width (data.drop start) (by
          intro h
          have := congrArg List.length h
          simp at this
          omega)
        simp only
        split_ifs
        · rfl
        · exact ih f₂ _ _ (by omega) (by omega)
      · rw [if_neg hlt, if_neg hlt]

/-- The second loop of `ScanText` never uses up its fuel. -/
theorem scanWord_fuel (data : List Nat) (quoteChar quoteStart start : Nat) (fuel₁ : Nat) :
    ∀ (fuel₂ i : Nat), data.length - i ≤ fuel₁ → data.length - i ≤ fuel₂ →
      scanWord data quoteChar quoteStart start fuel₁ i =
        scanWord data quoteChar quoteStart start fuel₂ i := by
  induction fuel₁ with
  | zero =>
    intro fuel₂ i h1 _
    cases fuel₂ with
    | zero => rfl
    | succ f₂ =>
      rw [scanWord, scanWord, if_neg (by omega)]
  | succ f₁ ih =>
    intro fuel₂ i h1 h2
    cases fuel₂ with
    | zero =>
      rw [scanWord, scanWord, if_neg (by omega)]
    | succ f₂ =>
      rw [scanWord, scanWord]
      by_cases hlt : i < data.length
      · rw [if_pos hlt, if_pos hlt]
        have hw := DecodeRune_width (data.drop i) (by
          intro h
          have := congrArg List.length h
          simp at this
          omega)
        simp only
        split_ifs
        · rfl
        · rfl
        · exact ih f₂ _ (by omega) (by omega)
      · rw [if_neg hlt, if_neg hlt]

/-- The skip loop of `DelimChunk.Chop` never uses up its fuel. -/
theorem skipRepeats_fuel (input slack delim : List Nat) (hd : delim ≠ []) (fuel₁ : Nat) :
    ∀ (fuel₂ : Nat) (e : Int), (input.length : Int) - e ≤ fuel₁ →
      (input.length : Int) - e ≤ fuel₂ →
      skipRepeats input slack delim fuel₁ e = skipRepeats input slack delim fuel₂ e := by
  have hdl : 0 < delim.length := List.length_pos.mpr hd
  induction fuel₁ with
  | zero =>
    intro fuel₂ e h1 _
    cases fuel₂ with
    | zero => rfl
    | succ f₂ =>
      rw [skipRepeats, skipRepeats, if_neg (by push_cast at h1; omega)]
  | succ f₁ ih =>
    intro fuel₂ e h1 h2
    cases fuel₂ with
    | zero =>
      rw [skipRepeats, skipRepeats, if_neg (by push_cast at h2; omega)]
    | succ f₂ =>
      rw [skipRepeats, skipRepeats]
      by_cases hlt : e < (input.length : Int)
      · rw [if_pos hlt, if_pos hlt]
        cases slice input slack e (e + (delim.length : Int)) with
        | none => rfl
        | some s =>
          simp only
          split_ifs
          · exact ih f₂ _ (by push_cast at h1 ⊢; omega) (by push_cast at h2 ⊢; omega)
          · rfl
      · rw [if_neg hlt, if_neg hlt]

theorem scanWord_adv (data : List Nat) (quoteChar quoteStart start : Nat) (fuel : Nat) :
    ∀ (i : Nat) (res : Nat × List Nat),
      scanWord data quoteChar quoteStart start fuel i = some res →
      1 ≤ res.1 ∧ (quoteChar = 0 → res.1 ≤ data.length) := by
  induction fuel with
  | zero => intro i res h; simp [scanWord] at h
  | succ f ih =>
    intro i res h
    rw [scanWord] at h
    by_cases hlt : i < data.length
    · rw [if_pos hlt] at h
      have hw := DecodeRune_width (data.drop i) (by
        intro h
        have := congrArg List.length h
        simp at this
        omega)
      simp only [List.length_drop] at hw
      simp only at h
      split_ifs at h with h1 h2
      · simp only [Option.some.injEq] at h
        subst h
        exact ⟨by simp, fun hq => by omega⟩
      · simp only [Option.some.injEq] at h
        subst h
        exact ⟨by simp; omega, fun _ => by simp; omega⟩
      · exact ih _ res h
    · rw [if_neg hlt] at h
      simp at h

/-- The shape of `ScanText`: the second loop started at some `start`, then the
two ways out. -/
theorem ScanText_shape (data : List Nat) (atEOF : Bool) :
    ∃ qc qs st, ScanText data atEOF =
      match scanWord data qc qs st data.length st with
      | some res => (res.1, some res.2)
      | none =>
        if atEOF = true ∧ data.length > st then (data.length, some (data.drop st))
        else (st, none) :=
  ⟨_, _, _, rfl⟩

/-- A token returned by `ScanText` comes with an advance of at least 1. -/
theorem ScanText_adv (data : List Nat) (atEOF : Bool) (tok : List Nat)
    (h : (ScanText data atEOF).2 = some tok) : 1 ≤ (ScanText data atEOF).1 := by
  obtain ⟨qc, qs, st, heq⟩ := ScanText_shape data atEOF
  rw [heq] at h ⊢
  cases hres : scanWord data qc qs st data.length st with
  | some res =>
    exact (scanWord_adv _ _ _ _ _ _ res hres).1
  | none =>
    rw [hres] at h
    simp only at h ⊢
    by_cases hc : atEOF = true ∧ data.length > st
    · rw [if_pos hc]
      show 1 ≤ data.length
      omega
    · rw [if_neg hc] at h
      exact absurd h (by intro h'; cases h')

theorem splitAdvance_length (buf : List Nat) (atEOF : Bool) (tok : Option (List Nat))
    (buf' : List Nat) (h : splitAdvance buf atEOF = some (tok, buf')) :
    buf'.length ≤ buf.length ∧ (tok ≠ none → buf'.length < buf.length) := by
  unfold splitAdvance at h
  simp only at h
  split_ifs at h with hc
  simp only [Option.some.injEq, Prod.mk.injEq] at h
  obtain ⟨h1, h2⟩ := h
  subst h2
  refine ⟨by simp, ?_⟩
  intro hne
  obtain ⟨t, ht⟩ := Option.ne_none_iff_exists'.mp hne
  have := ScanText_adv buf atEOF t (by rw [h1, ht])
  simp only [List.length_drop]
  omega

theorem scanBuffered_second (buf : List Nat) (tok buf' : List Nat) (eof' : Bool)
    (h : (match splitAdvance buf true with
      | some (some tok, buf') => some (tok, buf', true)
      | _ => none) = some (tok, buf', eof')) : buf'.length < buf.length := by
  cases h2 : splitAdvance buf true with
  | none => rw [h2] at h; simp at h
  | some r2 =>
    obtain ⟨t2, b2⟩ := r2
    rw [h2] at h
    cases t2 with
    | none => simp at h
    | some tk2 =>
      simp only [Option.some.injEq, Prod.mk.injEq] at h
      have := (splitAdvance_length buf true (some tk2) b2 h2).2 (by simp)
      rw [← h.2.1]
      exact this

/-- Every successful `scanBuffered` consumes at least one byte. -/
theorem scanBuffered_progress (buf : List Nat) (eof : Bool) (tok buf' : List Nat) (eof' : Bool)
    (h : scanBuffered buf eof = some (tok, buf', eof')) : buf'.length < buf.length := by
  unfold scanBuffered at h
  by_cases hc : buf ≠ [] ∨ eof = true
  · rw [if_pos hc] at h
    cases h1 : splitAdvance buf eof with
    | none => rw [h1] at h; simp at h
    | some r =>
      obtain ⟨t, b1⟩ := r
      rw [h1] at h
      cases t with
      | some tk =>
        simp only [Option.some.injEq, Prod.mk.injEq] at h
        have := (splitAdvance_length buf eof (some tk) b1 h1).2 (by simp)
        rw [← h.2.1]
        exact this
      | none =>
        simp only at h
        have hb1 := (splitAdvance_length buf eof none b1 h1).1
        cases eof with
        | true => simp at h
        | false =>
          simp only [Bool.false_eq_true, if_false] at h
          have := scanBuffered_second b1 tok buf' eof' h
          omega
  · rw [if_neg hc] at h
    exact scanBuffered_second buf tok buf' eof' h

/-- The token loop never uses up its fuel: any two amounts of at least the
number of unread bytes give the same tokens. -/
theorem scanTokensBuffered_fuel (fuel₁ : Nat) :
    ∀ (fuel₂ : Nat) (buf : List Nat) (eof : Bool), buf.length ≤ fuel₁ → buf.length ≤ fuel₂ →
      scanTokensBuffered fuel₁ buf eof = scanTokensBuffered fuel₂ buf eof := by
  have hnil : ∀ (eof : Bool), scanBuffered [] eof = none := fun eof => scanBuffered_space [] SpaceRun.nil eof
  induction fuel₁ with
  | zero =>
    intro fuel₂ buf eof h1 _
    have : buf = [] := List.length_eq_zero.mp (by omega)
    subst this
    cases fuel₂ with
    | zero => rfl
    | succ f₂ => rw [scanTokensBuffered, scanTokensBuffered, hnil]
  | succ f₁ ih =>
    intro fuel₂ buf eof h1 h2
    cases fuel₂ with
    | zero =>
      have : buf = [] := List.length_eq_zero.mp (by omega)
      subst this
      rw [scanTokensBuffered, scanTokensBuffered, hnil]
    | succ f₂ =>
      rw [scanTokensBuffered, scanTokensBuffered]
      cases hs : scanBuffered buf eof with
      | none => rfl
      | some r =>
        obtain ⟨tok, buf', eof'⟩ := r
        have := scanBuffered_progress buf eof tok buf' eof' hs
        simp only
        rw [ih f₂ buf' eof' (by omega) (by omega)]


/-! ## Runes below `0x80` -/

theorem or_lt_two_pow_left (x y n : Nat) (h : x ||| y < 2 ^ n) : x < 2 ^ n := by
  apply Nat.lt_pow_two_of_testBit
  intro i hi
  have h1 : x ||| y < 2 ^ i := lt_of_lt_of_le h (Nat.pow_le_pow_right (by decide) hi)
  have h2 := Nat.testBit_lt_two_pow h1
  rw [Nat.testBit_or] at h2
  cases hx : x.testBit i
  · rfl
  · rw [hx] at h2; simp at h2

theorem or_lt_two_pow_right (x y n : Nat) (h : x ||| y < 2 ^ n) : y < 2 ^ n := by
  rw [Nat.lor_comm] at h
  exact or_lt_two_pow_left y x n h

theorem rune2_ge (p0 b1 : Nat) (h1 : 0xC2 ≤ p0) (h2 : p0 < 0xE0) : 128 ≤ rune2 p0 b1 := by
  by_contra hc
  have hlt : rune2 p0 b1 < 2 ^ 7 := by omega
  unfold rune2 at hlt
  have hA := or_lt_two_pow_left _ _ _ hlt
  have e : p0 &&& 0x1F = p0 % 2 ^ 5 := Nat.and_pow_two_sub_one_eq_mod p0 5
  rw [e, Nat.shiftLeft_eq] at hA
  omega

theorem rune3_ge (p0 b1 b2 : Nat) (h1 : 0xE0 ≤ p0) (h2 : p0 < 0xF0)
    (h3 : acceptLo p0 ≤ b1) (h4 : b1 ≤ acceptHi p0) : 128 ≤ rune3 p0 b1 b2 := by
  by_contra hc
  have hlt : rune3 p0 b1 b2 < 2 ^ 7 := by omega
  unfold rune3 at hlt
  have hAB := or_lt_two_pow_left _ _ _ hlt
  have hA := or_lt_two_pow_left _ _ _ hAB
  have hB := or_lt_two_pow_right _ _ _ hAB
  have e : p0 &&& 0x0F = p0 % 2 ^ 4 := Nat.and_pow_two_sub_one_eq_mod p0 4
  have e' : b1 &&& 0x3F = b1 % 2 ^ 6 := Nat.and_pow_two_sub_one_eq_mod b1 6
  rw [e, Nat.shiftLeft_eq] at hA
  rw [e', Nat.shiftLeft_eq] at hB
  have hp : p0 = 0xE0 := by omega
  subst hp
  simp only [acceptLo, acceptHi] at h3 h4
  norm_num at h3 h4
  omega

theorem rune4_ge (p0 b1 b2 b3 : Nat) (h1 : 0xF0 ≤ p0) (h2 : p0 ≤ 0xF4)
    (h3 : acceptLo p0 ≤ b1) (h4 : b1 ≤ acceptHi p0) : 128 ≤ rune4 p0 b1 b2 b3 := by
  by_contra hc
  have hlt : rune4 p0 b1 b2 b3 < 2 ^ 7 := by omega
  unfold rune4 at hlt
  have hABC := or_lt_two_pow_left _ _ _ hlt
  have hAB := or_lt_two_pow_left _ _ _ hABC
  have hA := or_lt_two_pow_left _ _ _ hAB
  have hB := or_lt_two_pow_right _ _ _ hAB
  have e : p0 &&& 0x07 = p0 % 2 ^ 3 := Nat.and_pow_two_sub_one_eq_mod p0 3
  have e' : b1 &&& 0x3F = b1 % 2 ^ 6 := Nat.and_pow_two_sub_one_eq_mod b1 6
  rw [e, Nat.shiftLeft_eq] at hA
  rw [e', Nat.shiftLeft_eq] at hB
  have hp : p0 = 0xF0 := by omega
  subst hp
  simp only [acceptLo, acceptHi] at h3 h4
  norm_num at h3 h4
  omega

/-- An ASCII rune is decoded from an ASCII byte only: when the rune that
`DecodeRune` returns is below `0x80`, it is the first byte. -/
theorem DecodeRune_ascii_inv (b : Nat) (t : List Nat) (h : (DecodeRune (b :: t)).1 < 128) :
    b < 128 ∧ DecodeRune (b :: t) = (b, 1) := by
  by_cases hb : b < 0x80
  · exact ⟨hb, DecodeRune_ascii b t hb⟩
  · exfalso
    simp only [DecodeRune] at h
    rw [if_neg hb] at h
    by_cases h1 : b < 0xC2
    · rw [if_pos h1] at h
      exact absurd h (by decide)
    · rw [if_neg h1] at h
      by_cases h2 : b < 0xE0
      · rw [if_pos h2] at h
        rcases t with _ | ⟨b1, t⟩
        · exact absurd (show RuneError < 128 from h) (by decide)
        · simp only [decode2] at h
          by_cases hc : 0x80 ≤ b1 ∧ b1 ≤ 0xBF
          · rw [if_pos hc] at h
            have := rune2_ge b b1 (by omega) h2
            simp only at h
            omega
          · rw [if_neg hc] at h
            exact absurd h (by decide)
      · rw [if_neg h2] at h
        by_cases h3 : b < 0xF0
        · rw [if_pos h3] at h
          rcases t with _ | ⟨b1, _ | ⟨b2, t⟩⟩
          · exact absurd (show RuneError < 128 from h) (by decide)
          · exact absurd (show RuneError < 128 from h) (by decide)
          · simp only [decode3] at h
            by_cases hc : acceptLo b ≤ b1 ∧ b1 ≤ acceptHi b
            · rw [if_pos hc] at h
              by_cases hc2 : 0x80 ≤ b2 ∧ b2 ≤ 0xBF
              · rw [if_pos hc2] at h
                have := rune3_ge b b1 b2 (by omega) h3 hc.1 hc.2
                simp only at h
                omega
              · rw [if_neg hc2] at h
                exact absurd h (by decide)
            · rw [if_neg hc] at h
              exact absurd h (by decide)
        · rw [if_neg h3] at h
          by_cases h4 : b ≤ 0xF4
          · rw [if_pos h4] at h
            rcases t with _ | ⟨b1, _ | ⟨b2, _ | ⟨b3, t⟩⟩⟩
            · exact absurd (show RuneError < 128 from h) (by decide)
            · exact absurd (show RuneError < 128 from h) (by decide)
            · exact absurd (show RuneError < 128 from h) (by decide)
            · simp only [decode4] at h
              by_cases hc : acceptLo b ≤ b1 ∧ b1 ≤ acceptHi b
              · rw [if_pos hc] at h
                by_cases hc2 : 0x80 ≤ b2 ∧ b2 ≤ 0xBF
                · rw [if_pos hc2] at h
                  by_cases hc3 : 0x80 ≤ b3 ∧ b3 ≤ 0xBF
                  · rw [if_pos hc3] at h
                    have := rune4_ge b b1 b2 b3 (by omega) h4 hc.1 hc.2
                    simp only at h
                    omega
                  · rw [if_neg hc3] at h
                    exact absurd h (by decide)
                · rw [if_neg hc2] at h
                  exact absurd h (by decide)
              · rw [if_neg hc] at h
                exact absurd h (by decide)
          · rw [if_neg h4] at h
            exact absurd h (by decide)

/-! ## The tokenizer on quoted tokens -/

theorem ScanText_of_quote (data : List Nat) (atEOF : Bool) (st r : Nat)
    (h : skipSpaces data data.length 0 0 = (st, r)) (hr : r = 39 ∨ r = 34) :
    ScanText data atEOF =
      match scanWord data r st (st + 1) data.length (st + 1) with
      | some res => (res.1, some res.2)
      | none =>
        if atEOF = true ∧ data.length > st + 1 then (data.length, some (data.drop (st + 1)))
        else (st + 1, none) := by
  have hq : (decide (r = 39) || decide (r = 34)) = true := by
    rcases hr with h1 | h1 <;> simp [h1]
  unfold ScanText
  simp only [h, hq, if_true]
  try rfl

theorem skip_before_quote (pre tail : List Nat) (q : Nat) (hpre : SpaceRun pre)
    (hq : q = 39 ∨ q = 34) :
    skipSpaces (pre ++ q :: tail) (pre ++ q :: tail).length 0 0 = (pre.length, q) := by
  have hql : q < 0x80 := by rcases hq with h | h <;> omega
  have hdec : DecodeRune (q :: tail) = (q, 1) := DecodeRune_ascii q tail hql
  have hns : IsSpace q = false := by rcases hq with h | h <;> subst h <;> decide
  obtain ⟨r, h1, h2, _⟩ := skipSpaces_run pre hpre (q :: tail)
    (fun _ => by rw [hdec]; exact hns) [] (pre ++ q :: tail).length 0 (by simp) (by decide)
  have hr := h2 (by simp)
  rw [hdec] at hr
  simp only [List.nil_append, List.length_nil, Nat.zero_add] at h1
  rw [h1, hr]

/-- The second loop of `ScanText` in quote mode, inside a body that does not
contain the quote byte: it walks to the end of the body. -/
theorem scanQuote_walk (D body Y : List Nat) (q qs st : Nat) (hq0 : 0 < q) (hq : q < 128)
    (hbody : q ∉ body) (hY : ∀ b, Y.head? = some b → b < 0x80 ∨ 0xBF < b) (n : Nat) :
    ∀ (j fuel : Nat), j ≤ body.length → body.length - j ≤ n → body.length - j ≤ fuel →
      ∃ fuel', fuel - (body.length - j) ≤ fuel' ∧
        scanWord (D ++ body ++ Y) q qs st fuel (D.length + j) =
          scanWord (D ++ body ++ Y) q qs st fuel' (D.length + body.length) := by
  induction n with
  | zero =>
    intro j fuel hj hn _
    have : j = body.length := by omega
    subst this
    exact ⟨fuel, by omega, rfl⟩
  | succ n ih =>
    intro j fuel hj hn hf
    by_cases hjw : j = body.length
    · subst hjw
      exact ⟨fuel, by omega, rfl⟩
    · have hjlt : j < body.length := by omega
      cases fuel with
      | zero => omega
      | succ f =>
        rw [scanWord]
        have hlt : D.length + j < (D ++ body ++ Y).length := by
          simp only [List.length_append]; omega
        rw [if_pos hlt]
        have hd : List.drop (D.length + j) (D ++ body ++ Y) = body.drop j ++ Y := by
          rw [List.append_assoc, List.drop_append_eq_append_drop]
          simp [List.drop_append_of_le_length (le_of_lt hjlt)]
        have hne : body.drop j ≠ [] := by
          intro h
          have := congrArg List.length h
          simp at this
          omega
        have hdec : DecodeRune (body.drop j ++ Y) = DecodeRune (body.drop j) :=
          DecodeRune_append _ _ hne hY
        have hwd := DecodeRune_width _ hne
        simp only [List.length_drop] at hwd
        have hnq : (DecodeRune (body.drop j)).1 ≠ q := by
          intro heq
          rcases hb : body.drop j with _ | ⟨b, t⟩
          · exact hne hb
          · rw [hb] at heq
            have := DecodeRune_ascii_inv b t (by rw [heq]; exact hq)
            rw [this.2] at heq
            simp only at heq
            apply hbody
            rw [← heq]
            exact List.mem_of_mem_drop (by rw [hb]; exact List.mem_cons_self _ _)
        simp only [hd, hdec]
        rw [if_neg (by intro hc; exact hnq hc.2), if_neg (by intro hc; omega)]
        have := ih (j + (DecodeRune (body.drop j)).2) f (by omega) (by omega) (by omega)
        rw [← Nat.add_assoc] at this
        obtain ⟨fuel', h1, h2⟩ := this
        exact ⟨fuel', by omega, h2⟩

theorem scanQuote_closed (P body rest : List Nat) (q : Nat) (hq : q = 39 ∨ q = 34)
    (hbody : q ∉ body) (fuel : Nat) (hf : body.length + 1 ≤ fuel) :
    scanWord (P ++ q :: body ++ q :: rest) q P.length (P.length + 1) fuel (P.length + 1) =
      some (P.length + body.length + 3, q :: body ++ [q]) := by
  have hq0 : 0 < q := by rcases hq with h | h <;> omega
  have hql : q < 128 := by rcases hq with h | h <;> omega
  have hwalk := scanQuote_walk (P ++ [q]) body (q :: rest) q P.length (P.length + 1) hq0 hql
    hbody (by intro b hb; simp at hb; omega) body.length 0 fuel (Nat.zero_le _) (by omega)
    (by omega)
  have e1 : P ++ [q] ++ body ++ q :: rest = P ++ q :: body ++ q :: rest := by
    simp [List.append_assoc]
  simp only [Nat.add_zero, Nat.sub_zero, e1, List.length_append, List.length_singleton] at hwalk
  obtain ⟨fuel', h1, h⟩ := hwalk
  rw [h]
  obtain ⟨f, hf'⟩ : ∃ f, fuel' = f + 1 := ⟨fuel' - 1, by omega⟩
  rw [hf', scanWord]
  have hlt : P.length + 1 + body.length < (P ++ q :: body ++ q :: rest).length := by
    simp only [List.length_append, List.length_cons]; omega
  rw [if_pos hlt]
  have hd : List.drop (P.length + 1 + body.length) (P ++ q :: body ++ q :: rest) = q :: rest := by
    have e2 : P.length + 1 + body.length = (P ++ q :: body).length := by
      simp only [List.length_append, List.length_cons]; omega
    have e3 : P ++ q :: body ++ q :: rest = (P ++ q :: body) ++ q :: rest := by
      simp [List.append_assoc]
    rw [e2, e3, List.drop_left]
  simp only [hd, DecodeRune_ascii q rest hql]
  rw [if_pos (by simp [hq0])]
  have ht : List.drop P.length (List.take (P.length + 1 + body.length + 1)
      (P ++ q :: body ++ q :: rest)) = q :: body ++ [q] := by
    have e3 : P ++ q :: body ++ q :: rest = P ++ (q :: body ++ [q]) ++ rest := by
      simp [List.append_assoc]
    have e4 : P.length + 1 + body.length + 1 = P.length + (q :: body ++ [q]).length := by
      simp only [List.length_append, List.length_cons, List.length_singleton, List.length_nil]
      omega
    rw [e3, e4]
    exact take_drop_mid P (q :: body ++ [q]) rest
  rw [ht]
  congr 2
  omega

theorem scanQuote_open (P body : List Nat) (q : Nat) (hq : q = 39 ∨ q = 34)
    (hbody : q ∉ body) (fuel : Nat) (hf : body.length ≤ fuel) :
    scanWord (P ++ q :: body) q P.length (P.length + 1) fuel (P.length + 1) = none := by
  have hq0 : 0 < q := by rcases hq with h | h <;> omega
  have hql : q < 128 := by rcases hq with h | h <;> omega
  have hwalk := scanQuote_walk (P ++ [q]) body [] q P.length (P.length + 1) hq0 hql
    hbody (by simp) body.length 0 fuel (Nat.zero_le _) (by omega) (by omega)
  have e1 : P ++ [q] ++ body ++ [] = P ++ q :: body := by simp [List.append_assoc]
  simp only [Nat.add_zero, Nat.sub_zero, e1, List.length_append, List.length_singleton] at hwalk
  obtain ⟨fuel', _, h⟩ := hwalk
  rw [h]
  cases fuel' with
  | zero => rfl
  | succ f => rw [scanWord, if_neg (by simp only [List.length_append, List.length_cons]; omega)]

/-- The tokenizer on an opening quote, a body without that quote, and the
closing quote: the token is the span from quote to quote, the advance goes one
byte beyond the closing quote. -/
theorem ScanText_quoted (pre body rest : List Nat) (q : Nat) (hpre : SpaceRun pre)
    (hq : q = 39 ∨ q = 34) (hbody : q ∉ body) (atEOF : Bool) :
    ScanText (pre ++ q :: body ++ q :: rest) atEOF =
      (pre.length + body.length + 3, some (q :: body ++ [q])) := by
  have hs := skip_before_quote pre (body ++ q :: rest) q hpre hq
  have e : pre ++ q :: (body ++ q :: rest) = pre ++ q :: body ++ q :: rest := by
    simp [List.append_assoc]
  rw [e] at hs
  rw [ScanText_of_quote _ atEOF _ q hs hq,
    scanQuote_closed pre body rest q hq hbody _
      (by simp only [List.length_append, List.length_cons]; omega)]

/-- The tokenizer on an opening quote that is never closed: before EOF it
returns no token and an advance that takes the opening quote; at EOF it
returns what follows the quote as the token, if anything does. -/
theorem ScanText_unclosed (pre body : List Nat) (q : Nat) (hpre : SpaceRun pre)
    (hq : q = 39 ∨ q = 34) (hbody : q ∉ body) (atEOF : Bool) :
    ScanText (pre ++ q :: body) atEOF =
      if atEOF = true ∧ body ≠ [] then (pre.length + 1 + body.length, some body)
      else (pre.length + 1, none) := by
  have hs := skip_before_quote pre body q hpre hq
  rw [ScanText_of_quote _ atEOF _ q hs hq,
    scanQuote_open pre body q hq hbody _
      (by simp only [List.length_append, List.length_cons]; omega)]
  simp only
  have hd : List.drop (pre.length + 1) (pre ++ q :: body) = body := by
    have e2 : pre.length + 1 = (pre ++ [q]).length := by simp
    have e3 : pre ++ q :: body = (pre ++ [q]) ++ body := by simp [List.append_assoc]
    rw [e2, e3, List.drop_left]
  by_cases hb : body = []
  · subst hb
    simp
  · have hbl := List.length_pos.mpr hb
    cases atEOF with
    | false => simp
    | true =>
      rw [if_pos ⟨rfl, by simp only [List.length_append, List.length_cons]; omega⟩,
        if_pos ⟨rfl, hb⟩, hd]
      simp only [List.length_append, List.length_cons]
      congr 1
      omega

/-! ## Tokens are not empty -/

/-- Where the first loop of `ScanText` stops: not before its starting offset,
and, when inside the data, at a rune that is not white space. -/
theorem skipSpaces_stop (data : List Nat) (fuel : Nat) :
    ∀ (start r : Nat), data.length - start ≤ fuel →
      start ≤ (skipSpaces data fuel start r).1 ∧
      ((skipSpaces data fuel start r).1 < data.length →
        IsSpace (DecodeRune (data.drop (skipSpaces data fuel start r).1)).1 = false) := by
  induction fuel with
  | zero =>
    intro start r h
    simp only [skipSpaces]
    exact ⟨le_refl _, fun hlt => by omega⟩
  | succ f ih =>
    intro start r h
    rw [skipSpaces]
    by_cases hlt : start < data.length
    · rw [if_pos hlt]
      simp only
      by_cases hsp : IsSpace (DecodeRune (data.drop start)).1 = true
      · rw [if_neg (by simp [hsp])]
        have hw := DecodeRune_width (data.drop start) (by
          intro h
          have := congrArg List.length h
          simp at this
          omega)
        have := ih (start + (DecodeRune (data.drop start)).2) (DecodeRune (data.drop start)).1
          (by omega)
        exact ⟨by omega, this.2⟩
      · rw [if_pos (by simpa using hsp)]
        exact ⟨le_refl _, fun _ => by simpa using hsp⟩
    · rw [if_neg hlt]
      exact ⟨le_refl _, fun h' => absurd h' hlt⟩

/-- What a `return` inside the second loop of `ScanText` returns. -/
theorem scanWord_some (data : List Nat) (qc qs st : Nat) (fuel : Nat) :
    ∀ (i₀ : Nat) (res : Nat × List Nat), scanWord data qc qs st fuel i₀ = some res →
      ∃ i, i₀ ≤ i ∧ i < data.length ∧
        ((0 < qc ∧ (DecodeRune (data.drop i)).1 = qc ∧
            res = (i + (DecodeRune (data.drop i)).2 + 1, (data.take (i + 1)).drop qs)) ∨
         (qc = 0 ∧ IsSpace (DecodeRune (data.drop i)).1 = true ∧
            res = (i + (DecodeRune (data.drop i)).2, (data.take i).drop st))) := by
  induction fuel with
  | zero => intro i₀ res h; simp [scanWord] at h
  | succ f ih =>
    intro i₀ res h
    rw [scanWord] at h
    by_cases hlt : i₀ < data.length
    · rw [if_pos hlt] at h
      simp only at h
      by_cases h1 : 0 < qc ∧ (DecodeRune (data.drop i₀)).1 = qc
      · rw [if_pos h1] at h
        simp only [Option.some.injEq] at h
        exact ⟨i₀, le_refl _, hlt, Or.inl ⟨h1.1, h1.2, h.symm⟩⟩
      · rw [if_neg h1] at h
        by_cases h2 : qc = 0 ∧ IsSpace (DecodeRune (data.drop i₀)).1 = true
        · rw [if_pos h2] at h
          simp only [Option.some.injEq] at h
          exact ⟨i₀, le_refl _, hlt, Or.inr ⟨h2.1, h2.2, h.symm⟩⟩
        · rw [if_neg h2] at h
          obtain ⟨i, hi, hrest⟩ := ih _ res h
          exact ⟨i, by omega, hrest⟩
    · rw [if_neg hlt] at h
      simp at h

/-- Every token that `ScanText` returns is non-empty. -/
theorem ScanText_token_ne (data : List Nat) (atEOF : Bool) (tok : List Nat)
    (h : (ScanText data atEOF).2 = some tok) : tok ≠ [] := by
  have hstop := skipSpaces_stop data data.length 0 0 (by omega)
  have hpair : skipSpaces data data.length 0 0 =
      ((skipSpaces data data.length 0 0).1, (skipSpaces data data.length 0 0).2) := rfl
  generalize (skipSpaces data data.length 0 0).1 = st at hstop hpair
  generalize (skipSpaces data data.length 0 0).2 = r at hpair
  by_cases hq : r = 39 ∨ r = 34
  · rw [ScanText_of_quote data atEOF st r hpair hq] at h
    cases hres : scanWord data r st (st + 1) data.length (st + 1) with
    | some res =>
      rw [hres] at h
      simp only [Option.some.injEq] at h
      obtain ⟨i, hi, hlt, hcase⟩ := scanWord_some _ _ _ _ _ _ res hres
      have hr0 : 0 < r := by rcases hq with h' | h' <;> omega
      rcases hcase with ⟨_, _, hr⟩ | ⟨h0, _, _⟩
      · rw [hr] at h
        simp only at h
        intro hnil
        have := congrArg List.length (h.trans hnil)
        simp only [List.length_drop, List.length_take, List.length_nil] at this
        omega
      · omega
    | none =>
      rw [hres] at h
      simp only at h
      by_cases hc : atEOF = true ∧ data.length > st + 1
      · rw [if_pos hc] at h
        simp only [Option.some.injEq] at h
        intro hnil
        have := congrArg List.length (h.trans hnil)
        simp only [List.length_drop, List.length_nil] at this
        omega
      · rw [if_neg hc] at h
        exact absurd h (by intro h'; cases h')
  · have hq' : r ≠ 39 ∧ r ≠ 34 := ⟨fun h' => hq (Or.inl h'), fun h' => hq (Or.inr h')⟩
    rw [ScanText_of_skip data atEOF st r hpair hq'] at h
    cases hres : scanWord data 0 0 st data.length st with
    | some res =>
      rw [hres] at h
      simp only [Option.some.injEq] at h
      obtain ⟨i, hi, hlt, hcase⟩ := scanWord_some _ _ _ _ _ _ res hres
      rcases hcase with ⟨h0, _, _⟩ | ⟨_, hsp, hr⟩
      · omega
      · rw [hr] at h
        simp only at h
        have hne : i ≠ st := by
          rintro rfl
          have := hstop.2 hlt
          rw [this] at hsp
          exact absurd hsp (by decide)
        intro hnil
        have := congrArg List.length (h.trans hnil)
        simp only [List.length_drop, List.length_take, List.length_nil] at this
        omega
    | none =>
      rw [hres] at h
      simp only at h
      by_cases hc : atEOF = true ∧ data.length > st
      · rw [if_pos hc] at h
        simp only [Option.some.injEq] at h
        intro hnil
        have := congrArg List.length (h.trans hnil)
        simp only [List.length_drop, List.length_nil] at this
        omega
      · rw [if_neg hc] at h
        exact absurd h (by intro h'; cases h')

theorem splitAdvance_token_ne (buf : List Nat) (atEOF : Bool) (tok buf' : List Nat)
    (h : splitAdvance buf atEOF = some (some tok, buf')) : tok ≠ [] := by
  unfold splitAdvance at h
  simp only at h
  by_cases hc : buf.length < (ScanText buf atEOF).1
  · rw [if_pos hc] at h
    exact absurd h (by intro h'; cases h')
  · rw [if_neg hc] at h
    simp only [Option.some.injEq, Prod.mk.injEq] at h
    exact ScanText_token_ne buf atEOF tok h.1

theorem scanBuffered_second_token_ne (buf : List Nat) (tok buf' : List Nat) (eof' : Bool)
    (h : (match splitAdvance buf true with
      | some (some tok, buf') => some (tok, buf', true)
      | _ => none) = some (tok, buf', eof')) : tok ≠ [] := by
  cases h2 : splitAdvance buf true with
  | none => rw [h2] at h; simp at h
  | some r2 =>
    obtain ⟨t2, b2⟩ := r2
    rw [h2] at h
    cases t2 with
    | none => simp at h
    | some tk2 =>
      simp only [Option.some.injEq, Prod.mk.injEq] at h
      rw [← h.1]
      exact splitAdvance_token_ne buf true tk2 b2 h2

/-- Every token that `scanBuffered` delivers is non-empty. -/
theorem scanBuffered_token_ne (buf : List Nat) (eof : Bool) (tok buf' : List Nat) (eof' : Bool)
    (h : scanBuffered buf eof = some (tok, buf', eof')) : tok ≠ [] := by
  unfold scanBuffered at h
  by_cases hc : buf ≠ [] ∨ eof = true
  · rw [if_pos hc] at h
    cases h1 : splitAdvance buf eof with
    | none => rw [h1] at h; simp at h
    | some r =>
      obtain ⟨t, b1⟩ := r
      rw [h1] at h
      cases t with
      | some tk =>
        simp only [Option.some.injEq, Prod.mk.injEq] at h
        rw [← h.1]
        exact splitAdvance_token_ne buf eof tk b1 h1
      | none =>
        simp only at h
        cases eof with
        | true => simp at h
        | false =>
          simp only [Bool.false_eq_true, if_false] at h
          exact scanBuffered_second_token_ne b1 tok buf' eof' h
  · rw [if_neg hc] at h
    exact scanBuffered_second_token_ne buf tok buf' eof' h

theorem scanTokensBuffered_ne (fuel : Nat) :
    ∀ (buf : List Nat) (eof : Bool), ∀ t ∈ scanTokensBuffered fuel buf eof, t ≠ [] := by
  induction fuel with
  | zero => intro buf eof t ht; simp [scanTokensBuffered] at ht
  | succ f ih =>
    intro buf eof t ht
    rw [scanTokensBuffered] at ht
    cases hs : scanBuffered buf eof with
    | none => rw [hs] at ht; simp at ht
    | some r =>
      obtain ⟨tok, buf', eof'⟩ := r
      rw [hs] at ht
      simp only [List.mem_cons] at ht
      rcases ht with rfl | ht
      · exact scanBuffered_token_ne buf eof t buf' eof' hs
      · exact ih buf' eof' t ht

theorem parseStep_isSome (cfg : Config) (name next : List Nat) (h : next ≠ []) :
    ∃ ch name', parseStep cfg name next = some (ch, name') := by
  rcases next with _ | ⟨b, t⟩
  · exact absurd rfl h
  · have hl : (b :: t).getLast? = some ((b :: t).getLast (by simp)) := List.getLast?_eq_getLast _ _
    unfold parseStep
    cases Atoi (b :: t) with
    | none =>
      simp only [List.head?_cons, hl]
      by_cases hc : (b = 34 ∧ (b :: t).getLast (by simp) = 34) ∨
          (b = 39 ∧ (b :: t).getLast (by simp) = 39)
      · rw [if_pos hc]; exact ⟨_, _, rfl⟩
      · rw [if_neg hc]; exact ⟨_, _, rfl⟩
    | some v =>
      simp only [List.head?_cons]
      by_cases hc : b = 43 ∨ b = 45
      · rw [if_pos hc]; exact ⟨_, _, rfl⟩
      · rw [if_neg hc]; exact ⟨_, _, rfl⟩

/-- The loop of `Parse` does not fault on non-empty tokens. -/
theorem parseLoop_isSome (cfg : Config) (n : Nat) :
    ∀ (ts : List (List Nat)) (name : List Nat), ts.length ≤ n → (∀ t ∈ ts, t ≠ []) →
      ∃ chs, parseLoop cfg name ts = some chs := by
  induction n with
  | zero =>
    intro ts name hl _
    have : ts = [] := List.length_eq_zero.mp (by omega)
    subst this
    rw [parseLoop_nil]
    by_cases hn : name = []
    · rw [if_pos hn]; exact ⟨_, rfl⟩
    · rw [if_neg hn]; exact ⟨_, rfl⟩
  | succ n ih =>
    intro ts name hl hne
    rcases ts with _ | ⟨t, ts⟩
    · rw [parseLoop_nil]
      by_cases hn : name = []
      · rw [if_pos hn]; exact ⟨_, rfl⟩
      · rw [if_neg hn]; exact ⟨_, rfl⟩
    · have ht := hne t (List.mem_cons_self _ _)
      have hts : ∀ x ∈ ts, x ≠ [] := fun x hx => hne x (List.mem_cons_of_mem _ hx)
      by_cases hn : name = []
      · subst hn
        rw [parseLoop_pending cfg t ts ht]
        exact ih ts t (by simp at hl; omega) hts
      · rw [parseLoop_cons cfg name t ts hn]
        obtain ⟨ch, name', hstep⟩ := parseStep_isSome cfg name t ht
        rw [hstep]
        obtain ⟨chs, hchs⟩ := ih ts name' (by simp at hl; omega) hts
        simp only [hchs]
        exact ⟨_, rfl⟩

/-! ## The scanner: progress, tokens and fuel -/

/-- A read moves bytes from the reader to the window, or sets the error. -/
theorem read_unread (s : Scanner) :
    s.read.unread = s.unread ∧ (s.read.err = true ∨ s.read.rest.length < s.rest.length) := by
  obtain ⟨b, st, w, r, e⟩ := s
  unfold Scanner.read
  by_cases hn : min (b - (st + w.length)) r.length = 0
  · rw [if_pos hn]
    exact ⟨rfl, Or.inl rfl⟩
  · rw [if_neg hn]
    refine ⟨?_, Or.inr ?_⟩
    · simp only [Scanner.unread, List.append_assoc, List.take_append_drop]
    · simp only [List.length_drop]
      omega

theorem fill_unread (s s₂ : Scanner) (h : s.fill = some s₂) :
    s₂.unread = s.unread ∧ (s₂.err = true ∨ s₂.rest.length < s.rest.length) := by
  obtain ⟨b, st, w, r, e⟩ := s
  unfold Scanner.fill at h
  by_cases hshift : 0 < st ∧ (st + w.length = b ∨ b / 2 < st)
  · simp only [if_pos hshift] at h
    split_ifs at h
    · simp only [Option.some.injEq] at h
      rw [← h]
      exact read_unread _
    · simp only [Option.some.injEq] at h
      rw [← h]
      exact read_unread _
    · simp only [Option.some.injEq] at h
      rw [← h]
      exact read_unread _
  · simp only [if_neg hshift] at h
    split_ifs at h
    · simp only [Option.some.injEq] at h
      rw [← h]
      exact read_unread _
    · simp only [Option.some.injEq] at h
      rw [← h]
      exact read_unread _
    · simp only [Option.some.injEq] at h
      rw [← h]
      exact read_unread _

theorem advance_unread (s s₁ : Scanner) (n : Nat) (h : s.advance n = some s₁) :
    n ≤ s.window.length ∧ s₁.unread = s.unread.drop n ∧ s₁.rest = s.rest ∧ s₁.err = s.err := by
  unfold Scanner.advance at h
  split_ifs at h with hc
  simp only [Option.some.injEq] at h
  rw [← h]
  refine ⟨by omega, ?_, rfl, rfl⟩
  simp only [Scanner.unread]
  rw [List.drop_append_of_le_length (by omega)]

/-- The result of the split function and the advance, as `Scanner.split` returns it. -/
theorem split_spec (s s₁ : Scanner) (t : Option (List Nat)) (h : s.split = some (t, s₁)) :
    t = (ScanText s.window s.err).2 ∧ s.advance (ScanText s.window s.err).1 = some s₁ := by
  unfold Scanner.split at h
  simp only at h
  cases ha : s.advance (ScanText s.window s.err).1 with
  | none => rw [ha] at h; simp at h
  | some s' =>
    rw [ha] at h
    simp only [Option.some.injEq, Prod.mk.injEq] at h
    exact ⟨h.1.symm, by rw [h.2]⟩

/-- Every token that `Scan` delivers is a token of `ScanText`, so it is not empty,
and it takes at least one of the unread bytes. -/
theorem scanLoop_some (fuel : Nat) :
    ∀ (s s' : Scanner) (tok : List Nat), s.scanLoop fuel = some (tok, s') →
      tok ≠ [] ∧ s'.unread.length < s.unread.length := by
  induction fuel with
  | zero => intro s s' tok h; simp [Scanner.scanLoop] at h
  | succ f ih =>
    intro s s' tok h
    rw [Scanner.scanLoop] at h
    by_cases hc : s.window ≠ [] ∨ s.err = true
    · rw [if_pos hc] at h
      cases hsp : s.split with
      | none => rw [hsp] at h; simp at h
      | some p =>
        obtain ⟨t, s₁⟩ := p
        rw [hsp] at h
        obtain ⟨ht, ha⟩ := split_spec s s₁ t hsp
        obtain ⟨a1, a2, a3, a4⟩ := advance_unread s s₁ _ ha
        cases t with
        | some tk =>
          simp only [Option.some.injEq, Prod.mk.injEq] at h
          obtain ⟨h1, h2⟩ := h
          subst h1 h2
          have hadv := ScanText_adv s.window s.err tk ht.symm
          refine ⟨ScanText_token_ne s.window s.err tk ht.symm, ?_⟩
          rw [a2, List.length_drop]
          have : 0 < s.unread.length := by
            simp only [Scanner.unread, List.length_append]
            omega
          omega
        | none =>
          simp only at h
          split_ifs at h
          cases hf : s₁.fill with
          | none => rw [hf] at h; simp at h
          | some s₂ =>
            rw [hf] at h
            simp only at h
            obtain ⟨i1, i2⟩ := ih s₂ s' tok h
            refine ⟨i1, ?_⟩
            rw [(fill_unread s₁ s₂ hf).1, a2, List.length_drop] at i2
            omega
    · rw [if_neg hc] at h
      simp only at h
      split_ifs at h
      cases hf : s.fill with
      | none => rw [hf] at h; simp at h
      | some s₂ =>
        rw [hf] at h
        simp only at h
        obtain ⟨i1, i2⟩ := ih s₂ s' tok h
        refine ⟨i1, ?_⟩
        rw [(fill_unread s s₂ hf).1] at i2
        exact i2

/-- Every successful `Scan` takes at least one byte. -/
theorem Scan_progress (s s' : Scanner) (tok : List Nat) (h : s.Scan = some (tok, s')) :
    s'.unread.length < s.unread.length :=
  (scanLoop_some _ s s' tok h).2

theorem scanAll_ne (fuel : Nat) : ∀ (s : Scanner), ∀ t ∈ s.scanAll fuel, t ≠ [] := by
  induction fuel with
  | zero => intro s t ht; simp [Scanner.scanAll] at ht
  | succ f ih =>
    intro s t ht
    rw [Scanner.scanAll] at ht
    cases hs : s.Scan with
    | none => rw [hs] at ht; simp at ht
    | some r =>
      obtain ⟨tok, s₁⟩ := r
      rw [hs] at ht
      simp only [List.mem_cons] at ht
      rcases ht with rfl | ht
      · exact (scanLoop_some _ s s₁ _ hs).1
      · exact ih s₁ t ht

theorem tokens_ne (parse : List Nat) : ∀ t ∈ tokens parse, t ≠ [] :=
  scanAll_ne _ _

/-- After an error has been seen a round of `Scan` reads no more: it is the last. -/
theorem scanLoop_err_fuel (s : Scanner) (he : s.err = true) (f : Nat) :
    s.scanLoop (f + 1) = s.scanLoop 1 := by
  rw [Scanner.scanLoop, Scanner.scanLoop, if_pos (Or.inr he)]
  cases hsp : s.split with
  | none => rfl
  | some p =>
    obtain ⟨t, s₁⟩ := p
    obtain ⟨_, ha⟩ := split_spec s s₁ t hsp
    obtain ⟨_, _, _, a4⟩ := advance_unread s s₁ _ ha
    cases t with
    | some tk => rfl
    | none =>
      simp only [a4, he, if_true]

/-- The fuel of `Scan` is enough: more fuel gives the same result. -/
theorem scanLoop_fuel (n : Nat) :
    ∀ (s : Scanner) (f₁ f₂ : Nat), s.rest.length ≤ n → n + 2 ≤ f₁ → n + 2 ≤ f₂ →
      s.scanLoop f₁ = s.scanLoop f₂ := by
  induction n using Nat.strong_induction_on with
  | _ n ih =>
    intro s f₁ f₂ hn h1 h2
    obtain ⟨a, rfl⟩ : ∃ a, f₁ = a + 1 := ⟨f₁ - 1, by omega⟩
    obtain ⟨b, rfl⟩ : ∃ b, f₂ = b + 1 := ⟨f₂ - 1, by omega⟩
    have key : ∀ (s₁ s₂ : Scanner), s₁.rest = s.rest → s₁.fill = some s₂ →
        s₂.scanLoop a = s₂.scanLoop b := by
      intro s₁ s₂ hr hf
      rcases (fill_unread s₁ s₂ hf).2 with he | hlt
      · obtain ⟨a', rfl⟩ : ∃ a', a = a' + 1 := ⟨a - 1, by omega⟩
        obtain ⟨b', rfl⟩ : ∃ b', b = b' + 1 := ⟨b - 1, by omega⟩
        rw [scanLoop_err_fuel s₂ he a', scanLoop_err_fuel s₂ he b']
      · rw [hr] at hlt
        exact ih (n - 1) (by omega) s₂ a b (by omega) (by omega) (by omega)
    rw [Scanner.scanLoop, Scanner.scanLoop]
    by_cases hc : s.window ≠ [] ∨ s.err = true
    · rw [if_pos hc]
      cases hsp : s.split with
      | none => rfl
      | some p =>
        obtain ⟨t, s₁⟩ := p
        obtain ⟨_, ha⟩ := split_spec s s₁ t hsp
        obtain ⟨_, _, a3, _⟩ := advance_unread s s₁ _ ha
        cases t with
        | some tk => rfl
        | none =>
          simp only
          split_ifs
          · rfl
          · cases hf : s₁.fill with
            | none => rfl
            | some s₂ =>
              simp only
              exact key s₁ s₂ a3 hf
    · rw [if_neg hc]
      simp only
      split_ifs
      · rfl
      · cases hf : s.fill with
        | none => rfl
        | some s₂ =>
          simp only
          exact key s s₂ rfl hf

/-- `Scan` returns false when no byte is left. -/
theorem Scan_nil (s : Scanner) (h : s.unread = []) : s.Scan = none := by
  have hw : s.window = [] := (List.append_eq_nil.mp h).1
  have hr : s.rest = [] := (List.append_eq_nil.mp h).2
  have h0 : ScanText [] true = (0, none) := ScanText_space [] SpaceRun.nil true
  unfold Scanner.Scan
  cases he : s.err with
  | true => exact scanLoop_last s 0 _ he (by rw [hw]; exact h0)
  | false =>
    rw [hr]
    simp only [List.length_nil, Nat.zero_add]
    rw [Scanner.scanLoop, if_neg (by simp [hw, he])]
    simp only [he, Bool.false_eq_true, if_false]
    cases hf : s.fill with
    | none => rfl
    | some s₂ =>
      simp only
      obtain ⟨f1, f2⟩ := fill_unread s s₂ hf
      rw [h] at f1
      have hw₂ : s₂.window = [] := (List.append_eq_nil.mp f1).1
      rcases f2 with f2 | f2
      · exact scanLoop_last s₂ 0 _ f2 (by rw [hw₂]; exact h0)
      · rw [hr] at f2; simp at f2

/-- The fuel of `tokens` is enough: as many `Scan` calls as there are unread
bytes reach the `Scan` that returns false. -/
theorem scanAll_fuel (f₁ : Nat) :
    ∀ (f₂ : Nat) (s : Scanner), s.unread.length ≤ f₁ → s.unread.length ≤ f₂ →
      s.scanAll f₁ = s.scanAll f₂ := by
  induction f₁ with
  | zero =>
    intro f₂ s h1 _
    have : s.unread = [] := List.length_eq_zero.mp (by omega)
    cases f₂ with
    | zero => rfl
    | succ f₂ => rw [Scanner.scanAll, Scanner.scanAll, Scan_nil s this]
  | succ f₁ ih =>
    intro f₂ s h1 h2
    cases f₂ with
    | zero =>
      have : s.unread = [] := List.length_eq_zero.mp (by omega)
      rw [Scanner.scanAll, Scanner.scanAll, Scan_nil s this]
    | succ f₂ =>
      rw [Scanner.scanAll, Scanner.scanAll]
      cases hs : s.Scan with
      | none => rfl
      | some r =>
        obtain ⟨tok, s₁⟩ := r
        simp only
        have := Scan_progress s s₁ tok hs
        rw [ih f₂ s₁ (by omega) (by omega)]

/-! ## The compiler on quoted terminators -/

theorem Atoi_quote (q : Nat) (t : List Nat) (hq : q = 39 ∨ q = 34) : Atoi (q :: t) = none := by
  cases h : Atoi (q :: t) with
  | none => rfl
  | some v =>
    have := (Atoi_bytes (q :: t) v h).2 q (List.mem_cons_self _ _)
    omega

/-- The quoted branch of the loop of `Parse`. -/
theorem parseStep_wrapped (cfg : Config) (name t : List Nat) (q : Nat)
    (hnum : Atoi t = none) (hq : q = 39 ∨ q = 34) (hhead : t.head? = some q)
    (hlast : t.getLast? = some q) :
    parseStep cfg name t =
      some (.delim (CreateDelimChunk name (TrimSet t [39, 34])), []) := by
  unfold parseStep
  rw [hnum]
  simp only [hhead, hlast]
  rw [if_pos (by rcases hq with h | h <;> simp [h])]

theorem dropWhile_quote_stop (s : List Nat) (h : ∀ b, s.head? = some b → b ≠ 39 ∧ b ≠ 34) :
    s.dropWhile (fun b => decide (b ∈ [39, 34])) = s := by
  rcases s with _ | ⟨b, t⟩
  · rfl
  · have := h b rfl
    rw [List.dropWhile_cons, if_neg]
    simp [this.1, this.2]

/-- Go `strings.Trim(t, "'\"")` on a text between two quote characters that
neither begins nor ends with a quote character: the text. -/
theorem TrimSet_wrapped (q : Nat) (body : List Nat) (hq : q = 39 ∨ q = 34)
    (hfirst : ∀ b, body.head? = some b → b ≠ 39 ∧ b ≠ 34)
    (hlast : ∀ b, body.getLast? = some b → b ≠ 39 ∧ b ≠ 34) :
    TrimSet (q :: body ++ [q]) [39, 34] = body := by
  have hqm : decide (q ∈ [39, 34]) = true := by rcases hq with h | h <;> simp [h]
  unfold TrimSet
  rw [List.cons_append, List.dropWhile_cons, if_pos hqm]
  by_cases hb : body = []
  · subst hb
    simp only [List.nil_append, List.dropWhile_cons, hqm, if_true, List.dropWhile_nil,
      List.reverse_nil]
  · have h1 : (body ++ [q]).dropWhile (fun b => decide (b ∈ [39, 34])) = body ++ [q] := by
      apply dropWhile_quote_stop
      intro b hbh
      apply hfirst b
      rcases body with _ | ⟨x, t⟩
      · exact absurd rfl hb
      · simpa using hbh
    rw [h1, List.reverse_append, List.reverse_singleton, List.singleton_append,
      List.dropWhile_cons, if_pos hqm]
    have h2 : body.reverse.dropWhile (fun b => decide (b ∈ [39, 34])) = body.reverse := by
      apply dropWhile_quote_stop
      intro b hbh
      apply hlast b
      rw [List.head?_reverse] at hbh
      exact hbh
    rw [h2, List.reverse_reverse]

/-- The scanner on a quoted token that is followed by at least one byte: the
token, and the byte after the closing quote is taken with it. -/
theorem scanBuffered_quoted (pre body rest : List Nat) (q c : Nat) (hpre : SpaceRun pre)
    (hq : q = 39 ∨ q = 34) (hbody : q ∉ body) (eof : Bool) :
    scanBuffered (pre ++ q :: body ++ q :: c :: rest) eof = some (q :: body ++ [q], rest, eof) := by
  unfold scanBuffered
  rw [if_pos (Or.inl (by simp))]
  unfold splitAdvance
  rw [ScanText_quoted pre body (c :: rest) q hpre hq hbody eof]
  simp only
  rw [if_neg (by simp only [List.length_append, List.length_cons]; omega)]
  have : List.drop (pre.length + body.length + 3) (pre ++ q :: body ++ q :: c :: rest) = rest := by
    have e1 : pre ++ q :: body ++ q :: c :: rest = (pre ++ q :: body ++ [q, c]) ++ rest := by
      simp [List.append_assoc]
    have e2 : pre.length + body.length + 3 = (pre ++ q :: body ++ [q, c]).length := by
      simp only [List.length_append, List.length_cons, List.length_nil]
      omega
    rw [e1, e2, List.drop_left]
  rw [this]

/-- The scanner on a quoted token whose closing quote is the last byte: the
advance is one more than the bytes there are, and `scanBuffered` returns false. -/
theorem scanBuffered_quoted_last (pre body : List Nat) (q : Nat) (hpre : SpaceRun pre)
    (hq : q = 39 ∨ q = 34) (hbody : q ∉ body) (eof : Bool) :
    scanBuffered (pre ++ q :: body ++ [q]) eof = none := by
  unfold scanBuffered
  rw [if_pos (Or.inl (by simp))]
  unfold splitAdvance
  rw [ScanText_quoted pre body [] q hpre hq hbody eof]
  simp only
  rw [if_pos (by simp only [List.length_append, List.length_cons, List.length_nil]; omega)]

/-- The tokens of an expression that begins with a word and a quoted token
followed by at least one byte, when the first `Read` delivers all of it. -/
theorem tokens_word_quoted (pre n s body rest : List Nat) (q c : Nat)
    (hpre : SpaceRun pre) (hn : isWord n = true) (hs : SpaceRun s) (hsne : s ≠ [])
    (hq : q = 39 ∨ q = 34) (hbody : q ∉ body)
    (hlen : (pre ++ n ++ s ++ q :: body ++ q :: c :: rest).length ≤ startBufSize) :
    tokens (pre ++ n ++ s ++ q :: body ++ q :: c :: rest) =
      n :: (q :: body ++ [q]) :: tokens rest := by
  obtain ⟨e, s', rfl, he, hs'⟩ := spaceRun_cases s hs hsne
  have e1 : pre ++ n ++ (e ++ s') ++ q :: body ++ q :: c :: rest =
      pre ++ n ++ (e ++ (s' ++ q :: body ++ q :: c :: rest)) := by
    simp [List.append_assoc]
  have hrest : rest.length ≤ startBufSize := by
    simp only [List.length_append, List.length_cons] at hlen
    omega
  rw [tokens_buffered _ hlen, tokens_buffered rest hrest]
  obtain ⟨f, hf⟩ : ∃ f, (pre ++ n ++ (e ++ s') ++ q :: body ++ q :: c :: rest).length + 1
      = f + 2 ∧ rest.length ≤ f := by
    refine ⟨(pre ++ n ++ (e ++ s') ++ q :: body ++ q :: c :: rest).length - 1, ?_, ?_⟩
    · simp only [List.length_append, List.length_cons]; omega
    · simp only [List.length_append, List.length_cons]; omega
  rw [hf.1, e1, scanTokensBuffered, scanBuffered_word_sep pre n e _ hpre hn he false]
  simp only
  rw [scanTokensBuffered, scanBuffered_quoted s' body rest q c hs' hq hbody false]
  simp only
  rw [scanTokensBuffered_fuel f (rest.length + 1) rest false hf.2 (by omega)]

/-- The compiler on a name and a quoted terminator followed by at least one
byte, in an expression of at most `startBufSize` bytes: one Delimited chopper,
then the choppers of the rest of the expression. -/
theorem Parse_name_quoted (cfg : Config) (pre n s body rest : List Nat) (q c : Nat)
    (hpre : SpaceRun pre) (hn : isWord n = true) (hs : SpaceRun s) (hsne : s ≠ [])
    (hq : q = 39 ∨ q = 34) (hbody : q ∉ body)
    (hlen : (pre ++ n ++ s ++ q :: body ++ q :: c :: rest).length ≤ startBufSize) :
    Parse cfg (pre ++ n ++ s ++ q :: body ++ q :: c :: rest) =
      (Parse cfg rest).map (fun chs =>
        Chopper.delim (CreateDelimChunk n (TrimSet (q :: body ++ [q]) [39, 34])) :: chs) := by
  have hne := (isWord_spec n hn).1
  unfold Parse
  rw [tokens_word_quoted pre n s body rest q c hpre hn hs hsne hq hbody hlen,
    parseLoop_pending cfg n _ hne, parseLoop_cons cfg n _ _ hne,
    parseStep_wrapped cfg n (q :: body ++ [q]) q (Atoi_quote q _ hq) hq rfl
      (List.getLast?_concat _)]
  simp only
  cases parseLoop cfg [] (tokens rest) <;> rfl

/-- The compiler on a name and a quoted terminator whose closing quote is the
last byte of an expression of at most `startBufSize` bytes: the terminator is
lost, the name gets the rest-of-line chopper. -/
theorem Parse_name_quoted_last (cfg : Config) (pre n s body : List Nat) (q : Nat)
    (hpre : SpaceRun pre) (hn : isWord n = true) (hs : SpaceRun s) (hsne : s ≠ [])
    (hq : q = 39 ∨ q = 34) (hbody : q ∉ body)
    (hlen : (pre ++ n ++ s ++ q :: body ++ [q]).length ≤ startBufSize) :
    Parse cfg (pre ++ n ++ s ++ q :: body ++ [q]) = some [.delim ⟨n, [], false⟩] := by
  have hne := (isWord_spec n hn).1
  obtain ⟨e, s', rfl, he, hs'⟩ := spaceRun_cases s hs hsne
  have e1 : pre ++ n ++ (e ++ s') ++ q :: body ++ [q] =
      pre ++ n ++ (e ++ (s' ++ q :: body ++ [q])) := by
    simp [List.append_assoc]
  have htok : tokens (pre ++ n ++ (e ++ s') ++ q :: body ++ [q]) = [n] := by
    rw [tokens_buffered _ hlen]
    obtain ⟨f, hf⟩ : ∃ f, (pre ++ n ++ (e ++ s') ++ q :: body ++ [q]).length + 1 = f + 2 :=
      ⟨(pre ++ n ++ (e ++ s') ++ q :: body ++ [q]).length - 1, by
        simp only [List.length_append, List.length_cons]; omega⟩
    rw [hf, e1, scanTokensBuffered, scanBuffered_word_sep pre n e _ hpre hn he false]
    simp only
    rw [scanTokensBuffered, scanBuffered_quoted_last s' body q hs' hq hbody false]
  unfold Parse
  rw [htok, parseLoop_pending cfg n [] hne, parseLoop_nil, if_neg hne, CreateDelimChunk_empty]

/-! ## `CreateDelimChunk`, `Text` and what a chopper records -/

theorem hasSuffix_iff (s suf : List Nat) : HasSuffix s suf = true ↔ suf <:+ s := by
  unfold HasSuffix
  rw [hasPrefix_iff, List.reverse_prefix]

/-- The three cases of `CreateDelimChunk`. -/
theorem CreateDelimChunk_cases (name : List Nat) :
    (∀ v, ¬ [92] <:+ v → CreateDelimChunk name (v ++ [42]) = ⟨name, v, true⟩) ∧
    (∀ w, CreateDelimChunk name (w ++ [92, 42]) = ⟨name, w ++ [92, 42], false⟩) ∧
    (∀ u, ¬ [42] <:+ u → CreateDelimChunk name u = ⟨name, u, false⟩) := by
  refine ⟨?_, ?_, ?_⟩
  · intro v hv
    have h1 : HasSuffix (v ++ [42]) [42] = true := (hasSuffix_iff _ _).2 (List.suffix_append _ _)
    have h2 : ¬ HasSuffix (v ++ [42]) [92, 42] = true := by
      rw [hasSuffix_iff]
      intro h
      apply hv
      obtain ⟨t, ht⟩ := h
      have e : t ++ [92, 42] = (t ++ [92]) ++ [42] := by simp
      rw [e] at ht
      exact ⟨t, List.append_cancel_right ht⟩
    unfold CreateDelimChunk
    rw [if_pos ⟨h1, h2⟩]
    simp
  · intro w
    have h2 : HasSuffix (w ++ [92, 42]) [92, 42] = true :=
      (hasSuffix_iff _ _).2 (List.suffix_append _ _)
    unfold CreateDelimChunk
    rw [if_neg (fun h => h.2 h2)]
  · intro u hu
    have h1 : ¬ HasSuffix u [42] = true := by
      rw [hasSuffix_iff]
      exact hu
    unfold CreateDelimChunk
    rw [if_neg (fun h => h1 h.1)]

theorem trimLeftByte_replicate (a c : Nat) (m : List Nat) :
    trimLeftByte (List.replicate a c ++ m) c = trimLeftByte m c := by
  induction a with
  | zero => simp
  | succ a ih =>
    rw [List.replicate_succ, List.cons_append, trimLeftByte, if_pos rfl, ih]

theorem trimLeftByte_stop (m : List Nat) (c : Nat) (h : m.head? ≠ some c) :
    trimLeftByte m c = m := by
  rcases m with _ | ⟨b, t⟩
  · rfl
  · rw [trimLeftByte, if_neg]
    rintro rfl
    exact h rfl

/-- The value of `strings.Trim(s, " ")` on a text `m` that neither begins nor
ends with the byte `c`, with `a` bytes `c` before it and `b` after it. -/
theorem Trim_strip (a b c : Nat) (m : List Nat) (hfirst : m.head? ≠ some c)
    (hlast : m.getLast? ≠ some c) :
    Trim (List.replicate a c ++ m ++ List.replicate b c) c = m := by
  unfold Trim trimRightByte
  rw [List.reverse_append, List.reverse_replicate, trimLeftByte_replicate, List.reverse_append,
    List.reverse_replicate]
  by_cases hm : m = []
  · subst hm
    have : trimLeftByte ([].reverse ++ List.replicate a c) c = [] := by
      have := trimLeftByte_replicate a c []
      simpa [trimLeftByte] using this
    rw [this]
    rfl
  · have hrev : (m.reverse ++ List.replicate a c).head? ≠ some c := by
      rw [List.head?_append_of_ne_nil _ (by simpa using hm), List.head?_reverse]
      exact hlast
    rw [trimLeftByte_stop _ c hrev, List.reverse_append, List.reverse_replicate,
      List.reverse_reverse, trimLeftByte_replicate, trimLeftByte_stop m c hfirst]

theorem trimLeftByte_spec (s : List Nat) (c : Nat) :
    ∃ a, s = List.replicate a c ++ trimLeftByte s c ∧ (trimLeftByte s c).head? ≠ some c := by
  induction s with
  | nil => exact ⟨0, rfl, by simp [trimLeftByte]⟩
  | cons b t ih =>
    rw [trimLeftByte]
    by_cases hb : b = c
    · rw [if_pos hb]
      obtain ⟨a, h1, h2⟩ := ih
      refine ⟨a + 1, ?_, h2⟩
      rw [List.replicate_succ, List.cons_append, ← h1, hb]
    · rw [if_neg hb]
      refine ⟨0, rfl, ?_⟩
      intro h
      simp only [List.head?_cons, Option.some.injEq] at h
      exact hb h

/-- Every text is `strings.Trim(s, " ")` with some bytes `c` before and after
it, and the trimmed text neither begins nor ends with `c`. -/
theorem Trim_spec (s : List Nat) (c : Nat) :
    ∃ a b, s = List.replicate a c ++ Trim s c ++ List.replicate b c ∧
      (Trim s c).head? ≠ some c ∧ (Trim s c).getLast? ≠ some c := by
  obtain ⟨b, hb1, hb2⟩ := trimLeftByte_spec s.reverse c
  obtain ⟨a, ha1, ha2⟩ := trimLeftByte_spec (trimLeftByte s.reverse c).reverse c
  have hx : s = (trimLeftByte s.reverse c).reverse ++ List.replicate b c := by
    have := congrArg List.reverse hb1
    rw [List.reverse_reverse, List.reverse_append, List.reverse_replicate] at this
    exact this
  refine ⟨a, b, ?_, ?_, ?_⟩
  · unfold Trim trimRightByte
    rw [← ha1]
    exact hx
  · exact ha2
  · unfold Trim trimRightByte
    intro hl
    by_cases hm : trimLeftByte (trimLeftByte s.reverse c).reverse c = []
    · rw [hm] at hl
      simp at hl
    · have hx2 := congrArg List.getLast? ha1
      rw [List.getLast?_append_of_ne_nil _ hm, hl, List.getLast?_reverse] at hx2
      exact hb2 hx2

theorem slice_eq_some (input slack : List Nat) (lo hi : Int) (text : List Nat)
    (h : slice input slack lo hi = some text) :
    ∃ l u : Nat, l ≤ u ∧ u ≤ input.length + slack.length ∧
      text = ((input ++ slack).take u).drop l := by
  unfold slice at h
  by_cases hc : 0 ≤ lo ∧ lo ≤ hi ∧ hi ≤ ((input.length + slack.length : Nat) : Int)
  · rw [if_pos hc] at h
    simp only [Option.some.injEq] at h
    exact ⟨lo.toNat, hi.toNat, by omega, by omega, h.symm⟩
  · rw [if_neg hc] at h
    exact absurd h (by intro h'; cases h')

theorem sliceFrom_eq_some (input slack : List Nat) (lo : Int) (text : List Nat)
    (h : sliceFrom input lo = some text) :
    ∃ l u : Nat, l ≤ u ∧ u ≤ input.length + slack.length ∧
      text = ((input ++ slack).take u).drop l := by
  unfold sliceFrom at h
  by_cases hc : 0 ≤ lo ∧ lo ≤ (input.length : Int)
  · rw [if_pos hc] at h
    simp only [Option.some.injEq] at h
    refine ⟨lo.toNat, input.length, by omega, by omega, ?_⟩
    rw [List.take_left', ← h]
    rfl
  · rw [if_neg hc] at h
    exact absurd h (by intro h'; cases h')

theorem span_text (dc : DelimChunk) (input slack : List Nat) (c : Int) (text : List Nat)
    (e : Int) (h : dc.span input slack c = some (text, e)) :
    ∃ l u : Nat, l ≤ u ∧ u ≤ input.length + slack.length ∧
      text = ((input ++ slack).take u).drop l := by
  unfold DelimChunk.span at h
  cases hsf : sliceFrom input c with
  | none => rw [hsf] at h; simp at h
  | some rest =>
    rw [hsf] at h
    simp only at h
    by_cases hd : dc.until_ = []
    · rw [if_pos hd] at h
      simp only [Option.some.injEq, Prod.mk.injEq] at h
      rw [← h.1]
      exact sliceFrom_eq_some input slack c rest hsf
    · rw [if_neg hd] at h
      by_cases hi : Index rest dc.until_ = -1
      · rw [if_pos hi] at h
        simp only [Option.some.injEq, Prod.mk.injEq] at h
        rw [← h.1]
        exact sliceFrom_eq_some input slack c rest hsf
      · rw [if_neg hi] at h
        cases hs : slice input slack c (c + Index rest dc.until_) with
        | none => rw [hs] at h; simp at h
        | some t =>
          rw [hs] at h
          simp only at h
          have ht := slice_eq_some input slack _ _ t hs
          by_cases hsk : dc.skipAll = true
          · rw [if_pos hsk] at h
            cases hr : skipRepeats input slack dc.until_ input.length
                (c + (t.length : Int) + (dc.until_.length : Int)) with
            | none => rw [hr] at h; simp at h
            | some e' =>
              rw [hr] at h
              simp only [Option.some.injEq, Prod.mk.injEq] at h
              rw [← h.1]
              exact ht
          · rw [if_neg hsk] at h
            simp only [Option.some.injEq, Prod.mk.injEq] at h
            rw [← h.1]
            exact ht

/-- What a chopper that returns does to the mapping: nothing when its name is
`"."`, and otherwise it records `Text` of a span `[l, u)` of the line's buffer
under its name. -/
theorem Chop_records (cfg : Config) (ch : Chopper) (input slack : List Nat) (c c' : Int)
    (values values' : Values) (h : ch.Chop cfg input slack c values = some (c', values')) :
    (ch.name = dot → values' = values) ∧
    (ch.name ≠ dot → ∃ l u : Nat, l ≤ u ∧ u ≤ input.length + slack.length ∧
      values' = values.set ch.name (Text cfg (((input ++ slack).take u).drop l))) := by
  cases ch with
  | abs ac =>
    simp only [Chopper.Chop, AbsChunk.Chop, Chopper.name] at h ⊢
    by_cases hn : ac.name = dot
    · rw [if_neg (by simp [hn])] at h
      simp only [Option.some.injEq, Prod.mk.injEq] at h
      exact ⟨fun _ => h.2.symm, fun h' => absurd hn h'⟩
    · rw [if_pos hn] at h
      cases hs : slice input slack c ac.until_ with
      | none => rw [hs] at h; simp at h
      | some t =>
        rw [hs] at h
        simp only [Option.some.injEq, Prod.mk.injEq] at h
        obtain ⟨l, u, h1, h2, h3⟩ := slice_eq_some input slack _ _ t hs
        exact ⟨fun h' => absurd h' hn, fun _ => ⟨l, u, h1, h2, by rw [← h.2, h3]⟩⟩
  | rel rc =>
    simp only [Chopper.Chop, RelChunk.Chop, Chopper.name] at h ⊢
    by_cases hn : rc.name = dot
    · rw [if_neg (by simp [hn])] at h
      simp only [Option.some.injEq, Prod.mk.injEq] at h
      exact ⟨fun _ => h.2.symm, fun h' => absurd hn h'⟩
    · rw [if_pos hn] at h
      cases hs : slice input slack c (wrapInt (c + rc.until_)) with
      | none => rw [hs] at h; simp at h
      | some t =>
        rw [hs] at h
        simp only [Option.some.injEq, Prod.mk.injEq] at h
        obtain ⟨l, u, h1, h2, h3⟩ := slice_eq_some input slack _ _ t hs
        exact ⟨fun h' => absurd h' hn, fun _ => ⟨l, u, h1, h2, by rw [← h.2, h3]⟩⟩
  | delim dc =>
    simp only [Chopper.Chop, DelimChunk.Chop, Chopper.name] at h ⊢
    cases hs : dc.span input slack c with
    | none => rw [hs] at h; simp at h
    | some r =>
      obtain ⟨t, e⟩ := r
      rw [hs] at h
      simp only at h
      obtain ⟨l, u, h1, h2, h3⟩ := span_text dc input slack c t e hs
      by_cases hn : dc.name = dot
      · rw [if_neg (by simp [hn])] at h
        simp only [Option.some.injEq, Prod.mk.injEq] at h
        exact ⟨fun _ => h.2.symm, fun h' => absurd hn h'⟩
      · rw [if_pos hn] at h
        simp only [Option.some.injEq, Prod.mk.injEq] at h
        exact ⟨fun h' => absurd h' hn, fun _ => ⟨l, u, h1, h2, by rw [← h.2, h3]⟩⟩

/-! ## The keys of the mapping, the main program -/

theorem Chop_keys (cfg : Config) (ch : Chopper) (input slack : List Nat) (c c' : Int)
    (values values' : Values) (h : ch.Chop cfg input slack c values = some (c', values')) :
    (∀ k, k ≠ ch.name → values' k = values k) ∧
    (ch.name = dot → values' = values) ∧
    (ch.name ≠ dot → (values' ch.name).isSome = true) := by
  obtain ⟨h1, h2⟩ := Chop_records cfg ch input slack c c' values values' h
  by_cases hn : ch.name = dot
  · have := h1 hn
    subst this
    exact ⟨fun _ _ => rfl, fun _ => rfl, fun h' => absurd hn h'⟩
  · obtain ⟨l, u, _, _, hv⟩ := h2 hn
    subst hv
    refine ⟨fun k hk => by simp [Values.set, hk], fun h' => absurd h' hn, fun _ => ?_⟩
    simp [Values.set]

/-- The keys of the mapping after a run of choppers that does not fault: the
keys it had before and the names of the choppers other than `"."`. -/
theorem chopLine_keys (cfg : Config) (input slack : List Nat) (chs : List Chopper) :
    ∀ (c c' : Int) (v₀ v : Values), chopLine cfg input slack chs c v₀ = (some c', v) →
      ∀ k, (v k).isSome = true ↔
        ((v₀ k).isSome = true ∨ (k ∈ chs.map Chopper.name ∧ k ≠ dot)) := by
  induction chs with
  | nil =>
    intro c c' v₀ v h k
    simp only [chopLine, Prod.mk.injEq] at h
    rw [← h.2]
    simp
  | cons ch rest ih =>
    intro c c' v₀ v h k
    rw [chopLine] at h
    cases hch : ch.Chop cfg input slack c v₀ with
    | none => rw [hch] at h; simp at h
    | some r =>
      obtain ⟨c₁, v₁⟩ := r
      rw [hch] at h
      simp only at h
      obtain ⟨hframe, hdot, hset⟩ := Chop_keys cfg ch input slack c c₁ v₀ v₁ hch
      rw [ih c₁ c' v₁ v h k]
      simp only [List.map_cons, List.mem_cons]
      by_cases hk : k = ch.name
      · subst hk
        by_cases hn : ch.name = dot
        · rw [hdot hn]
          constructor
          · rintro (h1 | ⟨h1, h2⟩)
            · exact Or.inl h1
            · exact absurd hn h2
          · rintro (h1 | ⟨_, h2⟩)
            · exact Or.inl h1
            · exact absurd hn h2
        · constructor
          · intro _
            exact Or.inr ⟨Or.inl rfl, hn⟩
          · intro _
            exact Or.inl (hset hn)
      · rw [hframe k hk]
        constructor
        · rintro (h1 | ⟨h1, h2⟩)
          · exact Or.inl h1
          · exact Or.inr ⟨Or.inr h1, h2⟩
        · rintro (h1 | ⟨h1 | h1, h2⟩)
          · exact Or.inl h1
          · exact absurd h1 hk
          · exact Or.inr ⟨h1, h2⟩

/-- A run of choppers leaves the values of the names it does not hold. -/
theorem chopLine_frame (cfg : Config) (input slack : List Nat) (chs : List Chopper) :
    ∀ (c c' : Int) (v₀ v : Values), chopLine cfg input slack chs c v₀ = (some c', v) →
      ∀ k, k ∉ chs.map Chopper.name → v k = v₀ k := by
  induction chs with
  | nil =>
    intro c c' v₀ v h k _
    simp only [chopLine, Prod.mk.injEq] at h
    rw [← h.2]
  | cons ch rest ih =>
    intro c c' v₀ v h k hk
    rw [chopLine] at h
    cases hch : ch.Chop cfg input slack c v₀ with
    | none => rw [hch] at h; simp at h
    | some r =>
      obtain ⟨c₁, v₁⟩ := r
      rw [hch] at h
      simp only at h
      simp only [List.map_cons, List.mem_cons, not_or] at hk
      rw [ih c₁ c' v₁ v h k hk.2]
      exact (Chop_keys cfg ch input slack c c₁ v₀ v₁ hch).1 k hk.1

/-- A run that does not fault splits at any of its choppers. -/
theorem chopLine_split (cfg : Config) (input slack : List Nat) (pre : List Chopper)
    (ch : Chopper) (post : List Chopper) :
    ∀ (c c' : Int) (v₀ v : Values),
      chopLine cfg input slack (pre ++ ch :: post) c v₀ = (some c', v) →
      ∃ c₁ v₁ c₂ v₂, chopLine cfg input slack pre c v₀ = (some c₁, v₁) ∧
        ch.Chop cfg input slack c₁ v₁ = some (c₂, v₂) ∧
        chopLine cfg input slack post c₂ v₂ = (some c', v) := by
  induction pre with
  | nil =>
    intro c c' v₀ v h
    simp only [List.nil_append] at h
    rw [chopLine] at h
    cases hch : ch.Chop cfg input slack c v₀ with
    | none => rw [hch] at h; simp at h
    | some r =>
      obtain ⟨c₂, v₂⟩ := r
      rw [hch] at h
      exact ⟨c, v₀, c₂, v₂, rfl, hch, h⟩
  | cons p pre ih =>
    intro c c' v₀ v h
    rw [List.cons_append, chopLine] at h
    cases hp : p.Chop cfg input slack c v₀ with
    | none => rw [hp] at h; simp at h
    | some r =>
      obtain ⟨cp, vp⟩ := r
      rw [hp] at h
      simp only at h
      obtain ⟨c₁, v₁, c₂, v₂, h1, h2, h3⟩ := ih cp c' vp v h
      refine ⟨c₁, v₁, c₂, v₂, ?_, h2, h3⟩
      rw [chopLine, hp]
      exact h1

theorem runLines_nil (cfg : Config) (lines : List (List Nat × List Nat)) :
    runLines cfg [] lines = (lines.map (fun _ => Values.empty), 0) := by
  induction lines with
  | nil => rfl
  | cons l rest ih =>
    obtain ⟨line, slack⟩ := l
    simp only [runLines, chopLine, ih, List.map_cons]

theorem tokens_nil : tokens [] = [] := by
  unfold tokens
  rw [Scanner.scanAll, Scan_nil _ (NewScanner_unread [])]

theorem Parse_nil (cfg : Config) : Parse cfg [] = some [] := by
  unfold Parse
  rw [tokens_nil]
  rfl

/-- A run of one ASCII byte that is neither white space nor a quote is a word. -/
theorem isWord_replicate (k b : Nat) (hk : 0 < k) (hb : b < 0x80) (hs : IsSpace b = false)
    (hq1 : b ≠ 34) (hq2 : b ≠ 39) : isWord (List.replicate k b) = true := by
  have hns : noSpace (List.replicate k b) = true :=
    noSpace_ascii _ (fun x hx => by rw [List.eq_of_mem_replicate hx]; exact ⟨hb, hs⟩)
  obtain ⟨j, rfl⟩ : ∃ j, k = j + 1 := ⟨k - 1, by omega⟩
  have hd : DecodeRune (List.replicate (j + 1) b) = (b, 1) := by
    rw [List.replicate_succ]
    exact DecodeRune_ascii b _ hb
  simp [isWord, hns, hd, hq1, hq2]

/-- `strconv.Atoi` rejects a text that begins with a letter. -/
theorem Atoi_replicate (k b : Nat) (h1 : b ≠ 45) (h2 : b ≠ 43) (h3 : b < 48 ∨ 57 < b) :
    Atoi (List.replicate k b) = none := by
  cases k with
  | zero => rfl
  | succ j =>
    rw [List.replicate_succ]
    simp only [Atoi, h1, h2, or_self, if_false, digitsValue]
    rw [if_neg (by simp), if_neg (by omega)]

/-- An expression whose first word has `MaxScanTokenSize` bytes or more compiles
to no chopper: the first `Scan` returns false (`ErrTooLong`). -/
theorem Parse_too_long (cfg : Config) (pre w more : List Nat) (hpre : SpaceRun pre)
    (hw : isWord w = true) (hlen : MaxScanTokenSize ≤ w.length) :
    Parse cfg (pre ++ w ++ more) = some [] := by
  unfold Parse
  rw [tokens_too_long pre w more hpre hw hlen]
  rfl

/-- The scanner on an opening quote that is never closed: the quote is taken
by the advance of the first round, and the scan goes on at EOF with what follows
the quote. -/
theorem scanBuffered_unclosed (pre body : List Nat) (q : Nat) (hpre : SpaceRun pre)
    (hq : q = 39 ∨ q = 34) (hbody : q ∉ body) :
    scanBuffered (pre ++ q :: body) false = scanBuffered body true := by
  have h1 : splitAdvance (pre ++ q :: body) false = some (none, body) := by
    unfold splitAdvance
    rw [ScanText_unclosed pre body q hpre hq hbody false]
    simp only [Bool.false_eq_true, false_and, if_false]
    rw [if_neg (by simp only [List.length_append, List.length_cons]; omega)]
    have hd : List.drop (pre.length + 1) (pre ++ q :: body) = body := by
      have e2 : pre.length + 1 = (pre ++ [q]).length := by simp
      have e3 : pre ++ q :: body = (pre ++ [q]) ++ body := by simp [List.append_assoc]
      rw [e2, e3, List.drop_left]
    rw [hd]
  unfold scanBuffered
  rw [if_pos (Or.inl (by simp)), h1, if_pos (Or.inr rfl)]
  simp only [Bool.false_eq_true, if_false, if_true]
  cases splitAdvance body true with
  | none => rfl
  | some r =>
    obtain ⟨t, b⟩ := r
    cases t <;> rfl

/-- `Scan` on a window that ends with the closing quote of a quoted token: the
advance exceeds the window (`ErrAdvanceTooFar`) whatever the reader still
holds, `Scan` returns false. -/
theorem Scan_quoted_last (s : Scanner) (pre body : List Nat) (q : Nat) (hpre : SpaceRun pre)
    (hq : q = 39 ∨ q = 34) (hbody : q ∉ body) (hw : s.window = pre ++ q :: body ++ [q]) :
    s.Scan = none := by
  unfold Scanner.Scan
  rw [Scanner.scanLoop, if_pos (Or.inl (by rw [hw]; simp))]
  unfold Scanner.split Scanner.advance
  simp only
  rw [hw, ScanText_quoted pre body [] q hpre hq hbody s.err]
  simp only
  rw [if_pos (by simp only [List.length_append, List.length_cons, List.length_nil]; omega)]

/-- `Scan` on an exhausted reader and a window with an opening quote that is
never closed: what it returns on the bytes after the quote at EOF. -/
theorem Scan_unclosed (s : Scanner) (pre body : List Nat) (q : Nat) (hpre : SpaceRun pre)
    (hq : q = 39 ∨ q = 34) (hbody : q ∉ body) (hs : s.Exhausted)
    (hw : s.window = pre ++ q :: body) (he : s.err = false) :
    s.Scan.map (fun r => (r.1, r.2.window, r.2.err)) = scanBuffered body true := by
  unfold Scanner.Scan
  rw [hs.1]
  have := (scanLoop_buffered s hs 0).1
  simp only [List.length_nil, Nat.zero_add] at this ⊢
  rw [this, hw, he, scanBuffered_unclosed pre body q hpre hq hbody]

/-! ## The claims -/

/-- C1, as amended: with the field separator `" *"`, two distinct words `a`,
`b` that are no numbers and not `"."`, each shorter than `MaxScanTokenSize`
bytes, and a line `u ++ k spaces ++ v` (`k ≥ 1`, no space in `u` or `v`):
`Parse("a b")` is a skip-all chopper for `" "` named `a` and a rest-of-line
chopper named `b`, and applying them from cursor 0 to the empty mapping gives
exactly `{a: u, b: v}`, the cursor ending at `len(line)`. -/
theorem default_separator_two_names (noTrim : Bool) (a b u v slack : List Nat) (k : Nat)
    (ha : isWord a = true) (hb : isWord b = true) (hanum : Atoi a = none)
    (hbnum : Atoi b = none) (hab : a ≠ b) (hadot : a ≠ dot) (hbdot : b ≠ dot) (hk : 1 ≤ k)
    (hu : 32 ∉ u) (hv : 32 ∉ v)
    (hla : a.length < MaxScanTokenSize) (hlb : b.length < MaxScanTokenSize) :
    Parse ⟨noTrim, [32, 42]⟩ (a ++ [32] ++ b) =
        some [.delim ⟨a, [32], true⟩, .delim ⟨b, [], false⟩] ∧
      chopLine ⟨noTrim, [32, 42]⟩ (u ++ List.replicate k 32 ++ v) slack
          [.delim ⟨a, [32], true⟩, .delim ⟨b, [], false⟩] 0 Values.empty =
        (some (((u ++ List.replicate k 32 ++ v).length : Nat) : Int),
          fun key => if key = a then some u else if key = b then some v else none) := by
  constructor
  · have h := Parse_words ⟨noTrim, [32, 42]⟩ [(a, [32])] [] b [] SpaceRun.nil SpaceRun.nil hb
      hbnum (by
        intro p hp
        simp only [List.mem_singleton] at hp
        subst hp
        exact ⟨⟨ha, hanum⟩, spaceRun_single, by simp⟩)
      (by
        intro p hp
        simp only [List.mem_singleton] at hp
        subst hp
        show a.length + 1 ≤ MaxScanTokenSize
        omega)
      hlb (by show b.length + 0 ≤ MaxScanTokenSize; omega)
    have e1 : [] ++ joinWords [(a, [32])] ++ b ++ [] = a ++ [32] ++ b := by
      simp [joinWords, List.append_assoc]
    rw [e1] at h
    rw [h]
    simp [CreateDelimChunk, HasSuffix, HasPrefix]
  · rw [chopLine_two_fields ⟨noTrim, [32, 42]⟩ a b u v slack k hadot hbdot hk hu hv]
    congr 1
    funext key
    simp only [Values.set, Values.empty]
    by_cases h1 : key = b
    · subst h1
      simp [Ne.symm hab]
    · simp [h1]

/-- Witness of C1: expression `a b` on the line `foo   bar`. -/
theorem default_separator_two_names_witness :
    Parse ⟨false, [32, 42]⟩ (bytes "a" ++ [32] ++ bytes "b") =
        some [.delim ⟨bytes "a", [32], true⟩, .delim ⟨bytes "b", [], false⟩] ∧
      chopLine ⟨false, [32, 42]⟩ (bytes "foo" ++ List.replicate 3 32 ++ bytes "bar") []
          [.delim ⟨bytes "a", [32], true⟩, .delim ⟨bytes "b", [], false⟩] 0 Values.empty =
        (some (((bytes "foo" ++ List.replicate 3 32 ++ bytes "bar").length : Nat) : Int),
          fun key => if key = bytes "a" then some (bytes "foo")
            else if key = bytes "b" then some (bytes "bar") else none) :=
  default_separator_two_names false (bytes "a") (bytes "b") (bytes "foo") (bytes "bar") [] 3
    (by decide) (by decide) (by decide) (by decide) (by decide) (by decide) (by decide)
    (by decide) (by decide) (by decide) (by decide) (by decide)

/-- Counterexample to C1 as stated: the name `a` repeated 65536 times is a word,
no number, not `"."` and not the name `b`, and the expression of this name, a
space and `b` compiles to no chopper at all (the scanner gives up with
`ErrTooLong` before it has a token), so every line gets the empty mapping. -/
theorem default_separator_counterexample :
    isWord (List.replicate 65536 97) = true ∧ Atoi (List.replicate 65536 97) = none ∧
    List.replicate 65536 97 ≠ bytes "b" ∧ List.replicate 65536 97 ≠ dot ∧
    Parse ⟨false, [32, 42]⟩ (List.replicate 65536 97 ++ [32] ++ bytes "b") = some [] ∧
    (chopLine ⟨false, [32, 42]⟩ (bytes "foo" ++ List.replicate 3 32 ++ bytes "bar") [] []
      0 Values.empty).2 (bytes "b") = none := by
  have hw : isWord (List.replicate 65536 97) = true :=
    isWord_replicate 65536 97 (by decide) (by decide) (by decide) (by decide) (by decide)
  refine ⟨hw, Atoi_replicate 65536 97 (by decide) (by decide) (by decide), ?_, ?_, ?_, rfl⟩
  · intro h
    have := congrArg List.length h
    rw [List.length_replicate] at this
    exact absurd this (by decide)
  · intro h
    have := congrArg List.length h
    rw [List.length_replicate] at this
    exact absurd this (by decide)
  · have := Parse_too_long ⟨false, [32, 42]⟩ [] (List.replicate 65536 97) ([32] ++ bytes "b")
      SpaceRun.nil hw (by rw [List.length_replicate]; decide)
    rw [List.nil_append, ← List.append_assoc] at this
    exact this

/-- C2, as amended: a Delimited chopper with non-empty delimiter `d`, applied at
cursor `c` to a line `a ++ d repeated k times ++ rest` (`k ≥ 1`) in which `d`
does not occur at the offsets `c ≤ i < len(a)` and `rest` does not start with
`d`, records `Text(line[c:len(a)])` under its name unless the name is `"."`, and
returns `len(a) + len(d)` without skip-all and `len(a) + k * len(d)` with it,
provided that with skip-all `rest` is empty or at least `len(d)` bytes long. -/
theorem delimChop_first_occurrence (cfg : Config) (name d a rest slack : List Nat)
    (skipAll : Bool) (k c : Nat) (values : Values)
    (hd : d ≠ []) (hc : c ≤ a.length) (hk : 1 ≤ k)
    (hfirst : ∀ i, c ≤ i → i < a.length → ¬ d <+: (a ++ Repeat d k ++ rest).drop i)
    (hmax : ¬ d <+: rest)
    (hfit : skipAll = true → rest = [] ∨ d.length ≤ rest.length) :
    DelimChunk.Chop cfg ⟨name, d, skipAll⟩ (a ++ Repeat d k ++ rest) slack (c : Int) values =
      some (((a.length + (if skipAll then k else 1) * d.length : Nat) : Int),
        if name = dot then values else values.set name (Text cfg (a.drop c))) :=
  delimChop_run cfg name d a rest slack skipAll k c values hd hc hk hfirst hmax hfit

/-- Witness of C2: the line `a,,,b`, delimiter `,` with skip-all, cursor 0:
`x = "a"` is recorded and the cursor 4 is returned. -/
theorem delimChop_first_occurrence_witness :
    DelimChunk.Chop defaultConfig ⟨bytes "x", bytes ",", true⟩
        (bytes "a" ++ Repeat (bytes ",") 3 ++ bytes "b") [] ((0 : Nat) : Int) Values.empty =
      some (((((bytes "a").length + (if true = true then 3 else 1) * (bytes ",").length : Nat)) : Int),
        if bytes "x" = dot then Values.empty
        else Values.empty.set (bytes "x") (Text defaultConfig ((bytes "a").drop 0))) :=
  delimChop_first_occurrence defaultConfig (bytes "x") (bytes ",") (bytes "a") (bytes "b") []
    true 3 0 Values.empty (by decide) (by decide) (by decide)
    (by
      intro i h0 h1
      have : i = 0 := by
        have : (bytes "a").length = 1 := by decide
        omega
      subst this
      decide)
    (by decide) (by decide)

/-- Counterexample to C2 as stated.  Delimiter `,,` with skip-all on the line
`abcde,,,` (first occurrence at 5, one full occurrence) with no spare capacity:
the skip loop slices `[7:9]` and the chopper faults instead of returning 7.
Name `"."` on the line `a,,,b`: the cursor 4 is returned and nothing is
recorded under the name. -/
theorem delimChop_counterexample :
    Index (bytes "abcde,,,") (bytes ",,") = 5 ∧
    (DelimChunk.Chop defaultConfig ⟨bytes "x", bytes ",,", true⟩ (bytes "abcde,,,") [] 0
      Values.empty).isNone = true ∧
    (DelimChunk.Chop defaultConfig ⟨dot, bytes ",", true⟩ (bytes "a,,,b") [] 0
      Values.empty).map (fun r => (r.1, r.2 dot)) = some (4, none) := by
  decide

/-- C3, as amended: an Absolute or Relative chopper whose target offset `t`
(`until`, resp. `cursor + until`) lies beyond `len(line)` is not clamped.  Named
`"."` it records nothing and returns `t`.  Otherwise it faults when `t` exceeds
the capacity of the line's buffer (always, when there is no spare capacity), and
within the capacity it records `Text` of `line[c:]` followed by the spare bytes
up to `t` and returns `t`.  It never returns `len(line)`. -/
theorem chop_beyond_line_not_clamped (cfg : Config) (name : List Nat) (until_ : Int)
    (line slack : List Nat) (c : Int) (values : Values)
    (hc0 : 0 ≤ c) (hc : c ≤ (line.length : Int)) :
    ((line.length : Int) < until_ →
      AbsChunk.Chop cfg ⟨name, until_⟩ line slack c values =
        if name = dot then some (until_, values)
        else if until_ ≤ ((line.length + slack.length : Nat) : Int) then
          some (until_, values.set name
            (Text cfg (((line ++ slack).take until_.toNat).drop c.toNat)))
        else none) ∧
    ((line.length : Int) < c + until_ → c + until_ < 2 ^ 63 →
      RelChunk.Chop cfg ⟨name, until_⟩ line slack c values =
        if name = dot then some (c + until_, values)
        else if c + until_ ≤ ((line.length + slack.length : Nat) : Int) then
          some (c + until_, values.set name
            (Text cfg (((line ++ slack).take (c + until_).toNat).drop c.toNat)))
        else none) := by
  constructor
  · intro ht
    unfold AbsChunk.Chop
    by_cases hn : name = dot
    · simp [hn]
    · simp only [ne_eq, hn, not_false_eq_true, if_true, if_false]
      by_cases hcap : until_ ≤ ((line.length + slack.length : Nat) : Int)
      · rw [slice_some _ _ _ _ hc0 (by omega) hcap, if_pos hcap]
      · rw [slice_none_of_cap _ _ _ _ (by omega), if_neg hcap]
  · intro ht hlt
    unfold RelChunk.Chop
    have hw : wrapInt (c + until_) = c + until_ := wrapInt_id _ (by omega) hlt
    simp only [hw]
    by_cases hn : name = dot
    · simp [hn]
    · simp only [ne_eq, hn, not_false_eq_true, if_true, if_false]
      by_cases hcap : c + until_ ≤ ((line.length + slack.length : Nat) : Int)
      · rw [slice_some _ _ _ _ hc0 (by omega) hcap, if_pos hcap]
      · rw [slice_none_of_cap _ _ _ _ (by omega), if_neg hcap]


/-- Witness of C3: target 7 on the 5-byte line `hello`, cursor 0. -/
theorem chop_beyond_line_witness :
    AbsChunk.Chop defaultConfig ⟨bytes "x", 7⟩ (bytes "hello") [] 0 Values.empty = none ∧
    RelChunk.Chop defaultConfig ⟨bytes "x", 7⟩ (bytes "hello") [] 0 Values.empty = none := by
  have h := chop_beyond_line_not_clamped defaultConfig (bytes "x") 7 (bytes "hello") [] 0
    Values.empty (by decide) (by decide)
  refine ⟨?_, ?_⟩
  · rw [h.1 (by decide), if_neg (by decide), if_neg (by decide)]
  · rw [h.2 (by decide) (by decide), if_neg (by decide), if_neg (by decide)]

/-- Counterexample to C3 as stated: on the 5-byte line `hello`, an Absolute
chopper `(x, 7)` at cursor 0 and a Relative chopper `(x, 4)` at cursor 3 fault
when the line has no spare capacity, and with three spare zero bytes they
return 7 and record the line's bytes followed by two zero bytes; the chopper
`(".", 7)` returns 7.  None returns 5. -/
theorem clamp_counterexample :
    (AbsChunk.Chop defaultConfig ⟨bytes "x", 7⟩ (bytes "hello") [] 0 Values.empty).isNone
      = true ∧
    (AbsChunk.Chop defaultConfig ⟨bytes "x", 7⟩ (bytes "hello") [0, 0, 0] 0
      Values.empty).map (fun r => (r.1, r.2 (bytes "x")))
        = some (7, some (bytes "hello" ++ [0, 0])) ∧
    (RelChunk.Chop defaultConfig ⟨bytes "x", 4⟩ (bytes "hello") [] 3 Values.empty).isNone
      = true ∧
    (RelChunk.Chop defaultConfig ⟨bytes "x", 4⟩ (bytes "hello") [0, 0, 0] 3
      Values.empty).map (fun r => (r.1, r.2 (bytes "x")))
        = some (7, some (bytes "lo" ++ [0, 0])) ∧
    (AbsChunk.Chop defaultConfig ⟨dot, 7⟩ (bytes "hello") [] 0 Values.empty).map Prod.fst
      = some 7 := by
  decide

/-- C4, as amended: for a Relative chopper at a cursor `c` in `[0, len(line)]`:
when `0 ≤ until` and `c + until ≤ len(line)` it does not fault and returns
`c + until`, which is its own clamp into `[0, len(line)]`; when `until < 0` and
the name is not `"."` it faults (the slice bounds are inverted), whatever the
capacity; named `"."` it returns `c + until` as it is, without clamping. -/
theorem relChop_in_range_or_fault (cfg : Config) (name : List Nat) (until_ : Int)
    (line slack : List Nat) (c : Int) (values : Values)
    (hlen : (line.length : Int) < 2 ^ 63) (hu : -2 ^ 63 ≤ until_)
    (hc0 : 0 ≤ c) (hc : c ≤ (line.length : Int)) :
    (0 ≤ until_ → c + until_ ≤ (line.length : Int) →
      RelChunk.Chop cfg ⟨name, until_⟩ line slack c values =
          some (c + until_, if name = dot then values else
            values.set name (Text cfg ((line.take (c + until_).toNat).drop c.toNat))) ∧
        c + until_ = max 0 (min (c + until_) (line.length : Int))) ∧
    (until_ < 0 → name ≠ dot →
      RelChunk.Chop cfg ⟨name, until_⟩ line slack c values = none) ∧
    (name = dot → c + until_ < 2 ^ 63 →
      RelChunk.Chop cfg ⟨name, until_⟩ line slack c values = some (c + until_, values)) := by
  refine ⟨?_, ?_, ?_⟩
  · intro h0 h1
    have hw : wrapInt (c + until_) = c + until_ := wrapInt_id _ (by omega) (by omega)
    refine ⟨?_, by omega⟩
    unfold RelChunk.Chop
    simp only [hw]
    by_cases hn : name = dot
    · simp [hn]
    · simp only [ne_eq, hn, not_false_eq_true, if_true, if_false]
      rw [slice_some_within _ _ _ _ hc0 (by omega) h1]
  · intro h0 hn
    have hw : wrapInt (c + until_) = c + until_ := wrapInt_id _ (by omega) (by omega)
    unfold RelChunk.Chop
    simp only [hw, ne_eq, hn, not_false_eq_true, if_true]
    rw [slice_none_of_lt _ _ _ _ (by omega)]
  · intro hn h1
    have hw : wrapInt (c + until_) = c + until_ := wrapInt_id _ (by omega) h1
    unfold RelChunk.Chop
    simp [hw, hn]


/-- Witness of C4: `(x, +2)` at cursor 1 of `hello` returns 3; `(x, -3)` at
cursor 4 faults; `(".", -3)` at cursor 2 returns -1. -/
theorem relChop_in_range_or_fault_witness :
    (RelChunk.Chop defaultConfig ⟨bytes "x", 2⟩ (bytes "hello") [] 1 Values.empty).map
      (fun r => (r.1, r.2 (bytes "x"))) = some (3, some (bytes "el")) ∧
    RelChunk.Chop defaultConfig ⟨bytes "x", -3⟩ (bytes "hello") [] 4 Values.empty = none ∧
    (RelChunk.Chop defaultConfig ⟨dot, -3⟩ (bytes "hello") [] 2 Values.empty).map Prod.fst
      = some (-1) := by
  have h1 := relChop_in_range_or_fault defaultConfig (bytes "x") 2 (bytes "hello") [] 1
    Values.empty (by decide) (by decide) (by decide) (by decide)
  have h2 := relChop_in_range_or_fault defaultConfig (bytes "x") (-3) (bytes "hello") [] 4
    Values.empty (by decide) (by decide) (by decide) (by decide)
  have h3 := relChop_in_range_or_fault defaultConfig dot (-3) (bytes "hello") [] 2
    Values.empty (by decide) (by decide) (by decide) (by decide)
  refine ⟨?_, h2.2.1 (by decide) (by decide), ?_⟩
  · rw [(h1.1 (by decide) (by decide)).1]
    decide
  · rw [h3.2.2 rfl (by decide)]
    decide

/-- Counterexample to C4 as stated: the expression `x -3` compiles to the
Relative chopper `(x, -3)`, which faults at cursor 4 of `hello`, with or
without spare capacity; the choppers `(".", -3)` and `(".", 9)` at cursor 2
return -1 and 11, not the clamped 0 and 5. -/
theorem relChop_clamp_counterexample :
    Parse defaultConfig (bytes "x -3") = some [.rel ⟨bytes "x", -3⟩] ∧
    (RelChunk.Chop defaultConfig ⟨bytes "x", -3⟩ (bytes "hello") [] 4 Values.empty).isNone
      = true ∧
    (RelChunk.Chop defaultConfig ⟨bytes "x", -3⟩ (bytes "hello") [0, 0, 0] 4
      Values.empty).isNone = true ∧
    (RelChunk.Chop defaultConfig ⟨dot, -3⟩ (bytes "hello") [] 2 Values.empty).map Prod.fst
      = some (-1) ∧
    (RelChunk.Chop defaultConfig ⟨dot, 9⟩ (bytes "hello") [] 2 Values.empty).map Prod.fst
      = some 11 := by
  decide

/-- C5, as amended: a chopper that stays within the line (`WithinLine`: the
target of an Absolute or Relative chopper lies between the cursor and
`len(line)`, the slices read by a Delimited chopper end within the line),
applied at a cursor `c` in `[0, len(line)]`, returns a cursor `c'` with
`c ≤ c' ≤ len(line)`; hence a list of choppers that all stay within the line,
applied from cursor 0, runs to the end with a non-decreasing sequence of
cursors, none beyond `len(line)`. -/
theorem cursor_monotone_within_line (cfg : Config) (line slack : List Nat)
    (hlen : (line.length : Int) < 2 ^ 63) :
    (∀ (ch : Chopper) (c : Int) (values : Values), 0 ≤ c → c ≤ (line.length : Int) →
      WithinLine line ch c →
      ∃ c' values', ch.Chop cfg line slack c values = some (c', values') ∧
        c ≤ c' ∧ c' ≤ (line.length : Int)) ∧
    (∀ (chs : List Chopper), AllWithin cfg line slack chs 0 Values.empty →
      ∃ tr, cursorTrace cfg line slack chs 0 Values.empty = some tr ∧
        List.Chain (· ≤ ·) 0 tr ∧ ∀ x ∈ tr, x ≤ (line.length : Int)) :=
  ⟨fun ch c values hc0 hc hw => chop_within cfg line slack hlen ch c values hc0 hc hw,
   fun chs hall => cursorTrace_within cfg line slack hlen chs 0 Values.empty (le_refl _)
     (by omega) hall⟩


/-- Witness of C5: the choppers of `a b` on the line `foo   bar`. -/
theorem cursor_monotone_within_line_witness :
    ∃ tr, cursorTrace defaultConfig (bytes "foo   bar") []
        [.delim ⟨bytes "a", [32], true⟩, .delim ⟨bytes "b", [], false⟩] 0 Values.empty
          = some tr ∧
      List.Chain (· ≤ ·) 0 tr ∧ ∀ x ∈ tr, x ≤ ((bytes "foo   bar").length : Int) :=
  (cursor_monotone_within_line defaultConfig (bytes "foo   bar") [] (by decide)).2
    [.delim ⟨bytes "a", [32], true⟩, .delim ⟨bytes "b", [], false⟩]
    (by
      refine ⟨by show (DelimChunk.span _ _ _ _).isSome = true; decide, ?_⟩
      intro c' v' h
      have hc : c' = 6 := by
        have := congrArg (Option.map Prod.fst) h
        exact (Option.some.inj this).symm.trans (by decide)
      subst hc
      exact ⟨by show (DelimChunk.span _ _ _ _).isSome = true; decide, fun _ _ _ => trivial⟩)

/-- Counterexample to C5 as stated: on the line `hello world`, the Absolute
chopper `(".", 2)` at cursor 5 returns 2 and `(".", 99)` at cursor 0 returns 99;
the choppers of the expression `a 5 . 2` move the cursor to 5 and back to 2. -/
theorem cursor_monotone_counterexample :
    (AbsChunk.Chop defaultConfig ⟨dot, 2⟩ (bytes "hello world") [] 5 Values.empty).map Prod.fst
      = some 2 ∧
    (AbsChunk.Chop defaultConfig ⟨dot, 99⟩ (bytes "hello world") [] 0 Values.empty).map
      Prod.fst = some 99 ∧
    Parse defaultConfig (bytes "a 5 . 2") = some [.abs ⟨bytes "a", 5⟩, .abs ⟨dot, 2⟩] ∧
    cursorTrace defaultConfig (bytes "hello world") []
      [.abs ⟨bytes "a", 5⟩, .abs ⟨dot, 2⟩] 0 Values.empty = some [5, 2] := by
  decide

/-- C6: a chopper named `"."` of any kind leaves the mapping as it is (an
Absolute or Relative one always returns, a Delimited one returns or faults
before it touches the mapping); and whatever the chopper list and the line, the
mapping built from the empty one never holds the key `"."`, fault or not. -/
theorem dot_chopper_leaves_mapping (cfg : Config) (line slack : List Nat) :
    (∀ (ch : Chopper) (c : Int) (values : Values), ch.name = dot →
      (ch.Chop cfg line slack c values = none ∨
        ∃ c', ch.Chop cfg line slack c values = some (c', values))) ∧
    (∀ (ac : AbsChunk) (rc : RelChunk) (c : Int) (values : Values),
      ac.name = dot → rc.name = dot →
      ac.Chop cfg line slack c values = some (ac.until_, values) ∧
      rc.Chop cfg line slack c values = some (wrapInt (c + rc.until_), values)) ∧
    (∀ (chs : List Chopper), (chopLine cfg line slack chs 0 Values.empty).2 dot = none) := by
  refine ⟨?_, ?_, ?_⟩
  · intro ch c values hn
    cases ch with
    | abs ac =>
      right
      simp only [Chopper.name] at hn
      exact ⟨ac.until_, by simp [Chopper.Chop, AbsChunk.Chop, hn]⟩
    | rel rc =>
      right
      simp only [Chopper.name] at hn
      exact ⟨wrapInt (c + rc.until_), by simp [Chopper.Chop, RelChunk.Chop, hn]⟩
    | delim dc =>
      simp only [Chopper.name] at hn
      simp only [Chopper.Chop, DelimChunk.Chop]
      cases hs : dc.span line slack c with
      | none => left; rfl
      | some r => right; exact ⟨r.2, by simp [hn]⟩
  · intro ac rc c values h1 h2
    simp [AbsChunk.Chop, RelChunk.Chop, h1, h2]
  · intro chs
    exact chopLine_dot cfg line slack chs 0 Values.empty rfl


/-- C7: a non-empty list of Delimited choppers with pairwise distinct names,
none of them `"."`, applied from cursor 0 and the empty mapping to a line in
which none of their non-empty delimiters occurs: the whole line (through
`Text`) is recorded under the first name, every later name gets the empty
string, and the cursor ends at `len(line)`. -/
theorem delimited_only_no_occurrence (cfg : Config) (d0 : DelimChunk) (ds : List DelimChunk)
    (line slack : List Nat)
    (hnames : ((d0 :: ds).map (fun d => d.name)).Nodup)
    (hdot : ∀ d ∈ d0 :: ds, d.name ≠ dot)
    (hocc : ∀ d ∈ d0 :: ds, d.until_ ≠ [] → ¬ d.until_ <:+: line) :
    chopLine cfg line slack ((d0 :: ds).map Chopper.delim) 0 Values.empty =
      (some (line.length : Int),
        fun k => if k = d0.name then some (Text cfg line)
          else if k ∈ ds.map (fun d => d.name) then some [] else none) := by
  simp only [List.map_cons, chopLine, Chopper.Chop, DelimChunk.Chop]
  have := span_absent d0 line slack 0 (Nat.zero_le _) (hocc d0 (List.mem_cons_self _ _))
  simp only [Nat.cast_zero, List.drop_zero] at this
  rw [this]
  simp only [ne_eq, hdot d0 (List.mem_cons_self _ _), not_false_eq_true, if_true]
  rw [chopLine_at_end cfg line slack ds _ (fun x hx => hdot x (List.mem_cons_of_mem _ hx))
      (fun x hx => hocc x (List.mem_cons_of_mem _ hx))]
  congr 1
  funext k
  have hnot : d0.name ∉ ds.map (fun d => d.name) := by
    simp only [List.map_cons, List.nodup_cons] at hnames
    exact hnames.1
  simp only [Values.set, Values.empty]
  by_cases h1 : k = d0.name
  · subst h1
    simp [hnot]
  · simp [h1]


/-- Witness of C7: the choppers of `a "," b` on the line `foo bar`. -/
theorem delimited_only_no_occurrence_witness :
    chopLine defaultConfig (bytes "foo bar") []
        (([⟨bytes "a", bytes ",", false⟩, ⟨bytes "b", [], false⟩] : List DelimChunk).map
          Chopper.delim) 0 Values.empty =
      (some ((bytes "foo bar").length : Int),
        fun k => if k = bytes "a" then some (Text defaultConfig (bytes "foo bar"))
          else if k ∈ ([⟨bytes "b", [], false⟩] : List DelimChunk).map (fun d => d.name)
            then some [] else none) :=
  delimited_only_no_occurrence defaultConfig ⟨bytes "a", bytes ",", false⟩
    [⟨bytes "b", [], false⟩] (bytes "foo bar") [] (by decide) (by decide) (by decide)

/-- C8, as amended: for a word `n` other than `"."` and an unsigned decimal
numeral `t` of value `N`, both shorter than `MaxScanTokenSize` bytes, and a
line with `N ≤ len(line)` (a length that fits an `int`): `Parse("n N")` is the
single Absolute chopper `(n, N)`, and applying it from cursor 0 to the empty
mapping gives exactly `{n: Text(line[0:N])}` and the cursor `N`. -/
theorem absolute_offset_roundtrip (cfg : Config) (n t line slack : List Nat) (N : Nat)
    (hn : isWord n = true) (hdot : n ≠ dot) (ht : t ≠ []) (hd : digitsValue t 0 = some N)
    (hN : N ≤ line.length) (hlen : line.length < 2 ^ 63)
    (hln : n.length < MaxScanTokenSize) (hlt : t.length < MaxScanTokenSize) :
    Parse cfg (n ++ [32] ++ t) = some [.abs ⟨n, (N : Int)⟩] ∧
    chopLine cfg line slack [.abs ⟨n, (N : Int)⟩] 0 Values.empty =
      (some (N : Int), fun key => if key = n then some (Text cfg (line.take N)) else none) := by
  obtain ⟨hat, h43, h45⟩ := Atoi_digits t N ht hd (by omega)
  constructor
  · have h := Parse_name_num cfg [] n [32] t [] (N : Int) SpaceRun.nil spaceRun_single
      (by simp) SpaceRun.nil hn hat (by show n.length + 1 ≤ MaxScanTokenSize; omega) hlt
      (by show t.length + 0 ≤ MaxScanTokenSize; omega)
    simp only [List.nil_append, List.append_nil] at h
    rw [h, if_neg (by simp [h43, h45])]
  · simp only [chopLine, Chopper.Chop, AbsChunk.Chop, ne_eq, hdot, not_false_eq_true, if_true]
    have hs := slice_within line slack 0 N (Nat.zero_le _) hN
    simp only [Nat.cast_zero, List.drop_zero] at hs
    rw [hs]
    simp only
    congr 1

/-- Witness of C8: expression `name 5` on the line `hello world`. -/
theorem absolute_offset_roundtrip_witness :
    Parse defaultConfig (bytes "name" ++ [32] ++ bytes "5") =
      some [.abs ⟨bytes "name", ((5 : Nat) : Int)⟩] ∧
    chopLine defaultConfig (bytes "hello world") [] [.abs ⟨bytes "name", ((5 : Nat) : Int)⟩] 0
        Values.empty =
      (some ((5 : Nat) : Int),
        fun key => if key = bytes "name" then
          some (Text defaultConfig ((bytes "hello world").take 5)) else none) :=
  absolute_offset_roundtrip defaultConfig (bytes "name") (bytes "5") (bytes "hello world") [] 5
    (by decide) (by decide) (by decide) (by decide) (by decide) (by decide) (by decide)
    (by decide)

/-- Counterexample to C8 as stated: the name `n` repeated 65536 times is a word
and not `"."`, `5` is an unsigned decimal within the line `hello world`, and the
expression of this name, a space and `5` compiles to no chopper, not to the
Absolute chopper `(name, 5)`. -/
theorem absolute_offset_counterexample :
    isWord (List.replicate 65536 110) = true ∧ List.replicate 65536 110 ≠ dot ∧
    digitsValue (bytes "5") 0 = some 5 ∧ 5 ≤ (bytes "hello world").length ∧
    Parse defaultConfig (List.replicate 65536 110 ++ [32] ++ bytes "5") = some [] ∧
    Parse defaultConfig (List.replicate 65536 110 ++ [32] ++ bytes "5") ≠
      some [.abs ⟨List.replicate 65536 110, ((5 : Nat) : Int)⟩] := by
  have hw : isWord (List.replicate 65536 110) = true :=
    isWord_replicate 65536 110 (by decide) (by decide) (by decide) (by decide) (by decide)
  have hp : Parse defaultConfig (List.replicate 65536 110 ++ [32] ++ bytes "5") = some [] := by
    have := Parse_too_long defaultConfig [] (List.replicate 65536 110) ([32] ++ bytes "5")
      SpaceRun.nil hw (by rw [List.length_replicate]; decide)
    rw [List.nil_append, ← List.append_assoc] at this
    exact this
  refine ⟨hw, ?_, by decide, by decide, hp, ?_⟩
  · intro h
    have := congrArg List.length h
    rw [List.length_replicate] at this
    exact absurd this (by decide)
  · rw [hp]
    intro h
    exact List.cons_ne_nil _ _ (Option.some.inj h).symm

/-- C9: in the loop of `Parse`, a terminator `t` that `strconv.Atoi` accepts
with value `v` makes the loop append exactly one chopper for the pending name
and clear the name: the Relative chopper `(name, v)` when `t` begins with `+`
or `-`, the Absolute chopper `(name, v)` otherwise; so an expression of a word
`n`, white space and `t` compiles to that one chopper, when `n` with the
white-space rune after it, and `t` with the one after it (if any), take at most
`MaxScanTokenSize` bytes each and `t` alone takes fewer. -/
theorem numeric_terminator_kind (cfg : Config) (n t : List Nat) (v : Int)
    (hn : isWord n = true) (ht : Atoi t = some v) :
    (∀ name, parseStep cfg name t =
      some (if t.head? = some 43 ∨ t.head? = some 45 then Chopper.rel ⟨name, v⟩
        else Chopper.abs ⟨name, v⟩, [])) ∧
    (∀ pre s post, SpaceRun pre → SpaceRun s → s ≠ [] → SpaceRun post →
      n.length + (DecodeRune s).2 ≤ MaxScanTokenSize → t.length < MaxScanTokenSize →
      t.length + (DecodeRune post).2 ≤ MaxScanTokenSize →
      Parse cfg (pre ++ n ++ s ++ t ++ post) =
        some [if t.head? = some 43 ∨ t.head? = some 45 then Chopper.rel ⟨n, v⟩
          else Chopper.abs ⟨n, v⟩]) :=
  ⟨fun name => parseStep_num cfg name t v ht,
   fun pre s post hpre hs hsne hpost hln hl1 hl2 =>
     Parse_name_num cfg pre n s t post v hpre hs hsne hpost hn ht hln hl1 hl2⟩

/-- Witness of C9: `n +3` compiles to Relative `(n, 3)` and `n 3` to Absolute
`(n, 3)`; at cursor 2 of the line `abcdefgh` the first records `cde` and
returns 5, the second records `c` and returns 3. -/
theorem numeric_terminator_kind_witness :
    Parse defaultConfig ([] ++ bytes "n" ++ [32] ++ bytes "+3" ++ []) =
      some [.rel ⟨bytes "n", 3⟩] ∧
    Parse defaultConfig ([] ++ bytes "n" ++ [32] ++ bytes "3" ++ []) =
      some [.abs ⟨bytes "n", 3⟩] ∧
    (RelChunk.Chop defaultConfig ⟨bytes "n", 3⟩ (bytes "abcdefgh") [] 2 Values.empty).map
      (fun r => (r.1, r.2 (bytes "n"))) = some (5, some (bytes "cde")) ∧
    (AbsChunk.Chop defaultConfig ⟨bytes "n", 3⟩ (bytes "abcdefgh") [] 2 Values.empty).map
      (fun r => (r.1, r.2 (bytes "n"))) = some (3, some (bytes "c")) := by
  have h1 := (numeric_terminator_kind defaultConfig (bytes "n") (bytes "+3") 3 (by decide)
    (by decide)).2 [] [32] [] SpaceRun.nil spaceRun_single (by decide) SpaceRun.nil
    (by decide) (by decide) (by decide)
  have h2 := (numeric_terminator_kind defaultConfig (bytes "n") (bytes "3") 3 (by decide)
    (by decide)).2 [] [32] [] SpaceRun.nil spaceRun_single (by decide) SpaceRun.nil
    (by decide) (by decide) (by decide)
  rw [if_pos (by decide)] at h1
  rw [if_neg (by decide)] at h2
  exact ⟨h1, h2, by decide, by decide⟩

/-- C10, as amended: an expression of `n ≥ 1` words `w₁ … wₙ` that are no
numbers and do not start with a quote, separated by white space (and possibly
surrounded by it), every word taking at most `MaxScanTokenSize` bytes together
with the white-space rune that follows it and the last word fewer than
`MaxScanTokenSize` bytes alone, compiles to exactly `n` Delimited choppers in
that order: `CreateDelimChunk(wᵢ, fieldSep)` for the first `n - 1` and the
chopper `(wₙ, "", false)` for the last. -/
theorem bare_words_compile (cfg : Config) (init : List (List Nat × List Nat))
    (pre wn post : List Nat)
    (hpre : SpaceRun pre) (hpost : SpaceRun post) (hwn : isWord wn = true)
    (hnum : Atoi wn = none)
    (hall : ∀ p ∈ init, (isWord p.1 = true ∧ Atoi p.1 = none) ∧ SpaceRun p.2 ∧ p.2 ≠ [])
    (hfit : ∀ p ∈ init, p.1.length + (DecodeRune p.2).2 ≤ MaxScanTokenSize)
    (hl1 : wn.length < MaxScanTokenSize)
    (hl2 : wn.length + (DecodeRune post).2 ≤ MaxScanTokenSize) :
    Parse cfg (pre ++ joinWords init ++ wn ++ post) =
      some (init.map (fun p => Chopper.delim (CreateDelimChunk p.1 cfg.fieldSep)) ++
        [Chopper.delim ⟨wn, [], false⟩]) :=
  Parse_words cfg init pre wn post hpre hpost hwn hnum hall hfit hl1 hl2

/-- Witness of C10: the expression ` ab<TAB> c  d ` with its three words. -/
theorem bare_words_compile_witness :
    Parse defaultConfig
        ([32] ++ joinWords [(bytes "ab", [9, 32]), (bytes "c", [32, 32])] ++ bytes "d" ++ [32]) =
      some (([(bytes "ab", [9, 32]), (bytes "c", [32, 32])] : List (List Nat × List Nat)).map
          (fun p => Chopper.delim (CreateDelimChunk p.1 defaultConfig.fieldSep)) ++
        [Chopper.delim ⟨bytes "d", [], false⟩]) :=
  bare_words_compile defaultConfig [(bytes "ab", [9, 32]), (bytes "c", [32, 32])] [32]
    (bytes "d") [32] spaceRun_single spaceRun_single (by decide) (by decide)
    (by
      intro p hp
      rcases List.mem_cons.mp hp with rfl | hp
      · exact ⟨⟨by decide, by decide⟩,
          SpaceRun.cons [9] [32] (by decide) spaceRun_single, by decide⟩
      · rcases List.mem_cons.mp hp with rfl | hp
        · exact ⟨⟨by decide, by decide⟩,
            SpaceRun.cons [32] [32] (by decide) spaceRun_single, by decide⟩
        · exact absurd hp (List.not_mem_nil _))
    (by
      intro p hp
      rcases List.mem_cons.mp hp with rfl | hp
      · decide
      · rcases List.mem_cons.mp hp with rfl | hp
        · decide
        · exact absurd hp (List.not_mem_nil _))
    (by decide) (by decide)

/-- Counterexample to C10 as stated: the expression of the three bare words
`ab`, the letter `x` repeated 65536 times and `c`, separated by single spaces,
compiles to one chopper, the rest-of-line chopper for `ab`: the scanner gives
up at the second word (`ErrTooLong`), which `Parse` takes for the end of the
expression. -/
theorem bare_words_counterexample :
    isWord (List.replicate 65536 120) = true ∧ Atoi (List.replicate 65536 120) = none ∧
    Parse defaultConfig (bytes "ab" ++ [32] ++ List.replicate 65536 120 ++ [32] ++ bytes "c") =
      some [.delim ⟨bytes "ab", [], false⟩] := by
  have hw : isWord (List.replicate 65536 120) = true :=
    isWord_replicate 65536 120 (by decide) (by decide) (by decide) (by decide) (by decide)
  refine ⟨hw, Atoi_replicate 65536 120 (by decide) (by decide) (by decide), ?_⟩
  have htok := tokens_words_too_long [(bytes "ab", [32])] [] (List.replicate 65536 120)
    ([32] ++ bytes "c") SpaceRun.nil hw (by rw [List.length_replicate]; decide)
    (by
      intro p hp
      simp only [List.mem_singleton] at hp
      subst hp
      exact ⟨by decide, spaceRun_single, by decide⟩)
    (by
      intro p hp
      simp only [List.mem_singleton] at hp
      subst hp
      decide)
  have e1 : [] ++ joinWords [(bytes "ab", [32])] ++ List.replicate 65536 120 ++
      ([32] ++ bytes "c") =
      bytes "ab" ++ [32] ++ List.replicate 65536 120 ++ [32] ++ bytes "c" := by
    simp only [joinWords, List.nil_append, List.append_nil, List.append_assoc]
  rw [e1] at htok
  unfold Parse
  rw [htok]
  decide

/-- C11, what the code does: in an expression of at most `startBufSize` bytes
that ends with a word `n`, white space and a token wrapped in quotes `q`, the
quoted terminator is lost and `n` gets the rest-of-line chopper, not the
chopper for the quoted text; and where the loop of `Parse` does read a
terminator that begins and ends with `q`, the delimiter is
`strings.Trim(t, "'\"")`, which drops more than the enclosing pair when the
text between the quotes begins or ends with a quote of either kind. -/
theorem quoted_terminator_lost (cfg : Config) (pre n s body : List Nat) (q : Nat)
    (hpre : SpaceRun pre) (hn : isWord n = true) (hs : SpaceRun s) (hsne : s ≠ [])
    (hq : q = 39 ∨ q = 34) (hbody : q ∉ body)
    (hlen : (pre ++ n ++ s ++ q :: body ++ [q]).length ≤ startBufSize) :
    Parse cfg (pre ++ n ++ s ++ q :: body ++ [q]) = some [.delim ⟨n, [], false⟩] ∧
    (∀ name t, Atoi t = none → t.head? = some q → t.getLast? = some q →
      parseStep cfg name t =
        some (.delim (CreateDelimChunk name (TrimSet t [39, 34])), [])) :=
  ⟨Parse_name_quoted_last cfg pre n s body q hpre hn hs hsne hq hbody hlen,
   fun name t hnum hhead hlast => parseStep_wrapped cfg name t q hnum hq hhead hlast⟩

/-- Witness of C11: the expression `x ","` (the witness of the claim) compiles
to the rest-of-line chopper `(x, "")`; and `x "'a'" y` compiles to a chopper
for `x` with the delimiter `a`, not `'a'`. -/
theorem quoted_terminator_lost_witness :
    (Parse defaultConfig ([] ++ bytes "x" ++ [32] ++ 34 :: bytes "," ++ [34]) =
        some [.delim ⟨bytes "x", [], false⟩] ∧
      (∀ name t, Atoi t = none → t.head? = some 34 → t.getLast? = some 34 →
        parseStep defaultConfig name t =
          some (.delim (CreateDelimChunk name (TrimSet t [39, 34])), []))) ∧
    TrimSet ([34] ++ bytes "'a'" ++ [34]) [39, 34] = bytes "a" ∧
    Parse defaultConfig (bytes "x " ++ [34] ++ bytes "'a'" ++ [34] ++ bytes " y") =
      some [.delim ⟨bytes "x", bytes "a", false⟩, .delim ⟨bytes "y", [], false⟩] :=
  ⟨quoted_terminator_lost defaultConfig [] (bytes "x") [32] (bytes ",") 34 SpaceRun.nil
    (by decide) spaceRun_single (by decide) (by decide) (by decide) (by decide),
   by decide, by rw [Parse_buffered _ _ (by decide)]; decide⟩

/-- C12: `CreateDelimChunk(name, u)` is `(name, v, true)` when `u` is `v`
followed by `*` and `v` does not end in a backslash; it is `(name, u, false)`
when `u` ends in backslash-`*` (both characters stay in the delimiter) and when
`u` does not end in `*`. -/
theorem createDelimChunk_spec (name : List Nat) :
    (∀ v, ¬ [92] <:+ v → CreateDelimChunk name (v ++ [42]) = ⟨name, v, true⟩) ∧
    (∀ w, CreateDelimChunk name (w ++ [92, 42]) = ⟨name, w ++ [92, 42], false⟩) ∧
    (∀ u, ¬ [42] <:+ u → CreateDelimChunk name u = ⟨name, u, false⟩) :=
  CreateDelimChunk_cases name

/-- C13: with the no-trim option unset, every span `s` is `Text(s)` with some
space bytes before and after it, and `Text(s)` neither begins nor ends with a
space: for a text `m` that neither begins nor ends with a space (it may begin
or end with a tab), `Text` of `a` spaces, `m` and `b` spaces is `m`.  With the
option set `Text(s)` is `s`.  And a chopper that returns and is not named `"."`
records `Text` of a span of the line's buffer under its name. -/
theorem text_trims_spaces (fieldSep : List Nat) :
    (∀ s, ∃ a b, s = List.replicate a 32 ++ Text ⟨false, fieldSep⟩ s ++ List.replicate b 32 ∧
      (Text ⟨false, fieldSep⟩ s).head? ≠ some 32 ∧
      (Text ⟨false, fieldSep⟩ s).getLast? ≠ some 32) ∧
    (∀ a b m, m.head? ≠ some 32 → m.getLast? ≠ some 32 →
      Text ⟨false, fieldSep⟩ (List.replicate a 32 ++ m ++ List.replicate b 32) = m) ∧
    (∀ s, Text ⟨true, fieldSep⟩ s = s) ∧
    (∀ (noTrim : Bool) (ch : Chopper) (input slack : List Nat) (c c' : Int)
      (values values' : Values),
      ch.Chop ⟨noTrim, fieldSep⟩ input slack c values = some (c', values') → ch.name ≠ dot →
      ∃ l u : Nat, l ≤ u ∧ u ≤ input.length + slack.length ∧
        values' = values.set ch.name
          (Text ⟨noTrim, fieldSep⟩ (((input ++ slack).take u).drop l))) := by
  refine ⟨?_, ?_, ?_, ?_⟩
  · intro s
    exact Trim_spec s 32
  · intro a b m h1 h2
    exact Trim_strip a b 32 m h1 h2
  · intro s
    rfl
  · intro noTrim ch input slack c c' values values' h hn
    exact (Chop_records _ ch input slack c c' values values' h).2 hn

/-- C14: on data that is white space, a quote character `q`, a body without
`q`, the closing `q` and anything after it, `ScanText` returns as token the
span from the opening to the closing quote, both included, for both values of
`atEOF`. -/
theorem quoted_span_token (pre body rest : List Nat) (q : Nat) (atEOF : Bool)
    (hpre : SpaceRun pre) (hq : q = 39 ∨ q = 34) (hbody : q ∉ body) :
    (ScanText (pre ++ q :: body ++ q :: rest) atEOF).2 = some (q :: body ++ [q]) := by
  rw [ScanText_quoted pre body rest q hpre hq hbody atEOF]

/-- Witness of C14: the data `  'a b' c`. -/
theorem quoted_span_token_witness :
    (ScanText ([32, 32] ++ 39 :: bytes "a b" ++ 39 :: bytes " c") false).2 =
      some (39 :: bytes "a b" ++ [39]) :=
  quoted_span_token [32, 32] (bytes "a b") (bytes " c") 39 false
    (SpaceRun.cons [32] [32] (by decide) spaceRun_single) (by decide) (by decide)

/-- C15, what the code does: on an opening quote `q` that is never closed, the
first call of `ScanText` (`atEOF = false`) returns no token and an advance that
takes the quote, so that the scanner goes on at EOF with what follows the quote
as if the quote had not been there: `Scan`, on a scanner that holds the rest of
the expression in its window, returns what it returns at EOF on the bytes
after the quote. -/
theorem unclosed_quote_rescanned (pre body : List Nat) (q : Nat)
    (hpre : SpaceRun pre) (hq : q = 39 ∨ q = 34) (hbody : q ∉ body) :
    ScanText (pre ++ q :: body) false = (pre.length + 1, none) ∧
    scanBuffered (pre ++ q :: body) false = scanBuffered body true ∧
    (∀ s : Scanner, s.Exhausted → s.window = pre ++ q :: body → s.err = false →
      s.Scan.map (fun r => (r.1, r.2.window, r.2.err)) = scanBuffered body true) := by
  refine ⟨?_, scanBuffered_unclosed pre body q hpre hq hbody, ?_⟩
  · rw [ScanText_unclosed pre body q hpre hq hbody false]
    simp
  · intro s hs hw he
    exact Scan_unclosed s pre body q hpre hq hbody hs hw he

/-- Witness of C15: the expression `x 'a b` gives the tokens `x`, `a`, `b`,
while `ScanText` called at EOF on `'a b` returns the one token `a b`. -/
theorem unclosed_quote_rescanned_witness :
    (ScanText ([] ++ 39 :: bytes "a b") false = (([] : List Nat).length + 1, none) ∧
      scanBuffered ([] ++ 39 :: bytes "a b") false = scanBuffered (bytes "a b") true ∧
      (∀ s : Scanner, s.Exhausted → s.window = [] ++ 39 :: bytes "a b" → s.err = false →
        s.Scan.map (fun r => (r.1, r.2.window, r.2.err)) = scanBuffered (bytes "a b") true)) ∧
    tokens (bytes "x 'a b") = [bytes "x", bytes "a", bytes "b"] ∧
    ScanText (bytes "'a b") true = (4, some (bytes "a b")) :=
  ⟨unclosed_quote_rescanned [] (bytes "a b") 39 SpaceRun.nil (by decide) (by decide),
   by rw [tokens_buffered _ (by decide)]; decide, by decide⟩

/-- C16: every token that `ScanText` returns is non-empty, for every data and
both values of `atEOF`; so every token that `Parse` reads from its scanner is
non-empty, and `Parse` never faults at `next[0]`. -/
theorem tokens_nonempty :
    (∀ (data : List Nat) (atEOF : Bool) (tok : List Nat),
      (ScanText data atEOF).2 = some tok → tok ≠ []) ∧
    (∀ (parse : List Nat), ∀ t ∈ tokens parse, t ≠ []) ∧
    (∀ (cfg : Config) (parse : List Nat), ∃ chs, Parse cfg parse = some chs) :=
  ⟨fun data atEOF tok h => ScanText_token_ne data atEOF tok h,
   fun parse t ht => tokens_ne parse t ht,
   fun cfg parse => parseLoop_isSome cfg (tokens parse).length (tokens parse) [] (le_refl _)
     (fun t ht => tokens_ne parse t ht)⟩

/-- C17, what the code does: when `strconv.Unquote` returns an error, `main`
goes on with the empty parse expression: no chopper is compiled, every input
line is processed and gives the empty mapping, and the exit code is 0. -/
theorem unquote_error_ignored (cfg : Config) (Unquote : List Nat → Option (List Nat))
    (parse : List Nat) (lines : List (List Nat × List Nat))
    (herr : Unquote ([34] ++ parse ++ [34]) = none) :
    mainRun cfg Unquote parse lines = (lines.map (fun _ => Values.empty), 0) := by
  unfold mainRun
  rw [herr]
  simp only [Option.getD_none, Parse_nil]
  exact runLines_nil cfg lines

/-- Witness of C17: the parse expression `a\q b` (no such escape), two lines. -/
theorem unquote_error_ignored_witness :
    mainRun defaultConfig (fun _ => none) (bytes "a" ++ [92] ++ bytes "q b")
        [(bytes "foo bar", []), (bytes "baz", [])] =
      (([(bytes "foo bar", []), (bytes "baz", [])] : List (List Nat × List Nat)).map
        (fun _ => Values.empty), 0) :=
  unquote_error_ignored defaultConfig (fun _ => none) (bytes "a" ++ [92] ++ bytes "q b")
    [(bytes "foo bar", []), (bytes "baz", [])] rfl

/-- C18, what the code does: on a quoted token whose closing quote is the last
byte of `data`, `ScanText` returns the advance `len(data) + 1`, and `Scan`
returns false without the token, whatever else the scanner holds. -/
theorem quoted_last_byte_advance (pre body : List Nat) (q : Nat) (atEOF : Bool)
    (hpre : SpaceRun pre) (hq : q = 39 ∨ q = 34) (hbody : q ∉ body) :
    ScanText (pre ++ q :: body ++ [q]) atEOF =
      ((pre ++ q :: body ++ [q]).length + 1, some (q :: body ++ [q])) ∧
    scanBuffered (pre ++ q :: body ++ [q]) atEOF = none ∧
    (∀ s : Scanner, s.window = pre ++ q :: body ++ [q] → s.Scan = none) := by
  refine ⟨?_, scanBuffered_quoted_last pre body q hpre hq hbody atEOF, ?_⟩
  · rw [ScanText_quoted pre body [] q hpre hq hbody atEOF]
    simp only [List.length_append, List.length_cons, List.length_nil]
    congr 1
  · intro s hw
    exact Scan_quoted_last s pre body q hpre hq hbody hw

/-- Witness of C18: the data `","` of three bytes, advance 4. -/
theorem quoted_last_byte_advance_witness :
    ScanText ([] ++ 34 :: bytes "," ++ [34]) false =
      (([] ++ 34 :: bytes "," ++ [34]).length + 1, some (34 :: bytes "," ++ [34])) ∧
    scanBuffered ([] ++ 34 :: bytes "," ++ [34]) false = none ∧
    (∀ s : Scanner, s.window = [] ++ 34 :: bytes "," ++ [34] → s.Scan = none) :=
  quoted_last_byte_advance [] (bytes ",") 34 false SpaceRun.nil (by decide) (by decide)

/-- C19, what the code does: with the delimiter `,,` and skip-all, on the line
`a,,,` the skip loop evaluates the slice `[3:5]` of a 4-byte line: with spare
capacity it reads one byte beyond the line, with none the chopper faults; on
the 8-byte line `abcde,,,` without spare capacity the slice is `[7:9]` and the
chopper faults. -/
theorem skip_loop_reads_past_line :
    skipSlices (bytes "a,,,") [0, 0, 0, 0] (bytes ",,") 4 3 = [(3, 5)] ∧
    (DelimChunk.Chop defaultConfig ⟨bytes "x", bytes ",,", true⟩ (bytes "a,,,") [0, 0, 0, 0] 0
      Values.empty).map (fun r => (r.1, r.2 (bytes "x"))) = some (3, some (bytes "a")) ∧
    (DelimChunk.Chop defaultConfig ⟨bytes "x", bytes ",,", true⟩ (bytes "a,,,") [] 0
      Values.empty).isNone = true ∧
    skipSlices (bytes "abcde,,,") [] (bytes ",,") 8 7 = [(7, 9)] ∧
    (chopLine defaultConfig (bytes "abcde,,,") []
      [.delim ⟨bytes "x", bytes ",,", true⟩, .delim ⟨bytes "y", [], false⟩] 0
      Values.empty).1 = none := by
  decide

/-- C20: when no chopper of the list faults on the line, the keys of the
mapping built from the empty one are exactly the names of the choppers other
than `"."`, whatever the line; and the value under the name of a chopper that
no later chopper shares is the one that this chopper recorded. -/
theorem mapping_keys_are_names (cfg : Config) (line slack : List Nat) (chs : List Chopper)
    (c : Int) (v : Values) (h : chopLine cfg line slack chs 0 Values.empty = (some c, v)) :
    (∀ k, (v k).isSome = true ↔ (k ∈ chs.map Chopper.name ∧ k ≠ dot)) ∧
    (∀ pre ch post, chs = pre ++ ch :: post → ch.name ∉ post.map Chopper.name →
      ∃ c₁ v₁ c₂ v₂, chopLine cfg line slack pre 0 Values.empty = (some c₁, v₁) ∧
        ch.Chop cfg line slack c₁ v₁ = some (c₂, v₂) ∧ v ch.name = v₂ ch.name) := by
  constructor
  · intro k
    rw [chopLine_keys cfg line slack chs 0 c Values.empty v h k]
    simp [Values.empty]
  · intro pre ch post hchs hlast
    subst hchs
    obtain ⟨c₁, v₁, c₂, v₂, h1, h2, h3⟩ :=
      chopLine_split cfg line slack pre ch post 0 c Values.empty v h
    exact ⟨c₁, v₁, c₂, v₂, h1, h2, chopLine_frame cfg line slack post c₂ c v₂ v h3 _ hlast⟩

/-- Witness of C20: two choppers named `a`, delimiter `" "` with skip-all and
rest of line, on the line `foo bar`: the one key is `a`, its value `bar`. -/
theorem mapping_keys_are_names_witness :
    (∀ k, ((chopLine defaultConfig (bytes "foo bar") []
        [.delim ⟨bytes "a", [32], true⟩, .delim ⟨bytes "a", [], false⟩] 0 Values.empty).2
          k).isSome = true ↔
      (k ∈ ([.delim ⟨bytes "a", [32], true⟩, .delim ⟨bytes "a", [], false⟩] :
        List Chopper).map Chopper.name ∧ k ≠ dot)) ∧
    (chopLine defaultConfig (bytes "foo bar") []
      [.delim ⟨bytes "a", [32], true⟩, .delim ⟨bytes "a", [], false⟩] 0 Values.empty).2
        (bytes "a") = some (bytes "bar") :=
  ⟨(mapping_keys_are_names defaultConfig (bytes "foo bar") []
      [.delim ⟨bytes "a", [32], true⟩, .delim ⟨bytes "a", [], false⟩] 7
      (chopLine defaultConfig (bytes "foo bar") []
        [.delim ⟨bytes "a", [32], true⟩, .delim ⟨bytes "a", [], false⟩] 0 Values.empty).2
      (Prod.ext (by decide) rfl)).1,
   by decide⟩

end Rxparse
